import Mathlib

/-!
# Verification of the mygrations migration planner

A shallow embedding, in Lean 4, of the migration planner of the `mygrations`
repository, together with proofs and refutations of the frozen claims about
its specification.

The embedding follows the two Python source files available under `src/`:

* `mygrations/formats/mysql/definitions/table.py`   (the `table` class)
* `mygrations/formats/mysql/mygrations/mygration.py` (the `mygration` class)

Classes of the repository that are referenced by those two files but whose
source is not available (`database`, `column`, `index`, `constraint`, `rows`
and the operation classes) are modelled from the specification; every such
definition carries a doc comment starting with `Modelled from the spec:`.

Python dictionaries (`OrderedDict`) are modelled as insertion-ordered
association lists keyed by the `.name` field of their entries; Python
exceptions are modelled with `Except PyErr`.
-/

set_option maxHeartbeats 1000000

namespace Mygrations

/-- Python exceptions raised (or reachable) in the embedded code.
`valueErr` models `ValueError` (the structural-precondition errors raised by
`table.py`), `attributeErr` models `AttributeError` (e.g. calling `.extend`
on a `dict`, or reading `.name` on a `str`), `nameErr` models `NameError`
(e.g. the misspelled `retrun` / `ValuerError` identifiers), `typeErr` models
`TypeError`, `keyErr` models `KeyError` (missing dictionary key) and
`indexErr` models `IndexError` (out-of-range list access). -/
inductive PyErr where
  | valueErr (msg : String)
  | attributeErr (msg : String)
  | nameErr (msg : String)
  | typeErr (msg : String)
  | keyErr (key : String)
  | indexErr
deriving DecidableEq, Repr

/-- Modelled from the spec: the FK referential actions
`on_delete, on_update ∈ {restrict, cascade, set_null, no_action}` (§3,
"Constraint"). The `column`/`constraint` classes are not under `src/`. -/
inductive RefAction where
  | restrict
  | cascade
  | setNull
  | noAction
deriving DecidableEq, Repr

/-- Modelled from the spec: a column
(`name, type, length?, unsigned?, nullable, default?, auto_increment?`, §3).
The spec compares columns by their canonical rendered SQL form; that
rendering is injective on these fields, so the embedding compares columns
structurally (`DecidableEq`). -/
structure Column where
  name : String
  colType : String
  length : Option Nat
  unsigned : Bool
  nullable : Bool
  defaultValue : Option String
  autoIncrement : Bool
deriving DecidableEq, Repr

/-- Modelled from the spec: the index kinds (§3, "Index"). -/
inductive IndexType where
  | primary
  | unique
  | regular
  | fulltext
deriving DecidableEq, Repr

/-- Modelled from the spec: an index: `name, columns : [string]` (ordered)
and a type (§3, "Index"). Index columns are column *names* (strings), as the
spec states. -/
structure Index where
  name : String
  columns : List String
  idxType : IndexType
deriving DecidableEq, Repr

/-- Modelled from the spec: a foreign-key constraint (§3, "Constraint"). -/
structure Constraint where
  name : String
  localColumns : List String
  foreignTable : String
  foreignColumns : List String
  onDelete : RefAction
  onUpdate : RefAction
deriving DecidableEq, Repr

/-- Modelled from the spec: a parsed `rows` object (seed data) as consumed by
`table.add_rows` (§3 `rows`, and the attribute accesses in `table.py`):
a possibly-empty list of explicit column names, the number of explicit
columns, the raw value rows (each a list of SQL literal strings) and the
parser errors. -/
structure RowsDef where
  columns : List String
  numExplicitColumns : Nat
  rawRows : List (List String)
  errors : List String
deriving DecidableEq, Repr

/-- The `table` class of `table.py`: name, options, ordered columns, indexes
and constraints, seed rows with their auto-increment counter, parser
errors/warnings, and the `_indexed_columns` cache used by
`column_is_indexed` (`None` until first built). Ordered dictionaries are
embedded as lists keyed by `.name`; `rows` is keyed by the row id. -/
structure Table where
  name : String
  options : List String
  columns : List Column
  indexes : List Index
  constraints : List Constraint
  rows : Option (List (Int × List (String × String)))
  autoIncrement : Int
  errors : List String
  warnings : List String
  indexedColumns : Option (List String)
deriving DecidableEq, Repr

namespace Table

/-- A fresh table, as built by `table.__init__`: empty ordered maps, no rows
yet (`_rows = None`), auto-increment 1 and no indexed-columns cache. -/
def mkNamed (name : String) : Table :=
  { name := name, options := [], columns := [], indexes := [], constraints := [],
    rows := none, autoIncrement := 1, errors := [], warnings := [],
    indexedColumns := none }

/-- The column names of a table, in insertion order (the keys of
`self._columns`). -/
def colNames (t : Table) : List String := t.columns.map Column.name

/-- The index names of a table, in insertion order. -/
def idxNames (t : Table) : List String := t.indexes.map Index.name

/-- The constraint names of a table, in insertion order. -/
def conNames (t : Table) : List String := t.constraints.map Constraint.name

/-- Dictionary lookup `self._columns[name]` (first entry with that name). -/
def findCol (t : Table) (n : String) : Option Column :=
  t.columns.find? (fun c => c.name = n)

/-- Dictionary lookup `self._indexes[name]`. -/
def findIdx (t : Table) (n : String) : Option Index :=
  t.indexes.find? (fun i => i.name = n)

/-- Dictionary lookup `self._constraints[name]`. -/
def findCon (t : Table) (n : String) : Option Constraint :=
  t.constraints.find? (fun c => c.name = n)

end Table

/-- The `position` argument of `table.add_column`: Python `False` (append at
the end), `True` (put the column first) or a column name (insert directly
after that column). -/
inductive Position where
  | atEnd
  | atFront
  | after (anchor : String)
deriving DecidableEq, Repr

/-- The result of `table.column_before`: Python `True` when the column is
first, otherwise the name of the preceding column. -/
inductive ColPos where
  | first
  | after (name : String)
deriving DecidableEq, Repr

namespace Table

/-- `table.column_before(column_name)`: position of `column_name` among the
ordered column names; `ValueError` when the column does not exist. -/
def columnBefore (t : Table) (c : String) : Except PyErr ColPos :=
  let keys := t.colNames
  match keys.findIdx? (fun k => k = c) with
  | none => .error (.valueErr ("Cannot return column before " ++ c ++
      " because " ++ c ++ " does not exist in table " ++ t.name))
  | some 0 => .ok .first
  | some (i + 1) => .ok (.after (keys.getD i ""))

/-- `table.add_column(column, position)`. Raises `ValueError` when a column
of that name already exists or (in the `AFTER` case) when the anchor column
does not exist; the table is only mutated on the success paths
(`self._columns = new_columns` runs after the `found` check).
The result is the pair (table state when the call returns or raises,
the raised error if any); Python leaves `self` untouched on both raises. -/
def addColumnSt (t : Table) (column : Column) (position : Position) :
    Table × Option PyErr :=
  if (t.findCol column.name).isSome then
    (t, some (.valueErr ("Cannot add column " ++ column.name ++ " because " ++
      column.name ++ " already exists")))
  else
    match position with
    | .atEnd => ({ t with columns := t.columns ++ [column] }, none)
    | .atFront => ({ t with columns := column :: t.columns }, none)
    | .after anchor =>
      -- `new_columns` is rebuilt from scratch; it replaces `self._columns`
      -- only when the anchor was found.
      let newColumns := t.columns.flatMap
        (fun c => if c.name = anchor then [c, column] else [c])
      if t.colNames.contains anchor then
        ({ t with columns := newColumns }, none)
      else
        (t, some (.valueErr ("Cannot add column " ++ column.name ++ " after " ++
          anchor ++ " because " ++ anchor ++ " does not exist")))

/-- `table.add_column` as an `Except` computation (the raising view of
`addColumnSt`). -/
def addColumn (t : Table) (column : Column) (position : Position) :
    Except PyErr Table :=
  match addColumnSt t column position with
  | (t2, none) => .ok t2
  | (_, some e) => .error e

/-- `table.remove_column(column_name)`: `ValueError` when absent, otherwise
pop the column. -/
def removeColumn (t : Table) (columnName : String) : Except PyErr Table :=
  if (t.findCol columnName).isSome then
    .ok { t with columns := t.columns.filter (fun c => c.name ≠ columnName) }
  else
    .error (.valueErr ("Cannot remove column " ++ columnName ++
      " because column " ++ columnName ++ " does not exist"))

/-- `table.change_column(new_column)`: `ValueError` when no column of that
name exists, otherwise replace the entry in place. -/
def changeColumn (t : Table) (newColumn : Column) : Except PyErr Table :=
  if (t.findCol newColumn.name).isSome then
    .ok { t with
      columns := t.columns.map (fun c => if c.name = newColumn.name then newColumn else c) }
  else
    .error (.valueErr ("Cannot modify column " ++ newColumn.name ++
      " because column " ++ newColumn.name ++ " does not exist"))

/-- `table.add_key(key)`: `ValueError` when a key of that name exists.
After inserting, the code updates the `_indexed_columns` cache with
`key.columns[0].name`; index columns are strings (§3), so when the cache has
been built this raises `AttributeError` (`IndexError` first when the key has
no columns). The insertion itself happens before the raise in Python; the
embedding returns only the error for the raising paths. -/
def addKey (t : Table) (key : Index) : Except PyErr Table :=
  if (t.findIdx key.name).isSome then
    .error (.valueErr ("Cannot add key " ++ key.name ++ " because " ++
      key.name ++ " already exists"))
  else
    match t.indexedColumns with
    | none => .ok { t with indexes := t.indexes ++ [key] }
    | some _ =>
      match key.columns with
      | [] => .error .indexErr
      | _ :: _ => .error (.attributeErr "str object has no attribute name")

/-- `table.remove_key(key)`: the argument is converted to the key *name*
(a string); `ValueError` when absent. After popping, the cache update reads
`key.columns[0].name` — but `key` is a string at that point, so a built
cache means `AttributeError`. -/
def removeKey (t : Table) (key : String) : Except PyErr Table :=
  if (t.findIdx key).isSome then
    match t.indexedColumns with
    | none => .ok { t with indexes := t.indexes.filter (fun i => i.name ≠ key) }
    | some _ => .error (.attributeErr "str object has no attribute columns")
  else
    .error (.valueErr ("Cannot remove key " ++ key ++ " because key " ++ key ++
      " does not exist"))

/-- `table.change_key(new_key)`: `ValueError` when no key of that name
exists. When the cache is built, the update reads
`self._indexes[new_key.name].columns[0].name` — `.name` on a string —
raising `AttributeError` (`IndexError` when the stored key has no columns). -/
def changeKey (t : Table) (newKey : Index) : Except PyErr Table :=
  match t.findIdx newKey.name with
  | none => .error (.valueErr ("Cannot modify key " ++ newKey.name ++
      " because key " ++ newKey.name ++ " does not exist"))
  | some stored =>
    match t.indexedColumns with
    | none => .ok { t with
        indexes := t.indexes.map (fun i => if i.name = newKey.name then newKey else i) }
    | some _ =>
      match stored.columns with
      | [] => .error .indexErr
      | _ :: _ => .error (.attributeErr "str object has no attribute name")

/-- `table.add_constraint(constraint)`: `ValueError` when one of that name
exists. -/
def addConstraint (t : Table) (c : Constraint) : Except PyErr Table :=
  if (t.findCon c.name).isSome then
    .error (.valueErr ("Cannot add constraint " ++ c.name ++ " because constraint " ++
      c.name ++ " already exists"))
  else
    .ok { t with constraints := t.constraints ++ [c] }

/-- `table.remove_constraint(constraint)`: the argument is converted to its
name; `ValueError` when absent, otherwise pop. -/
def removeConstraint (t : Table) (name : String) : Except PyErr Table :=
  if (t.findCon name).isSome then
    .ok { t with constraints := t.constraints.filter (fun c => c.name ≠ name) }
  else
    .error (.valueErr ("Cannot remove constraint " ++ name ++
      " because constraint " ++ name ++ " does not exist"))

/-- `table.change_constraint(new_constraint)`: `ValueError` when absent,
otherwise replace in place. -/
def changeConstraint (t : Table) (c : Constraint) : Except PyErr Table :=
  if (t.findCon c.name).isSome then
    .ok { t with
      constraints := t.constraints.map (fun x => if x.name = c.name then c else x) }
  else
    .error (.valueErr ("Cannot modify constraint " ++ c.name ++
      " because constraint " ++ c.name ++ " does not exist"))

/-- Building the `_indexed_columns` cache:
`set( [ index.columns[0] for index in self._indexes.values() ] )`.
Raises `IndexError` when some index has an empty column list. The set is
modelled as the list of first columns (only membership is ever used). -/
def buildIndexedColumns : List Index → Except PyErr (List String)
  | [] => .ok []
  | i :: rest =>
    match i.columns with
    | [] => .error .indexErr
    | c :: _ => (buildIndexedColumns rest).map (fun l => c :: l)

/-- `table.column_is_indexed(column)` (with the argument already reduced to
a column name, as the code does). Returns `False` without touching the cache
when the column does not exist; otherwise builds the cache on first use and
answers by membership. Returns the possibly-updated table and the answer. -/
def columnIsIndexed (t : Table) (column : String) :
    Except PyErr (Table × Bool) :=
  if (t.findCol column).isSome then
    match t.indexedColumns with
    | some cache => .ok (t, cache.contains column)
    | none =>
      (buildIndexedColumns t.indexes).map
        (fun cache => ({ t with indexedColumns := some cache }, cache.contains column))
  else
    .ok (t, false)

/-- Python `int(...)` on a raw SQL literal: an optional sign followed by
decimal digits. Modelled from the spec: raw row values come from the parser
(not under `src/`) as literal strings. -/
def pyInt? (s : String) : Option Int :=
  let core := fun (ds : List Char) =>
    if ds ≠ [] ∧ ds.all Char.isDigit then
      some (ds.foldl (fun (acc : Nat) c => acc * 10 + (c.toNat - 48)) 0)
    else none
  match s.toList with
  | '-' :: rest => (core rest).map (fun n => -(n : Int))
  | l => (core l).map (fun n => (n : Int))

/-- One iteration of the `for values in rows.raw_rows` loop of
`table.add_rows`. Returns either the updated table or, on the Python
`return`-a-string paths, the table together with the message; exceptions
propagate as errors. The `except ValuerError` clause is misspelled, so any
exception raised inside the `try` block (a missing `id` column, a short
values list, a non-integer id) surfaces as `NameError`. -/
def addRowsStep (tableName : String) (columns : List String)
    (explicit : Bool) (st : Table) (values : List String) :
    Except PyErr (Table ⊕ (Table × String)) :=
  if ¬ explicit ∧ values.length ≠ columns.length then
    .ok (.inr (st, "Insert values has wrong number of values for table " ++
      tableName))
  else
    match columns.findIdx? (fun c => c = "id") with
    | none => .error (.nameErr "name ValuerError is not defined")
    | some idIndex =>
      match values.get? idIndex with
      | none => .error (.nameErr "name ValuerError is not defined")
      | some raw =>
        match pyInt? raw with
        | none => .error (.nameErr "name ValuerError is not defined")
        | some rowId =>
          let st := { st with autoIncrement := max st.autoIncrement (rowId + 1) }
          let rowsMap := st.rows.getD []
          if rowsMap.any (fun p => p.1 = rowId) then
            .ok (.inr (st, "Duplicate row id found for table " ++ tableName))
          else
            .ok (.inl { st with
              rows := some (rowsMap ++ [(rowId, columns.zip values)]) })

/-- The `for values in rows.raw_rows` loop of `table.add_rows`. -/
def addRowsLoop (tableName : String) (columns : List String)
    (explicit : Bool) (st : Table) :
    List (List String) → Except PyErr (Table ⊕ (Table × String))
  | [] => .ok (.inl st)
  | values :: rest =>
    match addRowsStep tableName columns explicit st values with
    | .error e => .error e
    | .ok (.inr r) => .ok (.inr r)
    | .ok (.inl st2) => addRowsLoop tableName columns explicit st2 rest

/-- The result of `table.add_rows`: Python returns `False` (rows with
errors), an error string, or `True`; the embedding also carries the table
state at the point of return. -/
inductive AddRowsResult where
  | notProcessed (t : Table)
  | errString (t : Table) (msg : String)
  | done (t : Table)
deriving DecidableEq, Repr

/-- `table.add_rows(rows)`: rows with parser errors are skipped (`False`);
otherwise `_rows` is initialised when `None`, the effective column list is
the explicit one or the table's own columns, and each raw row is processed
in order. The misspelled `except ValuerError` means a row without a usable
explicit `id` raises `NameError` instead of taking the auto-increment path. -/
def addRows (t : Table) (rows : RowsDef) : Except PyErr AddRowsResult :=
  if rows.errors ≠ [] then .ok (.notProcessed t)
  else
    let t := if t.rows.isSome then t else { t with rows := some [] }
    let explicit := rows.numExplicitColumns ≠ 0
    let columns := if explicit then rows.columns else t.colNames
    match addRowsLoop t.name columns explicit t rows.rawRows with
    | .error e => .error e
    | .ok (.inl t2) => .ok (.done t2)
    | .ok (.inr (t2, msg)) => .ok (.errString t2 msg)

end Table

end Mygrations

namespace Mygrations

/-! ## Operations

Modelled from the spec (§4.2): the operation classes
(`add_column`, `remove_column`, …, `alter_table`, `create_table`,
`remove_table`) are not under `src/`; each is a tagged variant carrying the
column/index/constraint it describes. -/

/-- Modelled from the spec: a sub-operation of an `ALTER TABLE` (§4.2). -/
inductive SubOp where
  | addCol (c : Column) (pos : Position)
  | changeCol (c : Column)
  | removeCol (c : Column)
  | addKeyOp (k : Index)
  | removeKeyOp (k : Index)
  | changeKeyOp (k : Index)
  | addConstraintOp (c : Constraint)
  | changeConstraintOp (c : Constraint)
  | removeConstraintOp (c : Constraint)
deriving DecidableEq, Repr

/-- Modelled from the spec: `alter_table`, a grouping of sub-operations
against one table; it is falsy when it has no sub-operations (§4.2). -/
structure AlterTable where
  tableName : String
  subOps : List SubOp
deriving DecidableEq, Repr

/-- Modelled from the spec: a planner-level operation: `create_table` (which
holds the table definition), `remove_table`, or an `alter_table` group. -/
inductive Operation where
  | createTable (t : Table)
  | removeTableOp (name : String)
  | alterTableOp (a : AlterTable)
deriving DecidableEq, Repr

/-- `table.create()`: a create-table operation holding this table. -/
def Table.create (t : Table) : Operation := Operation.createTable t

/-! ## Database

Modelled from the spec (§3, §4.1): the `database` class is not under
`src/`. A database is an insertion-ordered mapping from name to table. -/

/-- Modelled from the spec: a `database`, an ordered mapping name → table
(embedded as an insertion-ordered list keyed by `Table.name`). -/
structure Database where
  tables : List Table
deriving DecidableEq, Repr

namespace Database

/-- The table names, in insertion order (the keys of `self.tables`). -/
def names (d : Database) : List String := d.tables.map Table.name

/-- Dictionary lookup `self.tables[name]`. -/
def findTable (d : Database) (n : String) : Option Table :=
  d.tables.find? (fun t => t.name = n)

/-- Modelled from the spec: `database.add_table` — ordered-mapping update
(replace in place when the name exists, append otherwise). -/
def addTable (d : Database) (t : Table) : Database :=
  if d.names.contains t.name then
    ⟨d.tables.map (fun x => if x.name = t.name then t else x)⟩
  else ⟨d.tables ++ [t]⟩

/-- Modelled from the spec: `database.remove_table` — drop the entry. -/
def removeTable (d : Database) (n : String) : Database :=
  ⟨d.tables.filter (fun t => t.name ≠ n)⟩

/-- Ordered-mapping in-place update at a key (used for applying an
`ALTER TABLE` to a tracking database). -/
def setTable (d : Database) (n : String) (t : Table) : Database :=
  ⟨d.tables.map (fun x => if x.name = n then t else x)⟩

end Database

/-- One entry of the mapping returned by `database.unfulfilled_fks`:
`{error, foreign_key}` (§3). -/
structure BadFk where
  error : String
  foreignKey : Constraint
deriving DecidableEq, Repr

/-- Modelled from the spec: MySQL type compatibility for FK endpoints —
"same base type, same signedness, same length for fixed widths" (§4.4
rule 4). -/
def typeCompatible (a b : Column) : Bool :=
  a.colType = b.colType && a.unsigned = b.unsigned && a.length = b.length

/-- Modelled from the spec: the §4.4 satisfiability check for a single FK of
table `t` against database `db`: the referenced table must exist (rule 1),
every referenced column must exist in it (rule 2), the referenced columns
must be the leftmost columns, in order, of one of its indexes (rule 3), and
each local/foreign column pair must have compatible types (rule 4). Returns
the 1215-style error message, or `none` when the FK is satisfiable. -/
def fkProblem (db : Database) (t : Table) (fk : Constraint) : Option String :=
  match db.findTable fk.foreignTable with
  | none => some ("1215 Cannot add foreign key constraint " ++ fk.name ++
      ": references unknown table " ++ fk.foreignTable)
  | some f =>
    if fk.foreignColumns.any (fun c => (f.findCol c).isNone) then
      some ("1215 Cannot add foreign key constraint " ++ fk.name ++
        ": missing referenced column in table " ++ fk.foreignTable)
    else if ¬ f.indexes.any (fun i => fk.foreignColumns.isPrefixOf i.columns) then
      some ("1215 Cannot add foreign key constraint " ++ fk.name ++
        ": referenced columns are not the leftmost columns of an index of " ++
        fk.foreignTable)
    else if (fk.localColumns.zip fk.foreignColumns).any (fun p =>
        match t.findCol p.1, f.findCol p.2 with
        | some lc, some fc => ¬ typeCompatible lc fc
        | _, _ => true) then
      some ("1215 Cannot add foreign key constraint " ++ fk.name ++
        ": incompatible column types")
    else none

/-- Modelled from the spec: `database.unfulfilled_fks(table)` — the subset
of `table`'s FKs that cannot be satisfied against `db`, in constraint
insertion order, each with its 1215 error (§3, §4.4). -/
def Database.unfulfilledFks (db : Database) (t : Table) : List BadFk :=
  t.constraints.filterMap (fun fk => (fkProblem db t fk).map (fun e => ⟨e, fk⟩))

/-! ## Applying operations to a tracking database

Modelled from the spec (§2, §4.2): "Each operation knows how to apply
itself to a `Table` to keep a tracking schema in sync". The apply methods
live on the operation classes, which are not under `src/`; the embedding
below is total (a sub-operation whose precondition fails leaves the table
unchanged — the claims only apply operations the planner itself emitted). -/

/-- Modelled from the spec: apply one `ALTER TABLE` sub-operation to a
table. -/
def applySubOp (t : Table) : SubOp → Table
  | .addCol c pos =>
    if (t.findCol c.name).isSome then t
    else
      match pos with
      | .atEnd => { t with columns := t.columns ++ [c] }
      | .atFront => { t with columns := c :: t.columns }
      | .after anchor =>
        if t.colNames.contains anchor then
          { t with
            columns := t.columns.flatMap (fun x => if x.name = anchor then [x, c] else [x]) }
        else t
  | .changeCol c =>
    { t with columns := t.columns.map (fun x => if x.name = c.name then c else x) }
  | .removeCol c => { t with columns := t.columns.filter (fun x => x.name ≠ c.name) }
  | .addKeyOp k =>
    if (t.findIdx k.name).isSome then t else { t with indexes := t.indexes ++ [k] }
  | .removeKeyOp k => { t with indexes := t.indexes.filter (fun x => x.name ≠ k.name) }
  | .changeKeyOp k =>
    { t with indexes := t.indexes.map (fun x => if x.name = k.name then k else x) }
  | .addConstraintOp c =>
    if (t.findCon c.name).isSome then t
    else { t with constraints := t.constraints ++ [c] }
  | .changeConstraintOp c =>
    { t with constraints := t.constraints.map (fun x => if x.name = c.name then c else x) }
  | .removeConstraintOp c =>
    { t with constraints := t.constraints.filter (fun x => x.name ≠ c.name) }

/-- Modelled from the spec: apply one planner operation to a database. -/
def applyOp (db : Database) : Operation → Database
  | .createTable t => db.addTable t
  | .removeTableOp n => db.removeTable n
  | .alterTableOp a =>
    match db.findTable a.tableName with
    | none => db
    | some t => db.setTable a.tableName (a.subOps.foldl applySubOp t)

/-- Apply a list of operations in order. -/
def applyOps (db : Database) (ops : List Operation) : Database :=
  ops.foldl applyOp db

/-- The constraint added (or redefined) by a sub-operation, if any. -/
def SubOp.fkAdd : SubOp → Option Constraint
  | .addConstraintOp c => some c
  | .changeConstraintOp c => some c
  | _ => none

/-- The foreign keys added by one operation, as (table name, constraint)
pairs: a `CREATE TABLE` adds all constraints of its table, an
`ALTER TABLE` adds its `ADD CONSTRAINT` / `CHANGE CONSTRAINT`
sub-operations. -/
def Operation.opFksAdded : Operation → List (String × Constraint)
  | .createTable t => t.constraints.map (fun c => (t.name, c))
  | .removeTableOp _ => []
  | .alterTableOp a =>
    a.subOps.filterMap (fun o => (SubOp.fkAdd o).map (fun c => (a.tableName, c)))

/-- All foreign keys added by a list of operations, in emission order. -/
def fksAdded (ops : List Operation) : List (String × Constraint) :=
  ops.flatMap Operation.opFksAdded

/-- A foreign key of the table named `tname` is satisfiable in `db`: the
table exists and the §4.4 check reports no problem. -/
def fkSatisfiableB (db : Database) (tname : String) (fk : Constraint) : Bool :=
  match db.findTable tname with
  | none => false
  | some t => (fkProblem db t fk).isNone

/-! ## The table differ: `table.to(comparison_table, split_operations)` -/

/-- `_differences(a, b)` of `mygration.py` / `table.py`:
`(added, removed, overlap)` — keys of `b` not in `a` (in `b`'s order), keys
of `a` not in `b`, keys of `a` also in `b` (both in `a`'s order). -/
def differences (a b : List String) : List String × List String × List String :=
  (b.filter (fun k => ¬ a.contains k),
   a.filter (fun k => ¬ b.contains k),
   a.filter (fun k => b.contains k))

/-- The `Position` carried by an `add_column` operation built from a
`column_before` result (Python `True` ↦ first, a name ↦ after it). -/
def ColPos.toPosition : ColPos → Position
  | .first => .atFront
  | .after n => .after n

/-- The `ADD COLUMN` sub-operations of `table.to`: for each added column (in
target order), the column object and its target-schema predecessor. -/
def addColOps (tgt : Table) : List String → Except PyErr (List SubOp)
  | [] => .ok []
  | c :: rest =>
    match tgt.findCol c with
    | none => .error (.keyErr c)
    | some col =>
      match tgt.columnBefore c with
      | .error e => .error e
      | .ok pos => (addColOps tgt rest).map (fun l => SubOp.addCol col pos.toPosition :: l)

/-- The `CHANGE COLUMN` sub-operations of `table.to`: overlap columns whose
canonical renderings differ (compared structurally, see `Column`). -/
def changeColOps (src tgt : Table) : List String → Except PyErr (List SubOp)
  | [] => .ok []
  | c :: rest =>
    match src.findCol c, tgt.findCol c with
    | some a, some b =>
      (changeColOps src tgt rest).map (fun l => if a = b then l else SubOp.changeCol b :: l)
    | _, _ => .error (.keyErr c)

/-- The `DROP COLUMN` sub-operations of `table.to`. -/
def removeColOps (src : Table) : List String → Except PyErr (List SubOp)
  | [] => .ok []
  | c :: rest =>
    match src.findCol c with
    | none => .error (.keyErr c)
    | some col => (removeColOps src rest).map (fun l => SubOp.removeCol col :: l)

/-- The `ADD KEY` sub-operations of `table.to`. -/
def addKeyOps (tgt : Table) : List String → Except PyErr (List SubOp)
  | [] => .ok []
  | k :: rest =>
    match tgt.findIdx k with
    | none => .error (.keyErr k)
    | some i => (addKeyOps tgt rest).map (fun l => SubOp.addKeyOp i :: l)

/-- The `DROP KEY` sub-operations of `table.to`. -/
def removeKeyOps (src : Table) : List String → Except PyErr (List SubOp)
  | [] => .ok []
  | k :: rest =>
    match src.findIdx k with
    | none => .error (.keyErr k)
    | some i => (removeKeyOps src rest).map (fun l => SubOp.removeKeyOp i :: l)

/-- The `CHANGE KEY` sub-operations of `table.to` (overlap keys whose
renderings differ). -/
def changeKeyOps (src tgt : Table) : List String → Except PyErr (List SubOp)
  | [] => .ok []
  | k :: rest =>
    match src.findIdx k, tgt.findIdx k with
    | some a, some b =>
      (changeKeyOps src tgt rest).map (fun l => if a = b then l else SubOp.changeKeyOp b :: l)
    | _, _ => .error (.keyErr k)

/-- The `DROP FOREIGN KEY` sub-operations of `table.to` (removed
constraints, in source order). -/
def removeConOps (src : Table) : List String → Except PyErr (List SubOp)
  | [] => .ok []
  | c :: rest =>
    match src.findCon c with
    | none => .error (.keyErr c)
    | some k => (removeConOps src rest).map (fun l => SubOp.removeConstraintOp k :: l)

/-- The `ADD CONSTRAINT` sub-operations of `table.to` (added constraints,
in target order). -/
def addConOps (tgt : Table) : List String → Except PyErr (List SubOp)
  | [] => .ok []
  | c :: rest =>
    match tgt.findCon c with
    | none => .error (.keyErr c)
    | some k => (addConOps tgt rest).map (fun l => SubOp.addConstraintOp k :: l)

/-- The `CHANGE CONSTRAINT` sub-operations of `table.to` (overlap
constraints whose renderings differ). -/
def changeConOps (src tgt : Table) : List String → Except PyErr (List SubOp)
  | [] => .ok []
  | c :: rest =>
    match src.findCon c, tgt.findCon c with
    | some a, some b =>
      (changeConOps src tgt rest).map
        (fun l => if a = b then l else SubOp.changeConstraintOp b :: l)
    | _, _ => .error (.keyErr c)

/-- The three `ALTER TABLE` groups built by `table.to`: `primary_alter`
(columns then keys), `removed_constraints_alter` (FK drops) and
`constraints` (FK adds and changes), in the sub-operation order of the
source. -/
def tableToParts (src tgt : Table) :
    Except PyErr (AlterTable × AlterTable × AlterTable) := do
  let dCols := differences src.colNames tgt.colNames
  let dKeys := differences src.idxNames tgt.idxNames
  let dCons := differences src.conNames tgt.conNames
  let addC ← addColOps tgt dCols.1
  let chgC ← changeColOps src tgt dCols.2.2
  let remC ← removeColOps src dCols.2.1
  let addK ← addKeyOps tgt dKeys.1
  let remK ← removeKeyOps src dKeys.2.1
  let chgK ← changeKeyOps src tgt dKeys.2.2
  let remF ← removeConOps src dCons.2.1
  let addF ← addConOps tgt dCons.1
  let chgF ← changeConOps src tgt dCons.2.2
  pure (⟨src.name, addC ++ chgC ++ remC ++ addK ++ remK ++ chgK⟩,
        ⟨src.name, remF⟩,
        ⟨src.name, addF ++ chgF⟩)

/-- The `split_operations = True` result of `table.to`: the dict with up to
three keys, a key being present exactly when its alter is truthy
(non-empty). -/
structure SplitOps where
  removedFks : Option AlterTable
  kitchenSink : Option AlterTable
  fks : Option AlterTable
deriving DecidableEq, Repr

/-- `table.to(comparison_table, split_operations=True)`. -/
def tableToSplit (src tgt : Table) : Except PyErr SplitOps :=
  (tableToParts src tgt).map (fun parts =>
    ⟨if parts.2.1.subOps ≠ [] then some parts.2.1 else none,
     if parts.1.subOps ≠ [] then some parts.1 else none,
     if parts.2.2.subOps ≠ [] then some parts.2.2 else none⟩)

/-- `table.to(comparison_table, split_operations=False)`: one flattened
alter (`kitchen_sink + fks + removed_fks`), omitted when empty. -/
def tableToFlat (src tgt : Table) : Except PyErr (List Operation) :=
  (tableToParts src tgt).map (fun parts =>
    let combined : AlterTable :=
      ⟨src.name, parts.1.subOps ++ parts.2.2.subOps ++ parts.2.1.subOps⟩
    if combined.subOps ≠ [] then [Operation.alterTableOp combined] else [])

end Mygrations

namespace Mygrations

/-! ## The planner: `mygration._process` and its helpers -/

/-- The state threaded through `mygration._process_adds`: the tracking
database, the (mutated-in-place) `tables_to_add` list, the `good_tables`
set, the collected 1215 error strings and the emitted operations. -/
structure AddsSt where
  tracking : Database
  toAdd : List String
  good : List String
  errors : List String
  ops : List Operation
deriving DecidableEq, Repr

/-- One `for new_table_name in tables_to_add` sweep of
`mygration._process_adds`, with the Python list-iterator semantics made
explicit: `pre` holds the part of the live list already behind the
iterator, `rem` the part still ahead of it. `tables_to_add.remove(name)`
removes the element under the iterator (names are unique — they are
dictionary keys), after which the iterator's next step lands one past it,
so the element directly following a removed one is moved to `pre`
unexamined. -/
def sweepGo (dbTo : Database) (tracking : Database) (good errors : List String)
    (ops : List Operation) (pre : List String) :
    List String → Except PyErr AddsSt
  | [] => .ok ⟨tracking, pre, good, errors, ops⟩
  | x :: rest =>
    match dbTo.findTable x with
    | none => .error (.keyErr x)
    | some newTable =>
      if (tracking.unfulfilledFks newTable).isEmpty then
        match rest with
        | [] => .ok ⟨tracking.addTable newTable, pre, good, errors,
            ops ++ [Operation.createTable newTable]⟩
        | y :: rest2 =>
          sweepGo dbTo (tracking.addTable newTable) good errors
            (ops ++ [Operation.createTable newTable]) (pre ++ [y]) rest2
      else if good.contains x then
        sweepGo dbTo tracking good errors ops (pre ++ [x]) rest
      else if (dbTo.unfulfilledFks newTable).isEmpty then
        sweepGo dbTo tracking (good ++ [x]) errors ops (pre ++ [x]) rest
      else
        match rest with
        | [] => .ok ⟨tracking, pre, good,
            errors ++ (dbTo.unfulfilledFks newTable).map BadFk.error, ops⟩
        | y :: rest2 =>
          sweepGo dbTo tracking good
            (errors ++ (dbTo.unfulfilledFks newTable).map BadFk.error) ops
            (pre ++ [y]) rest2

/-- The `while tables_to_add and len(tables_to_add) != last_number_to_add`
loop of `mygration._process_adds`, with an explicit fuel counter. Each
continuing iteration strictly shrinks `tables_to_add`, so
`toAdd.length + 2` fuel always suffices (`addsLoopF_fuel` below); the
fuel-exhausted branch is unreachable at that bound. -/
def addsLoopF (dbTo : Database) : Nat → AddsSt → Nat → Except PyErr AddsSt
  | 0, st, _ => .ok st
  | fuel + 1, st, lastLen =>
    if st.toAdd ≠ [] ∧ st.toAdd.length ≠ lastLen then
      match sweepGo dbTo st.tracking st.good st.errors st.ops [] st.toAdd with
      | .error e => .error e
      | .ok st2 => addsLoopF dbTo fuel st2 st.toAdd.length
    else .ok st

/-- `mygration._process_adds(tracking_db, tables_to_add)`: run the sweep
loop from a fresh `good_tables` / errors / operations state
(`last_number_to_add = 0`). -/
def processAdds (dbTo : Database) (tracking : Database) (toAdd : List String) :
    Except PyErr AddsSt :=
  addsLoopF dbTo (toAdd.length + 2) ⟨tracking, toAdd, [], [], []⟩ 0

/-- The dictionary returned by `mygration._process_updates`
(`{'fks': list, 'kitchen_sink': list}`). -/
structure UpdRes where
  fks : List Operation
  kitchenSink : List Operation
deriving DecidableEq, Repr

/-- `mygration._process_updates(tracking_db, tables_to_update)`: for each
overlap table, diff source against target with `split_operations=True`.
The code then runs `operations.extend(more_operations['fks'])` (and the
`kitchen_sink` analogue) — but `operations` is the result *dict*, which has
no `extend`, so the call raises `AttributeError` as soon as any overlap
table has a non-empty `fks` or `kitchen_sink` group. A `removed_fks` group
is never looked at. The subsequent `database.apply_operation(...)` lines
are unreachable (and would themselves be erroneous calls on the class).
The tracking database is therefore never modified by this phase. -/
def processUpdates (dbTo : Database) (fromTabs : List Table) :
    List String → Except PyErr UpdRes
  | [] => .ok ⟨[], []⟩
  | n :: rest =>
    match dbTo.findTable n with
    | none => .error (.keyErr n)
    | some target =>
      match (Database.mk fromTabs).findTable n with
      | none => .error (.keyErr n)
      | some source =>
        match tableToSplit source target with
        | .error e => .error e
        | .ok so =>
          if so.fks.isSome then
            .error (.attributeErr "dict object has no attribute extend")
          else if so.kitchenSink.isSome then
            .error (.attributeErr "dict object has no attribute extend")
          else processUpdates dbTo fromTabs rest

/-- `new_table_copy.remove_constraint(...)` for every bad constraint of the
cycle-break phase, in order. -/
def stripConstraints (t : Table) : List BadFk → Except PyErr Table
  | [] => .ok t
  | b :: rest =>
    match t.removeConstraint b.foreignKey.name with
    | .error e => .error e
    | .ok t2 => stripConstraints t2 rest

/-- The state of the tail of `mygration._process`: the `operations` list
(`none` models the Python variable being rebound to `None` by
`operations = operations.extend(...)`), the deferred `fk_operations` list
and the tracking database. -/
structure TailSt where
  ops : Option (List Operation)
  fkOps : List Operation
  tracking : Database
deriving DecidableEq, Repr

/-- The cycle-break loop of `mygration._process`
(`for table_to_add in tables_to_add:` after the second add pass): strip the
currently unfulfilled FKs from a copy of the table, emit its
`CREATE TABLE`, and queue an `ALTER TABLE` re-adding the stripped FKs. The
tracking database is *not* updated here (the code never calls
`tracking_db.add_table` in this loop). -/
def cycleLoop (dbTo : Database) (st : TailSt) :
    List String → Except PyErr TailSt
  | [] => .ok st
  | n :: rest =>
    match dbTo.findTable n with
    | none => .error (.keyErr n)
    | some newTable =>
      let bad := st.tracking.unfulfilledFks newTable
      match stripConstraints newTable bad with
      | .error e => .error e
      | .ok newCopy =>
        let createFks : AlterTable :=
          ⟨n, bad.map (fun b => SubOp.addConstraintOp b.foreignKey)⟩
        match st.ops with
        | none => .error (.attributeErr "NoneType object has no attribute append")
        | some l =>
          cycleLoop dbTo ⟨some (l ++ [Operation.createTable newCopy]),
            st.fkOps ++ [Operation.alterTableOp createFks], st.tracking⟩ rest

/-- The drop loop of `mygration._process`
(`for table_to_remove in tables_to_remove:`). -/
def dropsLoop (st : TailSt) : List String → Except PyErr TailSt
  | [] => .ok st
  | n :: rest =>
    match st.ops with
    | none => .error (.attributeErr "NoneType object has no attribute append")
    | some l =>
      dropsLoop ⟨some (l ++ [Operation.removeTableOp n]), st.fkOps,
        st.tracking.removeTable n⟩ rest

/-- The result of `mygration._process`: the 1215 error strings and the
operation list. `ops = none` models the (Python) case where the name
`operations` was rebound to `None` by line 156 and returned as such. -/
structure PlanRes where
  errors : List String
  ops : Option (List Operation)
deriving DecidableEq, Repr

/-- The body of `mygration._process` after the pre-validation check, for a
given target database and source table list (`fromTabs = []` corresponds to
a falsy `db_from`: `tracking_db = database()` and `db_from_tables = {}`). -/
def processBody (dbTo : Database) (fromTabs : List Table) :
    Except PyErr PlanRes :=
  let tracking0 : Database := ⟨fromTabs⟩
  let d := differences (fromTabs.map Table.name) dbTo.names
  match processAdds dbTo tracking0 d.1 with
  | .error e => .error e
  | .ok s =>
    if s.errors ≠ [] then .ok ⟨s.errors, some s.ops⟩
    else
      match processUpdates dbTo fromTabs d.2.2 with
      | .error e => .error e
      | .ok upd =>
        -- `operations.extend(split_operations['kitchen_sink'])` and the
        -- `fks` analogue (both lists; they are always empty when
        -- `_process_updates` returns).
        let operations := s.ops ++ upd.kitchenSink
        let fkOps := upd.fks
        -- Lines 153-160: the second add pass. `operations =
        -- operations.extend(more_operations)` rebinds `operations` to
        -- `None` whenever the pass emitted anything, and the misspelled
        -- `retrun` raises `NameError` on the error path (after a
        -- `NoneType`/list `.extend(fk_operations)` attempt).
        let afterSecond : Except PyErr (List String × Option (List Operation) × AddsSt) :=
          if s.toAdd ≠ [] then
            match processAdds dbTo s.tracking s.toAdd with
            | .error e => .error e
            | .ok s2 =>
              let opsOpt : Option (List Operation) :=
                if s2.ops ≠ [] then none else some operations
              if s2.errors ≠ [] then
                if fkOps ≠ [] then
                  match opsOpt with
                  | none => .error (.attributeErr "NoneType object has no attribute extend")
                  | some _ => .error (.nameErr "name retrun is not defined")
                else .error (.nameErr "name retrun is not defined")
              else .ok (s2.errors, opsOpt, s2)
          else .ok (s.errors, some operations, s)
        match afterSecond with
        | .error e => .error e
        | .ok (errorsFinal, opsOpt, sFinal) =>
          match cycleLoop dbTo ⟨opsOpt, fkOps, sFinal.tracking⟩ sFinal.toAdd with
          | .error e => .error e
          | .ok st1 =>
            match dropsLoop st1 d.2.1 with
            | .error e => .error e
            | .ok st2 =>
              if st2.fkOps ≠ [] then
                match st2.ops with
                | none => .error (.attributeErr "NoneType object has no attribute extend")
                | some l => .ok ⟨errorsFinal, some (l ++ st2.fkOps)⟩
              else .ok ⟨errorsFinal, st2.ops⟩

/-- Modelled from the spec: Python truthiness of `db_from` in
`if self.db_from:`. The `database` class is not under `src/`; the spec
states "Empty `db_from` behaves identically to `null` `db_from`" (§8), so
an empty database is falsy. -/
def dbOptTruthy (dbFrom : Option Database) : Bool :=
  match dbFrom with
  | none => false
  | some d => ¬ d.tables.isEmpty

/-- `mygration.__init__` / `mygration._process`: run the pre-validation
pass (`mygration(self.db_to)`, i.e. a planner run with no source) when
`db_from` is truthy, return its errors with an empty operation list when it
fails, and otherwise plan against the deep-cloned tracking schema.
`process dbTo none` is exactly `processBody dbTo []`. -/
def process (dbTo : Database) (dbFrom : Option Database) :
    Except PyErr PlanRes :=
  if dbOptTruthy dbFrom then
    match processBody dbTo [] with
    | .error e => .error e
    | .ok check =>
      if check.errors ≠ [] then .ok ⟨check.errors, some []⟩
      else processBody dbTo (dbFrom.getD ⟨[]⟩).tables
  else processBody dbTo []

/-- The tracking schema the FK-safety claim applies operation prefixes to:
a deep clone of `db_from`, or the empty database when `db_from` is null. -/
def initialTracking (dbFrom : Option Database) : Database :=
  dbFrom.getD ⟨[]⟩

end Mygrations

namespace Mygrations

/-! ## Auxiliary predicates and call sequences -/

/-- Well-formedness of a table as a Python object: its column, index and
constraint names are dictionary keys, hence unique. -/
def Table.WF (t : Table) : Prop :=
  t.colNames.Nodup ∧ t.idxNames.Nodup ∧ t.conNames.Nodup

instance (t : Table) : Decidable t.WF := by
  unfold Table.WF; infer_instance

/-- Well-formedness of a database as a Python object: table names are
dictionary keys, and every table is well-formed. -/
def Database.WF (d : Database) : Prop :=
  d.names.Nodup ∧ ∀ t ∈ d.tables, t.WF

instance (d : Database) : Decidable d.WF := by
  unfold Database.WF; infer_instance

/-- Well-formedness of an optional source database. -/
def OptWF : Option Database → Prop
  | none => True
  | some d => d.WF

instance (o : Option Database) : Decidable (OptWF o) := by
  cases o <;> simp only [OptWF] <;> infer_instance

/-- Two tables that agree as column maps and support the same
leftmost-prefix index queries; `fkProblem` cannot distinguish such tables
as FK targets. -/
def TableFkEquiv (a b : Table) : Prop :=
  (∀ n, a.findCol n = b.findCol n) ∧
  (∀ cols : List String, a.indexes.any (fun i => cols.isPrefixOf i.columns) =
    b.indexes.any (fun i => cols.isPrefixOf i.columns))

/-- `d2` preserves every table lookup of `d1` (tables were only added). -/
def DbExtends (d1 d2 : Database) : Prop :=
  ∀ n t, d1.findTable n = some t → d2.findTable n = some t

/-- The calls of the C8 claim: the key mutations of `table.py` interleaved
with `column_is_indexed` queries (a query updates the table by building the
cache). -/
inductive TblCall where
  | addK (k : Index)
  | removeK (name : String)
  | changeK (k : Index)
  | query (c : String)
deriving DecidableEq, Repr

/-- One call applied to a table. -/
def tblStep (t : Table) : TblCall → Except PyErr Table
  | .addK k => t.addKey k
  | .removeK n => t.removeKey n
  | .changeK k => t.changeKey k
  | .query c => (t.columnIsIndexed c).map Prod.fst

/-- A sequence of calls applied in order; errors abort the run. -/
def runCalls (t : Table) : List TblCall → Except PyErr Table
  | [] => .ok t
  | c :: rest =>
    match tblStep t c with
    | .error e => .error e
    | .ok t2 => runCalls t2 rest

/-- The names a Python `for`-loop examines when each examined element is
removed in place: positions 0, 2, 4, … of the live list. -/
def dealTake : List String → List String
  | [] => []
  | [x] => [x]
  | x :: _ :: rest => x :: dealTake rest

/-- The names such a sweep skips (positions 1, 3, 5, … of the live list);
they stay pending for the next sweep. -/
def dealSkip : List String → List String
  | [] => []
  | [_] => []
  | _ :: y :: rest => y :: dealSkip rest

/-! ## Concrete schemas used by the claim theorems and witnesses -/

/-- An `INT(10) UNSIGNED NOT NULL` column. -/
def cInt (n : String) : Column := ⟨n, "INT", some 10, true, false, none, false⟩

/-- A `VARCHAR(255) NOT NULL DEFAULT ''` column. -/
def cVarchar (n : String) : Column := ⟨n, "VARCHAR", some 255, false, false, some "", false⟩

/-- A plain `KEY` over the given columns. -/
def mkIdx (n : String) (cs : List String) : Index := ⟨n, cs, .regular⟩

/-- A single-column FK with the given `ON DELETE` action
(`ON UPDATE CASCADE`). -/
def mkFk (n l ft fc : String) (od : RefAction) : Constraint :=
  ⟨n, [l], ft, [fc], od, .cascade⟩

/-- A parsed table with the given columns, indexes and constraints. -/
def mkTbl (n : String) (cols : List Column) (idxs : List Index)
    (cons : List Constraint) : Table :=
  { Table.mkNamed n with columns := cols, indexes := idxs, constraints := cons }

/-- A table whose single FK references a table that exists nowhere. -/
def brokenTasks : Table :=
  mkTbl "tasks" [cInt "id", cInt "account_id"] [mkIdx "acc" ["account_id"]]
    [mkFk "acc_fk" "account_id" "accounts" "id" .cascade]

/-- A database with a genuinely broken FK (1215). -/
def brokenDb : Database := ⟨[brokenTasks]⟩

/-- The 1215 message `unfulfilled_fks` reports for `brokenTasks`. -/
def brokenMsg : String :=
  "1215 Cannot add foreign key constraint acc_fk: references unknown table accounts"

/-- `accounts`, internally consistent. -/
def okAccounts : Table := mkTbl "accounts" [cInt "id"] [mkIdx "pk" ["id"]] []

/-- `tasks` with a satisfiable FK to `accounts`. -/
def okTasks : Table :=
  mkTbl "tasks" [cInt "id", cInt "account_id"] [mkIdx "acc" ["account_id"]]
    [mkFk "acc_fk" "account_id" "accounts" "id" .cascade]

/-- An internally consistent database. -/
def okDb : Database := ⟨[okAccounts, okTasks]⟩

/-- Three constraint-free tables (all immediately addable). -/
def tblA : Table := mkTbl "a" [cInt "id"] [] []

/-- Second constraint-free table. -/
def tblB : Table := mkTbl "b" [cInt "id"] [] []

/-- Third constraint-free table. -/
def tblC : Table := mkTbl "c" [cInt "id"] [] []

/-- A target database of three immediately addable tables. -/
def dbThree : Database := ⟨[tblA, tblB, tblC]⟩

/-- Source table for the simple-column-add scenario. -/
def modTblFrom : Table := mkTbl "t" [cInt "a"] [] []

/-- Target table for the simple-column-add scenario (one added column). -/
def modTblTo : Table := mkTbl "t" [cInt "a", cInt "b"] [] []

/-- Source database for the simple-column-add scenario. -/
def modFrom : Database := ⟨[modTblFrom]⟩

/-- Target database for the simple-column-add scenario. -/
def modTo : Database := ⟨[modTblTo]⟩

/-- Source `t1` of the S4-like scenario (no column `b` yet). -/
def unlockT1From : Table := mkTbl "t1" [cInt "a"] [] []

/-- Target `t1` of the S4-like scenario: adds column `b` and a key on it. -/
def unlockT1To : Table := mkTbl "t1" [cInt "a", cInt "b"] [mkIdx "kb" ["b"]] []

/-- New table `t2` whose FK needs the added column `t1.b`. -/
def unlockT2 : Table :=
  mkTbl "t2" [cInt "id", cInt "ref"] [mkIdx "kr" ["ref"]]
    [mkFk "fk2" "ref" "t1" "b" .cascade]

/-- Source database of the S4-like scenario. -/
def unlockFrom : Database := ⟨[unlockT1From]⟩

/-- Target database of the S4-like scenario: after the `t1` update, `t2`
would become addable by the second add pass. -/
def unlockTo : Database := ⟨[unlockT1To, unlockT2]⟩

/-- `accounts` of the S5 constraint-change scenario. -/
def s5Accounts : Table := mkTbl "accounts" [cInt "id", cVarchar "name"] [mkIdx "PRIMARY" ["id"]] []

/-- Source `tasks` of S5: `ON DELETE CASCADE`, FK named `task_id_fk`. -/
def s5TasksFrom : Table :=
  mkTbl "tasks" [cInt "id", cInt "account_id", cInt "task_id"]
    [mkIdx "PRIMARY" ["id"], mkIdx "account_id_tasks" ["account_id"], mkIdx "task_id" ["task_id"]]
    [mkFk "account_id_tasks_fk" "account_id" "accounts" "id" .cascade,
     mkFk "task_id_fk" "task_id" "tasks" "id" .cascade]

/-- Target `tasks` of S5: `ON DELETE RESTRICT` on one FK, the other FK
renamed to `task_id_2_fk`. -/
def s5TasksTo : Table :=
  mkTbl "tasks" [cInt "id", cInt "account_id", cInt "task_id"]
    [mkIdx "PRIMARY" ["id"], mkIdx "account_id_tasks" ["account_id"], mkIdx "task_id" ["task_id"]]
    [mkFk "account_id_tasks_fk" "account_id" "accounts" "id" .restrict,
     mkFk "task_id_2_fk" "task_id" "tasks" "id" .cascade]

/-- Source database of S5. -/
def s5From : Database := ⟨[s5TasksFrom, s5Accounts]⟩

/-- Target database of S5. -/
def s5To : Database := ⟨[s5TasksTo, s5Accounts]⟩

/-- A table with one indexed column and no cache built yet. -/
def cacheTbl : Table := mkTbl "t" [cInt "a"] [mkIdx "k" ["a"]] []

/-- `cacheTbl` after `column_is_indexed` built the `_indexed_columns`
cache. -/
def cacheTblBuilt : Table := { cacheTbl with indexedColumns := some ["a"] }

/-- A table with an `id` column, for the seed-row claims. -/
def rowsTbl : Table := mkTbl "t" [cInt "id", cVarchar "name"] [] []

/-- A rows batch whose explicit column list has no `id` column. -/
def rowsNoId : RowsDef := ⟨["name"], 1, [["x"]], []⟩

/-- A table for the `add_column` atomicity witness. -/
def atomTbl : Table := mkTbl "t" [cInt "id", cVarchar "name"] [] []

/-- The column whose insertion after a missing anchor must fail. -/
def atomCol : Column := cVarchar "extra"

/-- Witness table `a` for FK safety: one indexed `id` column. -/
def wTblA : Table := mkTbl "a" [cInt "id"] [mkIdx "pk" ["id"]] []

/-- Witness table `b`: an FK to `a`. -/
def wTblB : Table :=
  mkTbl "b" [cInt "id", cInt "aid"] [mkIdx "ka" ["aid"]]
    [mkFk "fkb" "aid" "a" "id" .cascade]

/-- Witness target database for FK safety. -/
def wDb : Database := ⟨[wTblA, wTblB]⟩

/-- The plan the embedding produces for `wDb` from scratch. -/
def wOps : List Operation := [Operation.createTable wTblA, Operation.createTable wTblB]

/-- The FK added by `wOps`. -/
def wFk : Constraint := mkFk "fkb" "aid" "a" "id" .cascade

/-- A two-index table for the cache-coherence witness. -/
def c8Tbl : Table := mkTbl "t" [cInt "a", cInt "b"] [] []

/-- A call sequence: add two keys, query (builds the cache), query again. -/
def c8Calls : List TblCall :=
  [TblCall.addK (mkIdx "k1" ["a"]), TblCall.addK (mkIdx "k2" ["b", "a"]),
   TblCall.query "a"]

/-- The table state after running `c8Calls` on `c8Tbl`. -/
def c8After : Table :=
  { c8Tbl with indexes := [mkIdx "k1" ["a"], mkIdx "k2" ["b", "a"]],
               indexedColumns := some ["a", "b"] }

end Mygrations

namespace Mygrations

/-! ## Predicates for the FK-safety development -/

/-- Every listed (table name, FK) pair is satisfiable in `db`. -/
def AllSat (db : Database) (l : List (String × Constraint)) : Prop :=
  ∀ q ∈ l, fkSatisfiableB db q.1 q.2 = true

/-- FK safety of an operation list relative to a starting tracking schema:
at every prefix, every FK added by that prefix is satisfiable in the
database obtained by applying the prefix. -/
def SafeChain (tr : Database) (ops : List Operation) : Prop :=
  ∀ p, p <+: ops → AllSat (applyOps tr p) (fksAdded p)

/-- Each table in the list had no unfulfilled FKs against the tracking
schema at the moment it was created (the check of `_process_adds`). -/
def CheckedCreates (tracking : Database) : List Table → Prop
  | [] => True
  | t :: rest => tracking.unfulfilledFks t = [] ∧ CheckedCreates (tracking.addTable t) rest

/-- Each table in the list has a name that is new to the tracking schema at
the moment it is added. -/
def FreshCreates (tracking : Database) : List Table → Prop
  | [] => True
  | t :: rest => t.name ∉ tracking.names ∧ FreshCreates (tracking.addTable t) rest

/-- Databases whose lookups are pairwise `TableFkEquiv`: `fkProblem`
cannot distinguish them. -/
def DbFkEquivAll (d d2 : Database) : Prop :=
  ∀ m, match d.findTable m, d2.findTable m with
       | some a, some b => TableFkEquiv a b
       | none, none => True
       | _, _ => False

/-- Sub-operations that only touch the constraints of a table. -/
def SubOp.conOnly : SubOp → Prop
  | .addConstraintOp _ => True
  | .changeConstraintOp _ => True
  | .removeConstraintOp _ => True
  | _ => False

/-! ## Claim theorems -/

/-- C3 (code bug): the deferred-FK update flow is supposed to accumulate
`kitchen_sink` sub-operations into the main stream and queue `fks`
sub-operations; instead, `_process_updates` calls `.extend` on its result
*dict*, so planning a simple column add raises `AttributeError` instead of
emitting the `ALTER TABLE`. -/
theorem claim_C3_update_flow_crashes :
    process modTo (some modFrom) =
      .error (.attributeErr "dict object has no attribute extend") := rfl

/-- C4 (code bug): on an input where a pending table would be unlocked by a
table update, the planner never reaches the second add pass: the update
phase raises `AttributeError` first (and, had it returned, line 156
`operations = operations.extend(more_operations)` would discard the
accumulated stream by rebinding it to `None`, and the misspelled `retrun`
would raise `NameError` on the error path). -/
theorem claim_C4_second_add_pass_crashes :
    process unlockTo (some unlockFrom) =
      .error (.attributeErr "dict object has no attribute extend") := rfl

/-- C6 (code bug): the S5 constraint-change scenario (change
`ON DELETE CASCADE` to `ON DELETE RESTRICT` on one FK, rename another)
does not return the 2 operations its own test
(`test_all_constraint_adjustments`) asserts: the update phase raises
`AttributeError` on `dict.extend` as soon as the split diff has an `fks`
group (and the `removed_fks` group holding the asserted
`DROP FOREIGN KEY task_id_fk` is never read at all). -/
theorem claim_C6_constraint_change_crashes :
    process s5To (some s5From) =
      .error (.attributeErr "dict object has no attribute extend") := rfl

/-- C7 (code bug): `remove_key` must succeed whenever the key exists, in
every table state; but once the `_indexed_columns` cache has been built by
`column_is_indexed`, the cache-update line reads `key.columns` on what is
by then a *string*, so the call raises `AttributeError` although its
precondition holds (`add_key`/`change_key` fail the same way through
`.columns[0].name`). -/
theorem claim_C7_mutation_cache_crash :
    cacheTbl.columnIsIndexed "a" = .ok (cacheTblBuilt, true) ∧
    (cacheTblBuilt.findIdx "k").isSome = true ∧
    cacheTblBuilt.removeKey "k" =
      .error (.attributeErr "str object has no attribute columns") :=
  ⟨rfl, rfl, rfl⟩

/-- C9 (code bug): a row without an explicit `id` value should be assigned
the table's `auto_increment`; instead, the `except ValuerError` typo turns
the `ValueError` from `columns.index('id')` into a `NameError`, so
`add_rows` raises instead of assigning a synthetic id. -/
theorem claim_C9_add_rows_name_error :
    rowsTbl.addRows rowsNoId =
      .error (.nameErr "name ValuerError is not defined") := rfl

/-- C2, counterexample: `plan(db, db)` is *not* always empty — for a
database whose FK references a missing table, the pre-validation pass
reports the 1215 error, so `plan(db, db)` returns a non-empty error list. -/
theorem claim_C2_counterexample :
    process brokenDb (some brokenDb) = .ok ⟨[brokenMsg], some []⟩ ∧
    ([brokenMsg] : List String) ≠ [] :=
  ⟨rfl, by decide⟩

/-- C5, counterexample: with three immediately addable tables `a`, `b`,
`c`, the first sweep of the fixed-point add pass emits `a`, skips `b`
(because `a`'s removal shifts the live list under the iterator) and emits
`c`; `b` is only created by the next sweep. The emitted creation order
`a, c, b` differs from the target insertion order `a, b, c` that snapshot
iteration would produce. -/
theorem claim_C5_counterexample :
    process dbThree none =
      .ok ⟨[], some [Operation.createTable tblA, Operation.createTable tblC,
        Operation.createTable tblB]⟩ ∧
    [tblA.name, tblC.name, tblB.name] ≠ dbThree.names :=
  ⟨rfl, by decide⟩

/-- C10: `add_column` is atomic on failure — both raising paths (duplicate
column name; `AFTER` anchor not found) leave the column mapping, names and
order included, exactly as it was: the rebuilt `new_columns` only replaces
`self._columns` after the `found` check. -/
theorem claim_C10_add_column_atomic (t : Table) (c : Column) (p : Position)
    (h : (Table.addColumnSt t c p).2.isSome) :
    (Table.addColumnSt t c p).1.columns = t.columns := by
  unfold Table.addColumnSt at h ⊢
  by_cases hc : (t.findCol c.name).isSome
  · simp [hc]
  · rcases p with _ | _ | anchor
    · simp [hc] at h
    · simp [hc] at h
    · by_cases ha : anchor ∈ t.colNames
      · simp [hc, ha] at h
      · simp [hc, ha]

/-- Witness for C10 at a concrete input: inserting after a missing anchor
fails and preserves the columns. -/
theorem claim_C10_witness :
    (Table.addColumnSt atomTbl atomCol (Position.after "missing")).2.isSome = true ∧
    (Table.addColumnSt atomTbl atomCol (Position.after "missing")).1.columns =
      atomTbl.columns :=
  ⟨by decide,
   claim_C10_add_column_atomic atomTbl atomCol (Position.after "missing") (by decide)⟩

end Mygrations

namespace Mygrations

/-- The indexed-columns cache, when built, lists exactly the first columns
of the indexes it was built from. -/
theorem buildIndexedColumns_mem (idxs : List Index) (l : List String)
    (h : Table.buildIndexedColumns idxs = .ok l) (c : String) :
    c ∈ l ↔ ∃ i ∈ idxs, i.columns.head? = some c := by
  induction idxs generalizing l with
  | nil =>
    simp only [Table.buildIndexedColumns] at h
    cases h
    simp
  | cons i rest ih =>
    simp only [Table.buildIndexedColumns] at h
    split at h
    · cases h
    · rename_i c0 cs hcols
      rcases hrest : Table.buildIndexedColumns rest with e | l2
      · rw [hrest] at h
        cases h
      · rw [hrest] at h
        simp only [Except.map] at h
        cases h
        constructor
        · intro hm
          rcases List.mem_cons.mp hm with rfl | hm2
          · exact ⟨i, List.mem_cons_self i rest, by rw [hcols]; rfl⟩
          · obtain ⟨j, hj, hhd⟩ := (ih l2 hrest).mp hm2
            exact ⟨j, List.mem_cons_of_mem i hj, hhd⟩
        · rintro ⟨j, hj, hhd⟩
          rcases List.mem_cons.mp hj with rfl | hj2
          · rw [hcols] at hhd
            simp only [List.head?, Option.some.injEq] at hhd
            exact List.mem_cons.mpr (Or.inl hhd.symm)
          · exact List.mem_cons.mpr (Or.inr ((ih l2 hrest).mpr ⟨j, hj2, hhd⟩))

/-- One successful call preserves the cache invariant: the cache is either
unbuilt or matches the current indexes (every successful key mutation
requires the cache to be unbuilt; a query builds it from the current
indexes and changes nothing else). -/
theorem tblStep_cache_inv (t t2 : Table) (call : TblCall)
    (h : tblStep t call = .ok t2)
    (hinv : t.indexedColumns = none ∨
      ∃ l, Table.buildIndexedColumns t.indexes = .ok l ∧ t.indexedColumns = some l) :
    t2.indexedColumns = none ∨
      ∃ l, Table.buildIndexedColumns t2.indexes = .ok l ∧ t2.indexedColumns = some l := by
  cases call with
  | addK k =>
    simp only [tblStep, Table.addKey] at h
    split at h
    · cases h
    · split at h
      · rename_i hnone
        cases h
        exact Or.inl hnone
      · split at h <;> cases h
  | removeK n =>
    simp only [tblStep, Table.removeKey] at h
    split at h
    · split at h
      · rename_i hnone
        cases h
        exact Or.inl hnone
      · cases h
    · cases h
  | changeK k =>
    simp only [tblStep, Table.changeKey] at h
    split at h
    · cases h
    · split at h
      · rename_i hnone
        cases h
        exact Or.inl hnone
      · split at h <;> cases h
  | query c =>
    simp only [tblStep, Table.columnIsIndexed] at h
    by_cases hfind : (t.findCol c).isSome = true
    · rw [if_pos hfind] at h
      rcases hc : t.indexedColumns with _ | cache
      · rw [hc] at h
        rcases hb : Table.buildIndexedColumns t.indexes with e | l
        · rw [hb] at h
          simp only [Except.map] at h
          cases h
        · rw [hb] at h
          simp only [Except.map] at h
          cases h
          exact Or.inr ⟨l, hb, rfl⟩
      · rw [hc] at h
        simp only [Except.map] at h
        cases h
        exact hinv
    · rw [if_neg hfind] at h
      simp only [Except.map] at h
      cases h
      exact hinv

/-- A successful run of calls preserves the cache invariant. -/
theorem runCalls_cache_inv (calls : List TblCall) (t0 t : Table)
    (h : runCalls t0 calls = .ok t)
    (hinv : t0.indexedColumns = none ∨
      ∃ l, Table.buildIndexedColumns t0.indexes = .ok l ∧ t0.indexedColumns = some l) :
    t.indexedColumns = none ∨
      ∃ l, Table.buildIndexedColumns t.indexes = .ok l ∧ t.indexedColumns = some l := by
  induction calls generalizing t0 with
  | nil =>
    simp only [runCalls] at h
    cases h
    exact hinv
  | cons call rest ih =>
    simp only [runCalls] at h
    rcases hs : tblStep t0 call with e | t1
    · rw [hs] at h
      cases h
    · rw [hs] at h
      exact ih t1 h (tblStep_cache_inv t0 t1 call hs hinv)

/-- C8: cache coherence of `column_is_indexed`. After any successful
sequence of `add_key` / `remove_key` / `change_key` calls interleaved with
`column_is_indexed` queries, starting from a table whose cache is unbuilt,
a successful query answers `true` exactly when the queried name is a column
of the table that is the first column of at least one of the table's
current indexes — the cached answer is never stale. (Every successful key
mutation in fact requires the cache to be unbuilt: with a built cache the
mutations raise, see the C7 analysis.) -/
theorem claim_C8_cache_coherent (t0 : Table) (h0 : t0.indexedColumns = none)
    (calls : List TblCall) (t : Table) (h : runCalls t0 calls = .ok t)
    (c : String) (t2 : Table) (b : Bool)
    (hq : t.columnIsIndexed c = .ok (t2, b)) :
    b = true ↔
      ((t.findCol c).isSome = true ∧ ∃ i ∈ t.indexes, i.columns.head? = some c) := by
  have hinv := runCalls_cache_inv calls t0 t h (Or.inl h0)
  simp only [Table.columnIsIndexed] at hq
  by_cases hfind : (t.findCol c).isSome = true
  · rw [if_pos hfind] at hq
    rcases hc : t.indexedColumns with _ | cache
    · rw [hc] at hq
      rcases hb : Table.buildIndexedColumns t.indexes with e | l
      · rw [hb] at hq
        simp only [Except.map] at hq
        cases hq
      · rw [hb] at hq
        simp only [Except.map] at hq
        cases hq
        constructor
        · intro hbtrue
          exact ⟨hfind,
            (buildIndexedColumns_mem t.indexes l hb c).mp (List.elem_iff.mp hbtrue)⟩
        · rintro ⟨-, hex⟩
          exact List.elem_iff.mpr ((buildIndexedColumns_mem t.indexes l hb c).mpr hex)
    · rw [hc] at hq
      cases hq
      rcases hinv with hnone | ⟨l, hb, hsome⟩
      · rw [hc] at hnone
        cases hnone
      · rw [hc] at hsome
        injection hsome with hsome
        subst hsome
        constructor
        · intro hbtrue
          exact ⟨hfind,
            (buildIndexedColumns_mem t.indexes cache hb c).mp (List.elem_iff.mp hbtrue)⟩
        · rintro ⟨-, hex⟩
          exact List.elem_iff.mpr ((buildIndexedColumns_mem t.indexes cache hb c).mpr hex)
  · rw [if_neg hfind] at hq
    cases hq
    simp only [Bool.false_eq_true, false_iff, not_and]
    intro hcin
    exact absurd hcin hfind

/-- Witness for C8 at a concrete run: two keys added, then a query that
builds the cache; the final query answers `true` for the first column of
`k1`. -/
theorem claim_C8_witness :
    c8Tbl.indexedColumns = none ∧
    runCalls c8Tbl c8Calls = .ok c8After ∧
    c8After.columnIsIndexed "a" = .ok (c8After, true) ∧
    (true = true ↔
      ((c8After.findCol "a").isSome = true ∧
        ∃ i ∈ c8After.indexes, i.columns.head? = some "a")) :=
  ⟨rfl, rfl, rfl,
   claim_C8_cache_coherent c8Tbl rfl c8Calls c8After rfl "a" c8After true rfl⟩

end Mygrations

namespace Mygrations

/-- A table without constraints has no unfulfilled FKs in any database. -/
theorem unfulfilledFks_no_constraints (db : Database) (t : Table)
    (h : t.constraints = []) : db.unfulfilledFks t = [] := by
  simp [Database.unfulfilledFks, h]

/-- C5, amended: each sweep of the Phase 2 loop iterates the *live*
`tables_to_add` list, not a snapshot. Emitting a `CREATE TABLE` removes the
name under the iterator, which skips the immediately following pending name
for the rest of the sweep (the outer `while` loop reconsiders it later). In
a sweep in which every examined table is addable — here, each pending name
resolves to a constraint-free table — exactly the names at positions
0, 2, 4, … of the live list are emitted, in that order, and the
odd-positioned names survive the sweep unexamined. -/
theorem claim_C5_live_list_sweep (dbTo : Database) (f : String → Table)
    (tracking : Database) (good errors : List String) (ops : List Operation)
    (pre l : List String)
    (hf : ∀ n ∈ l, dbTo.findTable n = some (f n) ∧ (f n).constraints = []) :
    sweepGo dbTo tracking good errors ops pre l =
      .ok ⟨(dealTake l).foldl (fun d n => d.addTable (f n)) tracking,
           pre ++ dealSkip l, good, errors,
           ops ++ (dealTake l).map (fun n => Operation.createTable (f n))⟩ := by
  induction l using dealTake.induct generalizing tracking good errors ops pre with
  | case1 =>
    simp [sweepGo, dealTake, dealSkip]
  | case2 x =>
    obtain ⟨hfx, hcx⟩ := hf x (by simp)
    simp [sweepGo, dealTake, dealSkip, hfx,
      unfulfilledFks_no_constraints tracking (f x) hcx]
  | case3 x y rest ih =>
    obtain ⟨hfx, hcx⟩ := hf x (by simp)
    have hrest : ∀ n ∈ rest, dbTo.findTable n = some (f n) ∧ (f n).constraints = [] :=
      fun n hn => hf n (by simp [hn])
    simp only [sweepGo, hfx, unfulfilledFks_no_constraints tracking (f x) hcx,
      List.isEmpty_nil, if_true]
    rw [ih (tracking.addTable (f x)) good errors
      (ops ++ [Operation.createTable (f x)]) (pre ++ [y]) hrest]
    simp [dealTake, dealSkip, List.append_assoc]

/-- Witness for C5 at the three-table input: the first sweep over
`[a, b, c]` (all addable) emits `a` and `c` and leaves `b` pending. -/
theorem claim_C5_live_list_sweep_witness :
    sweepGo dbThree ⟨[]⟩ [] [] [] [] ["a", "b", "c"] =
      .ok ⟨(dealTake ["a", "b", "c"]).foldl
             (fun d n => d.addTable (if n = "a" then tblA else if n = "b" then tblB else tblC)) ⟨[]⟩,
           [] ++ dealSkip ["a", "b", "c"], [], [],
           [] ++ (dealTake ["a", "b", "c"]).map
             (fun n => Operation.createTable (if n = "a" then tblA else if n = "b" then tblB else tblC))⟩ :=
  claim_C5_live_list_sweep dbThree
    (fun n => if n = "a" then tblA else if n = "b" then tblB else tblC)
    ⟨[]⟩ [] [] [] [] ["a", "b", "c"] (by decide)

end Mygrations

namespace Mygrations

/-- Diffing a name list against itself: nothing added, nothing removed,
everything overlaps. -/
theorem diff_self (a : List String) : differences a a = ([], [], a) := by
  unfold differences
  refine Prod.ext ?_ (Prod.ext ?_ ?_) <;> simp [List.filter_eq_nil_iff, List.filter_eq_self]

/-- A name occurring among the column names resolves to a column. -/
theorem findCol_isSome_of_mem (t : Table) (c : String) (h : c ∈ t.colNames) :
    (t.findCol c).isSome := by
  obtain ⟨col, hcol, hname⟩ := List.mem_map.mp h
  exact List.find?_isSome.mpr ⟨col, hcol, by simp [hname]⟩

/-- A name occurring among the index names resolves to an index. -/
theorem findIdx_isSome_of_mem (t : Table) (c : String) (h : c ∈ t.idxNames) :
    (t.findIdx c).isSome := by
  obtain ⟨i, hi, hname⟩ := List.mem_map.mp h
  exact List.find?_isSome.mpr ⟨i, hi, by simp [hname]⟩

/-- A name occurring among the constraint names resolves to a constraint. -/
theorem findCon_isSome_of_mem (t : Table) (c : String) (h : c ∈ t.conNames) :
    (t.findCon c).isSome := by
  obtain ⟨k, hk, hname⟩ := List.mem_map.mp h
  exact List.find?_isSome.mpr ⟨k, hk, by simp [hname]⟩

/-- A name occurring among the table names resolves to a table. -/
theorem findTable_isSome_of_mem (d : Database) (n : String) (h : n ∈ d.names) :
    (d.findTable n).isSome := by
  obtain ⟨t, ht, hname⟩ := List.mem_map.mp h
  exact List.find?_isSome.mpr ⟨t, ht, by simp [hname]⟩

/-- Diffing a table against itself produces no column changes. -/
theorem changeColOps_self (t : Table) (l : List String)
    (hl : ∀ c ∈ l, c ∈ t.colNames) : changeColOps t t l = .ok [] := by
  induction l with
  | nil => rfl
  | cons c rest ih =>
    obtain ⟨a, ha⟩ := Option.isSome_iff_exists.mp (findCol_isSome_of_mem t c (hl c (by simp)))
    simp only [changeColOps, ha, ih (fun x hx => hl x (by simp [hx]))]
    simp [Except.map]

/-- Diffing a table against itself produces no key changes. -/
theorem changeKeyOps_self (t : Table) (l : List String)
    (hl : ∀ c ∈ l, c ∈ t.idxNames) : changeKeyOps t t l = .ok [] := by
  induction l with
  | nil => rfl
  | cons c rest ih =>
    obtain ⟨a, ha⟩ := Option.isSome_iff_exists.mp (findIdx_isSome_of_mem t c (hl c (by simp)))
    simp only [changeKeyOps, ha, ih (fun x hx => hl x (by simp [hx]))]
    simp [Except.map]

/-- Diffing a table against itself produces no constraint changes. -/
theorem changeConOps_self (t : Table) (l : List String)
    (hl : ∀ c ∈ l, c ∈ t.conNames) : changeConOps t t l = .ok [] := by
  induction l with
  | nil => rfl
  | cons c rest ih =>
    obtain ⟨a, ha⟩ := Option.isSome_iff_exists.mp (findCon_isSome_of_mem t c (hl c (by simp)))
    simp only [changeConOps, ha, ih (fun x hx => hl x (by simp [hx]))]
    simp [Except.map]

/-- Diffing a table against itself: all three alter groups are empty. -/
theorem tableToParts_self (t : Table) :
    tableToParts t t = .ok (⟨t.name, []⟩, ⟨t.name, []⟩, ⟨t.name, []⟩) := by
  unfold tableToParts
  rw [diff_self, diff_self, diff_self]
  simp only [bind, Except.bind, addColOps, removeColOps, addKeyOps, removeKeyOps,
    removeConOps, addConOps,
    changeColOps_self t t.colNames (fun _ h => h),
    changeKeyOps_self t t.idxNames (fun _ h => h),
    changeConOps_self t t.conNames (fun _ h => h)]
  rfl

/-- Diffing a table against itself in split mode: the empty dict. -/
theorem tableToSplit_self (t : Table) :
    tableToSplit t t = .ok ⟨none, none, none⟩ := by
  simp [tableToSplit, tableToParts_self t, Except.map]

/-- Updating every table of a database against itself neither emits
operations nor raises. -/
theorem processUpdates_self (db : Database) (l : List String)
    (hl : ∀ n ∈ l, (db.findTable n).isSome) :
    processUpdates db db.tables l = .ok ⟨[], []⟩ := by
  induction l with
  | nil => rfl
  | cons n rest ih =>
    obtain ⟨t, ht⟩ := Option.isSome_iff_exists.mp (hl n (by simp))
    have ht2 : (Database.mk db.tables).findTable n = some t := ht
    simp only [processUpdates, ht, ht2, tableToSplit_self t]
    simpa using ih (fun x hx => hl x (by simp [hx]))

/-- Planning a database against itself (after pre-validation) yields no
errors and no operations. -/
theorem processBody_self (db : Database) :
    processBody db db.tables = .ok ⟨[], some []⟩ := by
  unfold processBody
  have hd : differences (db.tables.map Table.name) db.names = ([], [], db.names) :=
    diff_self db.names
  rw [hd]
  have hadds : processAdds db ⟨db.tables⟩ [] =
      .ok ⟨⟨db.tables⟩, [], [], [], []⟩ := rfl
  simp only [hadds,
    processUpdates_self db db.names (fun n hn => findTable_isSome_of_mem db n hn)]
  rfl

/-- C2, amended: for every database whose solo plan reports no 1215 errors,
planning the database against itself returns an empty operation list and an
empty error list (for an internally inconsistent database, `plan(db, db)`
instead returns the pre-validation 1215 errors, see the counterexample). -/
theorem claim_C2_identity (db : Database) (r0 : PlanRes)
    (h : processBody db [] = .ok r0) (he : r0.errors = []) :
    process db (some db) = .ok ⟨[], some []⟩ := by
  unfold process
  rcases hdb : db.tables with _ | ⟨t, rest⟩
  · have hdbe : db = ⟨[]⟩ := by
      cases db
      simp_all
    subst hdbe
    rfl
  · have htr : dbOptTruthy (some db) = true := by
      simp [dbOptTruthy, hdb]
    rw [if_pos htr, h]
    simp only [he, ne_eq, not_true_eq_false, if_false, Option.getD]
    exact processBody_self db

/-- Witness for C2 at a consistent two-table database. -/
theorem claim_C2_identity_witness :
    processBody okDb [] =
      .ok ⟨[], some [Operation.createTable okAccounts, Operation.createTable okTasks]⟩ ∧
    process okDb (some okDb) = .ok ⟨[], some []⟩ :=
  ⟨rfl, claim_C2_identity okDb
    ⟨[], some [Operation.createTable okAccounts, Operation.createTable okTasks]⟩ rfl rfl⟩

end Mygrations

namespace Mygrations

/-- Pointwise-equal predicates give equal `List.any`. -/
theorem listAnyCongr {α : Type} (l : List α) (p q : α → Bool)
    (h : ∀ a ∈ l, p a = q a) : l.any p = l.any q := by
  induction l with
  | nil => rfl
  | cons x rest ih =>
    simp only [List.any_cons, h x (by simp), ih (fun a ha => h a (by simp [ha]))]

/-- A successful `findTable` returns a table carrying the looked-up name. -/
theorem findTable_name (d : Database) (n : String) (t : Table)
    (h : d.findTable n = some t) : t.name = n := by
  have := List.find?_some h
  simpa using this

/-- `findTable` fails exactly on names outside the database. -/
theorem findTable_eq_none_iff (d : Database) (n : String) :
    d.findTable n = none ↔ n ∉ d.names := by
  unfold Database.findTable
  rw [List.find?_eq_none]
  constructor
  · intro h hmem
    obtain ⟨t, ht, hname⟩ := List.mem_map.mp hmem
    exact absurd (by simp [hname]) (h t ht)
  · intro h t ht
    simp only [decide_eq_true_eq]
    intro hname
    exact h (List.mem_map.mpr ⟨t, ht, hname⟩)

/-- A successful lookup means the name is present. -/
theorem mem_names_of_findTable (d : Database) (n : String) (t : Table)
    (h : d.findTable n = some t) : n ∈ d.names := by
  by_contra hn
  rw [← findTable_eq_none_iff] at hn
  rw [h] at hn
  cases hn

/-- Replacing the entries named `t.name` and then looking `t.name` up finds
the replacement, provided such an entry exists. -/
theorem find_map_replace (l : List Table) (t : Table)
    (h : ∃ x ∈ l, x.name = t.name) :
    (l.map (fun x => if x.name = t.name then t else x)).find?
      (fun x => x.name = t.name) = some t := by
  induction l with
  | nil => simp at h
  | cons y rest ih =>
    by_cases hy : y.name = t.name
    · simp [hy]
    · rcases h with ⟨x, hx, hname⟩
      rcases List.mem_cons.mp hx with rfl | hx2
      · exact absurd hname hy
      · rw [List.map_cons, if_neg hy, List.find?_cons_of_neg _ (by simpa using hy)]
        exact ih ⟨x, hx2, hname⟩

/-- Replacing the entries named `t.name` does not change lookups of other
names. -/
theorem find_map_replace_other (l : List Table) (t : Table) (n : String)
    (hn : n ≠ t.name) :
    (l.map (fun x => if x.name = t.name then t else x)).find?
      (fun x => x.name = n) = l.find? (fun x => x.name = n) := by
  induction l with
  | nil => rfl
  | cons y rest ih =>
    by_cases hy : y.name = t.name
    · rw [List.map_cons, if_pos hy,
        List.find?_cons_of_neg _ (by simpa using fun hc => hn hc.symm),
        List.find?_cons_of_neg _ (by simp only [decide_eq_true_eq, hy]; exact fun hc => hn hc.symm)]
      exact ih
    · rw [List.map_cons, if_neg hy]
      by_cases hyn : y.name = n
      · rw [List.find?_cons_of_pos _ (by simpa using hyn),
          List.find?_cons_of_pos _ (by simpa using hyn)]
      · rw [List.find?_cons_of_neg _ (by simpa using hyn),
          List.find?_cons_of_neg _ (by simpa using hyn)]
        exact ih

/-- `addTable` makes its table visible under its name. -/
theorem find_addTable_self (d : Database) (t : Table) :
    (d.addTable t).findTable t.name = some t := by
  unfold Database.addTable Database.findTable
  split
  · rename_i hc
    have hmem : t.name ∈ d.names := by simpa using hc
    obtain ⟨x, hx, hname⟩ := List.mem_map.mp hmem
    exact find_map_replace d.tables t ⟨x, hx, hname⟩
  · rename_i hc
    have hmem : t.name ∉ d.names := by simpa using hc
    rw [List.find?_append]
    have h1 : d.tables.find? (fun x => x.name = t.name) = none := by
      rw [List.find?_eq_none]
      intro x hx
      simp only [decide_eq_true_eq]
      intro hname
      exact hmem (List.mem_map.mpr ⟨x, hx, hname⟩)
    simp [h1]

/-- `addTable` does not change lookups of other names. -/
theorem find_addTable_other (d : Database) (t : Table) (n : String)
    (hn : n ≠ t.name) : (d.addTable t).findTable n = d.findTable n := by
  unfold Database.addTable Database.findTable
  split
  · exact find_map_replace_other d.tables t n hn
  · rw [List.find?_append]
    rcases hf : d.tables.find? (fun x => x.name = n) with _ | u
    · simp [hf, hn.symm]
    · simp [hf]

/-- Adding a fresh table preserves all existing lookups. -/
theorem extends_addTable (d : Database) (t : Table) (h : t.name ∉ d.names) :
    DbExtends d (d.addTable t) := by
  intro n u hu
  by_cases hn : n = t.name
  · subst hn
    exact absurd (mem_names_of_findTable d t.name u hu) h
  · rw [find_addTable_other d t n hn]
    exact hu

/-- Adding a fresh table appends its name. -/
theorem names_addTable_fresh (d : Database) (t : Table) (h : t.name ∉ d.names) :
    (d.addTable t).names = d.names ++ [t.name] := by
  unfold Database.addTable
  rw [if_neg (by simpa using h)]
  simp [Database.names]

/-- Lookups after `removeTable`. -/
theorem find_removeTable (d : Database) (m n : String) :
    (d.removeTable m).findTable n = if n = m then none else d.findTable n := by
  unfold Database.removeTable Database.findTable
  by_cases hnm : n = m
  · subst hnm
    rw [if_pos rfl, List.find?_eq_none]
    intro x hx
    simp only [decide_eq_true_eq]
    intro hname
    have := List.of_mem_filter hx
    simp [hname] at this
  · rw [if_neg hnm]
    induction d.tables with
    | nil => rfl
    | cons y rest ih =>
      by_cases hy : y.name = m
      · rw [show List.filter (fun x => x.name ≠ m) (y :: rest) =
            List.filter (fun x => x.name ≠ m) rest by simp [List.filter, hy]]
        rw [ih]
        rw [List.find?_cons_of_neg _ (by simp [hy, Ne.symm hnm])]
      · rw [show List.filter (fun x => x.name ≠ m) (y :: rest) =
            y :: List.filter (fun x => x.name ≠ m) rest by simp [List.filter, hy]]
        by_cases hyn : y.name = n
        · rw [List.find?_cons_of_pos _ (by simpa using hyn),
            List.find?_cons_of_pos _ (by simpa using hyn)]
        · rw [List.find?_cons_of_neg _ (by simpa using hyn),
            List.find?_cons_of_neg _ (by simpa using hyn)]
          exact ih

/-- Lookups after `setTable` with a name-preserving replacement: the
replaced name now finds the replacement (when it was present), other names
are untouched. -/
theorem find_setTable (d : Database) (n : String) (t : Table) (ht : t.name = n)
    (m : String) :
    (d.setTable n t).findTable m =
      if m = n then (if (d.findTable n).isSome then some t else none)
      else d.findTable m := by
  unfold Database.setTable Database.findTable
  by_cases hmn : m = n
  · subst hmn
    rw [if_pos rfl]
    induction d.tables with
    | nil => simp
    | cons y rest ih =>
      by_cases hy : y.name = m
      · rw [List.map_cons, if_pos hy, List.find?_cons_of_pos _ (by simpa using ht),
          List.find?_cons_of_pos _ (by simpa using hy)]
        simp
      · rw [List.map_cons, if_neg hy, List.find?_cons_of_neg _ (by simpa using hy),
          List.find?_cons_of_neg _ (by simpa using hy)]
        exact ih
  · rw [if_neg hmn]
    induction d.tables with
    | nil => rfl
    | cons y rest ih =>
      by_cases hy : y.name = n
      · rw [List.map_cons, if_pos hy,
          List.find?_cons_of_neg _ (by simp only [decide_eq_true_eq, ht]; exact fun hc => hmn hc.symm),
          List.find?_cons_of_neg _ (by simp only [decide_eq_true_eq, hy]; exact fun hc => hmn hc.symm)]
        exact ih
      · rw [List.map_cons, if_neg hy]
        by_cases hym : y.name = m
        · rw [List.find?_cons_of_pos _ (by simpa using hym),
            List.find?_cons_of_pos _ (by simpa using hym)]
        · rw [List.find?_cons_of_neg _ (by simpa using hym),
            List.find?_cons_of_neg _ (by simpa using hym)]
          exact ih

end Mygrations

namespace Mygrations

/-- `fkProblem` reads the database only through the foreign-table lookup,
and the local table only through column lookups. -/
theorem fkProblem_congr (db db2 : Database) (t t2 : Table) (fk : Constraint)
    (hdb : db.findTable fk.foreignTable = db2.findTable fk.foreignTable)
    (ht : ∀ n, t.findCol n = t2.findCol n) :
    fkProblem db t fk = fkProblem db2 t2 fk := by
  unfold fkProblem
  rw [hdb]
  rcases db2.findTable fk.foreignTable with _ | f
  · rfl
  · simp only [ht]

/-- `fkProblem` is also invariant under replacing the foreign table by an
FK-equivalent one. -/
theorem fkProblem_congr_equiv (db db2 : Database) (t t2 : Table) (fk : Constraint)
    (hopt : match db.findTable fk.foreignTable, db2.findTable fk.foreignTable with
            | some a, some b => TableFkEquiv a b
            | none, none => True
            | _, _ => False)
    (ht : ∀ n, t.findCol n = t2.findCol n) :
    fkProblem db t fk = fkProblem db2 t2 fk := by
  unfold fkProblem
  rcases h1 : db.findTable fk.foreignTable with _ | f <;>
    rcases h2 : db2.findTable fk.foreignTable with _ | f2 <;>
      rw [h1, h2] at hopt <;>
        first
          | rfl
          | exact False.elim hopt
          | (obtain ⟨hcol, hidx⟩ := hopt
             simp only [hcol, ht, hidx])

/-- A satisfiable FK references an existing table. -/
theorem fkProblem_none_foreign (db : Database) (t : Table) (fk : Constraint)
    (h : fkProblem db t fk = none) : (db.findTable fk.foreignTable).isSome := by
  unfold fkProblem at h
  rcases hf : db.findTable fk.foreignTable with _ | f
  · rw [hf] at h
    cases h
  · simp

/-- FK satisfiability is monotone under adding tables. -/
theorem fkSat_extends (d d2 : Database) (tn : String) (fk : Constraint)
    (hext : DbExtends d d2) (h : fkSatisfiableB d tn fk = true) :
    fkSatisfiableB d2 tn fk = true := by
  unfold fkSatisfiableB at h ⊢
  rcases hf : d.findTable tn with _ | t
  · rw [hf] at h
    cases h
  · rw [hf] at h
    rw [hext tn t hf]
    have hp : fkProblem d t fk = none := Option.isNone_iff_eq_none.mp h
    have hforeign := fkProblem_none_foreign d t fk hp
    obtain ⟨f, hf2⟩ := Option.isSome_iff_exists.mp hforeign
    have hcongr : fkProblem d2 t fk = fkProblem d t fk :=
      fkProblem_congr d2 d t t fk (by rw [hf2, hext _ f hf2]) (fun _ => rfl)
    show (fkProblem d2 t fk).isNone = true
    rw [hcongr, hp]
    rfl

/-- FK satisfiability transfers along FK-equivalent databases. -/
theorem fkSat_equivAll (d d2 : Database) (tn : String) (fk : Constraint)
    (heq : DbFkEquivAll d d2) : fkSatisfiableB d tn fk = fkSatisfiableB d2 tn fk := by
  unfold fkSatisfiableB
  have h1 := heq tn
  rcases hf : d.findTable tn with _ | t <;> rcases hf2 : d2.findTable tn with _ | t2 <;>
    rw [hf, hf2] at h1 <;>
      first
        | rfl
        | exact False.elim h1
        | (have ht : ∀ n, t.findCol n = t2.findCol n := h1.1
           show (fkProblem d t fk).isNone = (fkProblem d2 t2 fk).isNone
           rw [fkProblem_congr_equiv d d2 t t2 fk (heq fk.foreignTable) ht])

/-- No unfulfilled FKs means every constraint of the table passes the
check. -/
theorem unfulfilledFks_eq_nil_iff (db : Database) (t : Table) :
    db.unfulfilledFks t = [] ↔ ∀ fk ∈ t.constraints, fkProblem db t fk = none := by
  unfold Database.unfulfilledFks
  rw [List.filterMap_eq_nil_iff]
  constructor
  · intro h fk hfk
    have := h fk hfk
    exact Option.map_eq_none'.mp this
  · intro h fk hfk
    rw [h fk hfk]
    rfl

/-- A freshly created table checked against the tracking schema has all its
FKs satisfiable once it is added. -/
theorem fkSat_addTable_self (tr : Database) (t : Table) (fk : Constraint)
    (hp : fkProblem tr t fk = none) (hfresh : t.name ∉ tr.names) :
    fkSatisfiableB (tr.addTable t) t.name fk = true := by
  unfold fkSatisfiableB
  rw [find_addTable_self]
  have hft : fk.foreignTable ≠ t.name := by
    intro hc
    obtain ⟨f, hf2⟩ := Option.isSome_iff_exists.mp (fkProblem_none_foreign tr t fk hp)
    rw [hc] at hf2
    exact hfresh (mem_names_of_findTable tr t.name f hf2)
  have hcongr : fkProblem (tr.addTable t) t fk = fkProblem tr t fk :=
    fkProblem_congr (tr.addTable t) tr t t fk
      (find_addTable_other tr t fk.foreignTable hft) (fun _ => rfl)
  show (fkProblem (tr.addTable t) t fk).isNone = true
  rw [hcongr, hp]
  rfl

/-- `AllSat` is monotone under database extension. -/
theorem allSat_extends (d d2 : Database) (l : List (String × Constraint))
    (hext : DbExtends d d2) (h : AllSat d l) : AllSat d2 l :=
  fun q hq => fkSat_extends d d2 q.1 q.2 hext (h q hq)

/-- `AllSat` transfers along FK-equivalent databases. -/
theorem allSat_equivAll (d d2 : Database) (l : List (String × Constraint))
    (heq : DbFkEquivAll d d2) (h : AllSat d l) : AllSat d2 l :=
  fun q hq => (fkSat_equivAll d d2 q.1 q.2 heq) ▸ (h q hq)

end Mygrations

namespace Mygrations

/-- `applyOps` over an appended list. -/
theorem applyOps_append (d : Database) (a b : List Operation) :
    applyOps d (a ++ b) = applyOps (applyOps d a) b := by
  unfold applyOps
  exact List.foldl_append _ _ _ _

/-- `applyOps` over a cons. -/
theorem applyOps_cons (d : Database) (op : Operation) (l : List Operation) :
    applyOps d (op :: l) = applyOps (applyOp d op) l := rfl

/-- `fksAdded` distributes over append. -/
theorem fksAdded_append (a b : List Operation) :
    fksAdded (a ++ b) = fksAdded a ++ fksAdded b := by
  unfold fksAdded
  simp

/-- `fksAdded` over a cons. -/
theorem fksAdded_cons (op : Operation) (l : List Operation) :
    fksAdded (op :: l) = op.opFksAdded ++ fksAdded l := by
  unfold fksAdded
  simp

/-- Applying a list of creates is folding `addTable`. -/
theorem applyOps_creates (d : Database) (ts : List Table) :
    applyOps d (ts.map Operation.createTable) = ts.foldl Database.addTable d := by
  induction ts generalizing d with
  | nil => rfl
  | cons t rest ih =>
    rw [List.map_cons, applyOps_cons]
    exact ih (d.addTable t)

/-- Fresh creates append their names in order. -/
theorem names_foldl_addTable (d : Database) (ts : List Table)
    (hfresh : FreshCreates d ts) :
    (ts.foldl Database.addTable d).names = d.names ++ ts.map Table.name := by
  induction ts generalizing d with
  | nil => simp
  | cons t rest ih =>
    rw [List.foldl_cons, ih (d.addTable t) hfresh.2,
      names_addTable_fresh d t hfresh.1]
    simp

/-- `DbExtends` is transitive. -/
theorem dbExtends_trans (d1 d2 d3 : Database)
    (h1 : DbExtends d1 d2) (h2 : DbExtends d2 d3) : DbExtends d1 d3 :=
  fun n t h => h2 n t (h1 n t h)

/-- A chain of fresh creates extends the database. -/
theorem extends_foldl_addTable (d : Database) (ts : List Table)
    (hfresh : FreshCreates d ts) : DbExtends d (ts.foldl Database.addTable d) := by
  induction ts generalizing d with
  | nil => exact fun n t h => h
  | cons t rest ih =>
    rw [List.foldl_cons]
    exact dbExtends_trans d (d.addTable t) _
      (extends_addTable d t hfresh.1) (ih (d.addTable t) hfresh.2)

/-- Lookup in a chain of fresh creates: existing entries win, then the
created tables in order. -/
theorem find_foldl_addTable (d : Database) (ts : List Table)
    (hfresh : FreshCreates d ts) (m : String) :
    (ts.foldl Database.addTable d).findTable m =
      match d.findTable m with
      | some u => some u
      | none => ts.find? (fun t => t.name = m) := by
  induction ts generalizing d with
  | nil =>
    rw [List.foldl_nil]
    rcases hd : d.findTable m with _ | u <;> rfl
  | cons t rest ih =>
    rw [List.foldl_cons, ih (d.addTable t) hfresh.2]
    by_cases hm : m = t.name
    · rw [hm, find_addTable_self]
      rcases hd : d.findTable t.name with _ | u
      · rw [List.find?_cons_of_pos _ (by simp)]
      · exact absurd (mem_names_of_findTable d t.name u hd) hfresh.1
    · rw [find_addTable_other d t m hm]
      rcases hd : d.findTable m with _ | u
      · rw [List.find?_cons_of_neg _ (by simpa using fun hc => hm hc.symm)]
      · rfl

/-- A prefix of a mapped list is the map of a prefix. -/
theorem prefix_of_map {α β : Type} (f : α → β) (l : List α) (p : List β)
    (h : p <+: l.map f) : ∃ l0, l0 <+: l ∧ p = l0.map f := by
  induction l generalizing p with
  | nil =>
    rw [List.map_nil, List.prefix_nil] at h
    exact ⟨[], List.nil_prefix, by simp [h]⟩
  | cons x rest ih =>
    rcases p with _ | ⟨b, p'⟩
    · exact ⟨[], List.nil_prefix, rfl⟩
    · rw [List.map_cons, List.cons_prefix_cons] at h
      obtain ⟨l0, hl0, rfl⟩ := ih p' h.2
      exact ⟨x :: l0, List.cons_prefix_cons.mpr ⟨rfl, hl0⟩, by simp [h.1]⟩

/-- `FreshCreates` restricts to prefixes. -/
theorem freshCreates_front (d : Database) (ts ts0 : List Table)
    (h : FreshCreates d ts) (hp : ts0 <+: ts) : FreshCreates d ts0 := by
  induction ts0 generalizing d ts with
  | nil => trivial
  | cons t rest ih =>
    rcases ts with _ | ⟨u, ts'⟩
    · rw [List.prefix_nil] at hp
      cases hp
    · obtain ⟨h1, h2⟩ := List.cons_prefix_cons.mp hp
      subst h1
      exact ⟨h.1, ih (d.addTable t) ts' h.2 h2⟩

/-- Pushing a base-level satisfiability fact past a fresh create. -/
theorem fkProblem_none_addTable (tr : Database) (u t : Table) (fk : Constraint)
    (h : fkProblem tr u fk = none) (hfresh : t.name ∉ tr.names) :
    fkProblem (tr.addTable t) u fk = none := by
  obtain ⟨f, hf⟩ := Option.isSome_iff_exists.mp (fkProblem_none_foreign tr u fk h)
  have hft : fk.foreignTable ≠ t.name := by
    intro hc
    rw [hc] at hf
    exact hfresh (mem_names_of_findTable tr t.name f hf)
  rw [fkProblem_congr (tr.addTable t) tr u u fk
    (find_addTable_other tr t fk.foreignTable hft) (fun _ => rfl)]
  exact h

/-- FK safety of a chain of creates, each checked against the tracking
schema of its moment. -/
theorem safeChain_creates (tr : Database) (ts : List Table)
    (hchk : CheckedCreates tr ts) (hfresh : FreshCreates tr ts) :
    SafeChain tr (ts.map Operation.createTable) := by
  induction ts generalizing tr with
  | nil =>
    intro p hp q hq
    rw [List.map_nil, List.prefix_nil] at hp
    subst hp
    simp [fksAdded] at hq
  | cons t rest ih =>
    intro p hp q hq
    rcases p with _ | ⟨op, p'⟩
    · simp [fksAdded] at hq
    · rw [List.map_cons, List.cons_prefix_cons] at hp
      obtain ⟨rfl, hp'⟩ := hp
      rw [fksAdded_cons] at hq
      rw [applyOps_cons]
      have hstate : applyOp tr (Operation.createTable t) = tr.addTable t := rfl
      rw [hstate]
      rcases List.mem_append.mp hq with hq1 | hq2
      · -- an FK of the new table itself
        simp only [Operation.opFksAdded, List.mem_map] at hq1
        obtain ⟨fk, hfk, rfl⟩ := hq1
        have hsat : fkSatisfiableB (tr.addTable t) t.name fk = true :=
          fkSat_addTable_self tr t fk
            ((unfulfilledFks_eq_nil_iff tr t).mp hchk.1 fk hfk) hfresh.1
        obtain ⟨ts0, hts0, rfl⟩ := prefix_of_map Operation.createTable rest p' hp'
        rw [applyOps_creates]
        exact fkSat_extends (tr.addTable t) _ t.name fk
          (extends_foldl_addTable (tr.addTable t) ts0
            (freshCreates_front (tr.addTable t) rest ts0 hfresh.2 hts0)) hsat
      · exact ih (tr.addTable t) hchk.2 hfresh.2 p' hp' q hq2

/-- FK safety of a chain of creates all of whose FKs are satisfiable
against the base schema. -/
theorem safeChain_creates_base (tr : Database) (ts : List Table)
    (hbase : ∀ t ∈ ts, ∀ fk ∈ t.constraints, fkProblem tr t fk = none)
    (hfresh : FreshCreates tr ts) :
    SafeChain tr (ts.map Operation.createTable) := by
  have hchk : ∀ tr2 ts2, (∀ t ∈ ts2, ∀ fk ∈ t.constraints, fkProblem tr2 t fk = none) →
      FreshCreates tr2 ts2 → CheckedCreates tr2 ts2 := by
    intro tr2 ts2
    induction ts2 generalizing tr2 with
    | nil => intro _ _; trivial
    | cons t rest ih =>
      intro hb hf
      refine ⟨(unfulfilledFks_eq_nil_iff tr2 t).mpr (hb t (by simp)), ?_⟩
      exact ih (tr2.addTable t)
        (fun u hu fk hfk => fkProblem_none_addTable tr2 u t fk
          (hb u (by simp [hu]) fk hfk) hf.1) hf.2
  exact safeChain_creates tr ts (hchk tr ts hbase hfresh) hfresh

end Mygrations

namespace Mygrations

/-- Master bookkeeping lemma for one sweep of `_process_adds`: on a live
list of pending names that all resolve in the target schema, the sweep
succeeds and returns: the tracking schema extended by the tables it
created (each checked, with a fresh name, at its moment of creation), the
surviving names appended to `pre` in order, a grown `good_tables` set
whose new entries are target-consistent, appended error strings, and the
emitted `CREATE TABLE` operations. A sweep that creates nothing and
reports nothing leaves the list unchanged with every name marked good; any
other sweep strictly shrinks the pending list. -/
theorem sweepGo_spec (dbTo : Database) (rem : List String) (tracking : Database)
    (good errors : List String) (ops : List Operation) (pre : List String)
    (hfind : ∀ n ∈ rem, (dbTo.findTable n).isSome)
    (hnodup : rem.Nodup)
    (hfresh : ∀ n ∈ rem, n ∉ tracking.names) :
    ∃ created sub newErrs good2,
      sweepGo dbTo tracking good errors ops pre rem =
        .ok ⟨created.foldl Database.addTable tracking, pre ++ sub, good2,
             errors ++ newErrs, ops ++ created.map Operation.createTable⟩ ∧
      CheckedCreates tracking created ∧
      FreshCreates tracking created ∧
      (∀ t ∈ created, dbTo.findTable t.name = some t ∧ t.name ∈ rem) ∧
      List.Sublist sub rem ∧
      (∀ t ∈ created, t.name ∉ sub) ∧
      (∀ n ∈ good, n ∈ good2) ∧
      (∀ n ∈ good2, n ∈ good ∨ ∃ t, dbTo.findTable n = some t ∧ dbTo.unfulfilledFks t = []) ∧
      (created = [] ∧ newErrs = [] → sub = rem ∧ ∀ n ∈ rem, n ∈ good2) ∧
      (newErrs = [] → ∀ n ∈ rem, n ∈ created.map Table.name ∨ n ∈ sub) ∧
      (¬(created = [] ∧ newErrs = []) → sub.length < rem.length) := by
  induction tracking, good, errors, ops, pre, rem using sweepGo.induct dbTo with
  | case1 tracking good errors ops pre =>
    refine ⟨[], [], [], good, ?_, trivial, trivial, ?_, ?_, ?_, ?_, ?_, ?_, ?_, ?_⟩
    · simp [sweepGo]
    · intro t ht
      simp at ht
    · exact List.nil_sublist []
    · intro t ht
      simp at ht
    · exact fun n hn => hn
    · exact fun n hn => Or.inl hn
    · exact fun _ => ⟨rfl, fun n hn => by simp at hn⟩
    · intro _ n hn
      simp at hn
    · intro hc
      exact absurd ⟨rfl, rfl⟩ hc
  | case2 tracking good errors ops pre head tail h1 =>
    have := hfind head (by simp)
    rw [h1] at this
    cases this
  | case3 tracking good errors ops pre head f h1 h2 =>
    have hfname : f.name = head := findTable_name dbTo head f h1
    refine ⟨[f], [], [], good, ?_, ?_, ?_, ?_, ?_, ?_, ?_, ?_, ?_, ?_, ?_⟩
    · simp [sweepGo, h1, h2]
    · exact ⟨List.isEmpty_iff.mp h2, trivial⟩
    · exact ⟨hfname ▸ hfresh head (by simp), trivial⟩
    · intro t ht
      rcases List.mem_singleton.mp ht with rfl
      exact ⟨hfname ▸ h1, by simp [hfname]⟩
    · exact List.nil_sublist _
    · intro t _ hc
      simp at hc
    · exact fun n hn => hn
    · exact fun n hn => Or.inl hn
    · intro hc
      cases hc.1
    · intro _ n hn
      rcases List.mem_singleton.mp hn with rfl
      exact Or.inl (by simp [hfname])
    · intro _
      simp
  | case4 tracking good errors ops pre head f h1 h2 head1 tail ih =>
    have hfname : f.name = head := findTable_name dbTo head f h1
    have hnd1 := List.nodup_cons.mp hnodup
    have hnd2 := List.nodup_cons.mp hnd1.2
    have hfr : f.name ∉ tracking.names := hfname ▸ hfresh head (by simp)
    obtain ⟨cr, sb, ne, g2, hA, hB, hC, hD, hE, hF, hG, hH, hI, hJ, hK⟩ :=
      ih (fun n hn => hfind n (by simp [hn])) hnd2.2
        (fun n hn => by
          rw [names_addTable_fresh tracking f hfr]
          intro hc
          rcases List.mem_append.mp hc with hc1 | hc2
          · exact hfresh n (by simp [hn]) hc1
          · rw [List.mem_singleton.mp hc2, hfname] at hn
            exact hnd1.1 (by simp [hn]))
    refine ⟨f :: cr, head1 :: sb, ne, g2, ?_, ⟨List.isEmpty_iff.mp h2, hB⟩,
      ⟨hfr, hC⟩, ?_, ?_, ?_, hG, hH, ?_, ?_, ?_⟩
    · rw [show sweepGo dbTo tracking good errors ops pre (head :: head1 :: tail) =
          sweepGo dbTo (tracking.addTable f) good errors
            (ops ++ [Operation.createTable f]) (pre ++ [head1]) tail from by
        simp [sweepGo, h1, h2]]
      rw [hA]
      simp [List.append_assoc]
    · intro t ht
      rcases List.mem_cons.mp ht with rfl | ht2
      · exact ⟨hfname ▸ h1, by simp [hfname]⟩
      · obtain ⟨hfd, hmem⟩ := hD t ht2
        exact ⟨hfd, by simp [hmem]⟩
    · exact List.Sublist.cons head (List.Sublist.cons₂ head1 hE)
    · intro t ht hc
      rcases List.mem_cons.mp ht with rfl | ht2
      · rcases List.mem_cons.mp hc with hc1 | hc2
        · rw [hfname] at hc1
          exact hnd1.1 (by simp [hc1])
        · have hmt : t.name ∈ tail := by
            rw [hfname]
            rw [hfname] at hc2
            exact List.Sublist.subset hE hc2
          rw [hfname] at hmt
          exact hnd1.1 (by simp [hmt])
      · obtain ⟨hfd, hmem⟩ := hD t ht2
        rcases List.mem_cons.mp hc with hc1 | hc2
        · rw [hc1] at hmem
          exact hnd2.1 hmem
        · exact hF t ht2 hc2
    · intro hc
      cases hc.1
    · intro hne n hn
      rcases List.mem_cons.mp hn with rfl | hn2
      · exact Or.inl (by simp [hfname])
      · rcases List.mem_cons.mp hn2 with rfl | hn3
        · exact Or.inr (by simp)
        · rcases hJ hne n hn3 with hl | hr
          · exact Or.inl (by simp [hl])
          · exact Or.inr (by simp [hr])
    · intro _
      have := List.Sublist.length_le hE
      simp only [List.length_cons]
      omega
  | case5 tracking good errors ops pre head tail f h1 h2 h3 ih =>
    have h2m : ¬ tracking.unfulfilledFks f = [] := fun hc => h2 (by simp [hc])
    have h3m : head ∈ good := List.elem_iff.mp h3
    have hnd1 := List.nodup_cons.mp hnodup
    obtain ⟨cr, sb, ne, g2, hA, hB, hC, hD, hE, hF, hG, hH, hI, hJ, hK⟩ :=
      ih (fun n hn => hfind n (by simp [hn])) hnd1.2
        (fun n hn => hfresh n (by simp [hn]))
    refine ⟨cr, head :: sb, ne, g2, ?_, hB, hC, ?_, ?_, ?_, hG, hH, ?_, ?_, ?_⟩
    · rw [show sweepGo dbTo tracking good errors ops pre (head :: tail) =
          sweepGo dbTo tracking good errors ops (pre ++ [head]) tail from by
        simp [sweepGo, h1, h2m, h3m]]
      rw [hA]
      simp [List.append_assoc]
    · intro t ht
      obtain ⟨hfd, hmem⟩ := hD t ht
      exact ⟨hfd, by simp [hmem]⟩
    · exact List.Sublist.cons₂ head hE
    · intro t ht hc
      obtain ⟨hfd, hmem⟩ := hD t ht
      rcases List.mem_cons.mp hc with hc1 | hc2
      · rw [hc1] at hmem
        exact hnd1.1 hmem
      · exact hF t ht hc2
    · intro hc
      obtain ⟨hsub, hgood⟩ := hI hc
      refine ⟨by rw [hsub], fun n hn => ?_⟩
      rcases List.mem_cons.mp hn with rfl | hn2
      · exact hG n h3m
      · exact hgood n hn2
    · intro hne n hn
      rcases List.mem_cons.mp hn with rfl | hn2
      · exact Or.inr (by simp)
      · rcases hJ hne n hn2 with hl | hr
        · exact Or.inl hl
        · exact Or.inr (by simp [hr])
    · intro hc
      have := hK hc
      simp only [List.length_cons]
      omega
  | case6 tracking good errors ops pre head tail f h1 h2 h3 h4 ih =>
    have h2m : ¬ tracking.unfulfilledFks f = [] := fun hc => h2 (by simp [hc])
    have h3m : head ∉ good := fun hc => h3 (List.elem_iff.mpr hc)
    have h4m : dbTo.unfulfilledFks f = [] := List.isEmpty_iff.mp h4
    have hnd1 := List.nodup_cons.mp hnodup
    obtain ⟨cr, sb, ne, g2, hA, hB, hC, hD, hE, hF, hG, hH, hI, hJ, hK⟩ :=
      ih (fun n hn => hfind n (by simp [hn])) hnd1.2
        (fun n hn => hfresh n (by simp [hn]))
    refine ⟨cr, head :: sb, ne, g2, ?_, hB, hC, ?_, ?_, ?_, ?_, ?_, ?_, ?_, ?_⟩
    · rw [show sweepGo dbTo tracking good errors ops pre (head :: tail) =
          sweepGo dbTo tracking (good ++ [head]) errors ops (pre ++ [head]) tail from by
        simp [sweepGo, h1, h2m, h3m, h4m]]
      rw [hA]
      simp [List.append_assoc]
    · intro t ht
      obtain ⟨hfd, hmem⟩ := hD t ht
      exact ⟨hfd, by simp [hmem]⟩
    · exact List.Sublist.cons₂ head hE
    · intro t ht hc
      obtain ⟨hfd, hmem⟩ := hD t ht
      rcases List.mem_cons.mp hc with hc1 | hc2
      · rw [hc1] at hmem
        exact hnd1.1 hmem
      · exact hF t ht hc2
    · exact fun n hn => hG n (by simp [hn])
    · intro n hn
      rcases hH n hn with hl | hr
      · rcases List.mem_append.mp hl with hg | hh
        · exact Or.inl hg
        · rw [List.mem_singleton.mp hh]
          exact Or.inr ⟨f, h1, h4m⟩
      · exact Or.inr hr
    · intro hc
      obtain ⟨hsub, hgood⟩ := hI hc
      refine ⟨by rw [hsub], fun n hn => ?_⟩
      rcases List.mem_cons.mp hn with rfl | hn2
      · exact hG n (by simp)
      · exact hgood n hn2
    · intro hne n hn
      rcases List.mem_cons.mp hn with rfl | hn2
      · exact Or.inr (by simp)
      · rcases hJ hne n hn2 with hl | hr
        · exact Or.inl hl
        · exact Or.inr (by simp [hr])
    · intro hc
      have := hK hc
      simp only [List.length_cons]
      omega
  | case7 tracking good errors ops pre head f h1 h2 h3 h4 =>
    have h2m : ¬ tracking.unfulfilledFks f = [] := fun hc => h2 (by simp [hc])
    have h3m : head ∉ good := fun hc => h3 (List.elem_iff.mpr hc)
    have h4m : ¬ dbTo.unfulfilledFks f = [] := fun hc => h4 (by simp [hc])
    refine ⟨[], [], (dbTo.unfulfilledFks f).map BadFk.error, good, ?_, trivial,
      trivial, ?_, List.nil_sublist _, ?_, fun n hn => hn, fun n hn => Or.inl hn,
      ?_, ?_, ?_⟩
    · simp [sweepGo, h1, h2m, h3m, h4m]
    · intro t ht
      simp at ht
    · intro t ht
      simp at ht
    · intro hc
      exfalso
      have h5 : dbTo.unfulfilledFks f = [] := by
        have := hc.2
        simpa using this
      exact h4m h5
    · intro hne
      exfalso
      have h5 : dbTo.unfulfilledFks f = [] := by simpa using hne
      exact h4m h5
    · intro _
      simp
  | case8 tracking good errors ops pre head f h1 h2 h3 h4 head1 tail ih =>
    have h2m : ¬ tracking.unfulfilledFks f = [] := fun hc => h2 (by simp [hc])
    have h3m : head ∉ good := fun hc => h3 (List.elem_iff.mpr hc)
    have h4m : ¬ dbTo.unfulfilledFks f = [] := fun hc => h4 (by simp [hc])
    have hnd1 := List.nodup_cons.mp hnodup
    have hnd2 := List.nodup_cons.mp hnd1.2
    obtain ⟨cr, sb, ne, g2, hA, hB, hC, hD, hE, hF, hG, hH, hI, hJ, hK⟩ :=
      ih (fun n hn => hfind n (by simp [hn])) hnd2.2
        (fun n hn => hfresh n (by simp [hn]))
    refine ⟨cr, head1 :: sb, (dbTo.unfulfilledFks f).map BadFk.error ++ ne, g2,
      ?_, hB, hC, ?_, ?_, ?_, hG, hH, ?_, ?_, ?_⟩
    · rw [show sweepGo dbTo tracking good errors ops pre (head :: head1 :: tail) =
          sweepGo dbTo tracking good
            (errors ++ (dbTo.unfulfilledFks f).map BadFk.error) ops
            (pre ++ [head1]) tail from by
        simp [sweepGo, h1, h2m, h3m, h4m]]
      rw [hA]
      simp [List.append_assoc]
    · intro t ht
      obtain ⟨hfd, hmem⟩ := hD t ht
      exact ⟨hfd, by simp [hmem]⟩
    · exact List.Sublist.cons head (List.Sublist.cons₂ head1 hE)
    · intro t ht hc
      obtain ⟨hfd, hmem⟩ := hD t ht
      rcases List.mem_cons.mp hc with hc1 | hc2
      · rw [hc1] at hmem
        exact hnd2.1 hmem
      · exact hF t ht hc2
    · intro hc
      exfalso
      have h5 : dbTo.unfulfilledFks f = [] := by
        have := hc.2
        have happ := List.append_eq_nil.mp this
        simpa using happ.1
      exact h4m h5
    · intro hne
      exfalso
      have h5 : dbTo.unfulfilledFks f = [] := by
        have happ := List.append_eq_nil.mp hne
        simpa using happ.1
      exact h4m h5
    · intro _
      have := List.Sublist.length_le hE
      simp only [List.length_cons]
      omega

end Mygrations

namespace Mygrations

/-- `CheckedCreates` composes over append. -/
theorem checkedCreates_append (tr : Database) (a b : List Table)
    (ha : CheckedCreates tr a) (hb : CheckedCreates (a.foldl Database.addTable tr) b) :
    CheckedCreates tr (a ++ b) := by
  induction a generalizing tr with
  | nil => exact hb
  | cons t rest ih => exact ⟨ha.1, ih (tr.addTable t) ha.2 hb⟩

/-- `FreshCreates` composes over append. -/
theorem freshCreates_append (tr : Database) (a b : List Table)
    (ha : FreshCreates tr a) (hb : FreshCreates (a.foldl Database.addTable tr) b) :
    FreshCreates tr (a ++ b) := by
  induction a generalizing tr with
  | nil => exact hb
  | cons t rest ih => exact ⟨ha.1, ih (tr.addTable t) ha.2 hb⟩

/-- Master lemma for the `while` loop of `_process_adds`: with pending
names that resolve in the target schema, are unique and are new to the
tracking schema, the loop succeeds. It emits a chain of checked, fresh
creates; the surviving names are a sublist of the pending ones, are not
among the created names, stay fresh, and are all target-consistent (the
loop only stops once a full sweep made no progress, and such a sweep marks
every survivor good); when no errors were reported, every pending name was
either created or survives. -/
theorem addsLoopF_spec (dbTo : Database) (fuel : Nat) (st : AddsSt) (lastLen : Nat)
    (hfind : ∀ n ∈ st.toAdd, (dbTo.findTable n).isSome)
    (hnodup : st.toAdd.Nodup)
    (hfresh : ∀ n ∈ st.toAdd, n ∉ st.tracking.names)
    (hgood : ∀ n ∈ st.good, ∃ t, dbTo.findTable n = some t ∧ dbTo.unfulfilledFks t = [])
    (hfuel : st.toAdd.length < fuel ∨ ¬(st.toAdd ≠ [] ∧ st.toAdd.length ≠ lastLen))
    (hexit : ¬(st.toAdd ≠ [] ∧ st.toAdd.length ≠ lastLen) → ∀ n ∈ st.toAdd, n ∈ st.good) :
    ∃ created sub newErrs good2,
      addsLoopF dbTo fuel st lastLen =
        .ok ⟨created.foldl Database.addTable st.tracking, sub, good2,
             st.errors ++ newErrs, st.ops ++ created.map Operation.createTable⟩ ∧
      CheckedCreates st.tracking created ∧
      FreshCreates st.tracking created ∧
      (∀ t ∈ created, dbTo.findTable t.name = some t ∧ t.name ∈ st.toAdd) ∧
      List.Sublist sub st.toAdd ∧
      (∀ t ∈ created, t.name ∉ sub) ∧
      (∀ n ∈ sub, n ∉ (created.foldl Database.addTable st.tracking).names) ∧
      (∀ n ∈ sub, ∃ t, dbTo.findTable n = some t ∧ dbTo.unfulfilledFks t = []) ∧
      (newErrs = [] → ∀ n ∈ st.toAdd, n ∈ created.map Table.name ∨ n ∈ sub) := by
  induction fuel generalizing st lastLen with
  | zero =>
    have hcond : ¬(st.toAdd ≠ [] ∧ st.toAdd.length ≠ lastLen) := by
      rcases hfuel with hlt | hc
      · omega
      · exact hc
    refine ⟨[], st.toAdd, [], st.good, ?_, trivial, trivial, ?_, List.Sublist.refl _,
      ?_, ?_, ?_, ?_⟩
    · show Except.ok st = _
      rcases st with ⟨tr, ta, g, e, o⟩
      simp
    · intro t ht
      simp at ht
    · intro t ht
      simp at ht
    · exact fun n hn => hfresh n hn
    · exact fun n hn => hgood n (hexit hcond n hn)
    · exact fun _ n hn => Or.inr hn
  | succ fuel ih =>
    by_cases hcond : st.toAdd ≠ [] ∧ st.toAdd.length ≠ lastLen
    · obtain ⟨cr, sb, ne, g2, hA, hB, hC, hD, hE, hF, hG, hH, hI, hJ, hK⟩ :=
        sweepGo_spec dbTo st.toAdd st.tracking st.good st.errors st.ops []
          hfind hnodup hfresh
      have hsb : List.Sublist sb st.toAdd := hE
      have hfresh2 : ∀ n ∈ sb, n ∉ (cr.foldl Database.addTable st.tracking).names := by
        intro n hn
        rw [names_foldl_addTable st.tracking cr hC]
        intro hc
        rcases List.mem_append.mp hc with hc1 | hc2
        · exact hfresh n (List.Sublist.subset hsb hn) hc1
        · obtain ⟨t, ht, hname⟩ := List.mem_map.mp hc2
          rw [← hname] at hn
          exact hF t ht hn
      have hgood2 : ∀ n ∈ g2, ∃ t, dbTo.findTable n = some t ∧ dbTo.unfulfilledFks t = [] := by
        intro n hn
        rcases hH n hn with hl | hr
        · exact hgood n hl
        · exact hr
      have hst2 : AddsSt.mk (cr.foldl Database.addTable st.tracking) ([] ++ sb) g2
          (st.errors ++ ne) (st.ops ++ cr.map Operation.createTable) =
          ⟨cr.foldl Database.addTable st.tracking, sb, g2, st.errors ++ ne,
           st.ops ++ cr.map Operation.createTable⟩ := by simp
      obtain ⟨cr2, sb2, ne2, g3, hA2, hB2, hC2, hD2, hE2, hF2, hG2, hH2, hJ2⟩ :=
        ih ⟨cr.foldl Database.addTable st.tracking, sb, g2, st.errors ++ ne,
            st.ops ++ cr.map Operation.createTable⟩ st.toAdd.length
          (fun n hn => hfind n (List.Sublist.subset hsb hn))
          (List.Nodup.sublist hsb hnodup)
          hfresh2 hgood2
          (by
            by_cases hlen : sb.length = st.toAdd.length
            · refine Or.inr ?_
              intro hc
              exact hc.2 hlen
            · refine Or.inl ?_
              have hlt : sb.length < st.toAdd.length := by
                have := List.Sublist.length_le hsb
                omega
              show sb.length < fuel
              rcases hfuel with hf | hf
              · omega
              · exact absurd hcond hf)
          (by
            intro hcond2 n hn
            rcases Classical.em (sb = []) with hemp | hne
            · rw [hemp] at hn
              cases hn
            · have hlen : sb.length = st.toAdd.length := by
                by_contra hlc
                exact hcond2 ⟨hne, hlc⟩
              have hclean : cr = [] ∧ ne = [] := by
                by_contra hcc
                have := hK hcc
                omega
              exact (hI hclean).2 n (List.Sublist.subset ((hI hclean).1 ▸ hsb) hn))
      refine ⟨cr ++ cr2, sb2, ne ++ ne2, g3, ?_, ?_, ?_, ?_, ?_, ?_, ?_, ?_, ?_⟩
      · rw [show addsLoopF dbTo (fuel + 1) st lastLen =
            addsLoopF dbTo fuel ⟨cr.foldl Database.addTable st.tracking, sb, g2,
              st.errors ++ ne, st.ops ++ cr.map Operation.createTable⟩
              st.toAdd.length from by
          rw [addsLoopF, if_pos hcond, hA]
          simp]
        rw [hA2]
        simp [List.foldl_append, List.append_assoc]
      · exact checkedCreates_append st.tracking cr cr2 hB hB2
      · exact freshCreates_append st.tracking cr cr2 hC hC2
      · intro t ht
        rcases List.mem_append.mp ht with ht1 | ht2
        · exact hD t ht1
        · obtain ⟨hfd, hmem⟩ := hD2 t ht2
          exact ⟨hfd, List.Sublist.subset hsb hmem⟩
      · exact List.Sublist.trans hE2 hsb
      · intro t ht hc
        rcases List.mem_append.mp ht with ht1 | ht2
        · exact hF t ht1 (List.Sublist.subset hE2 hc)
        · exact hF2 t ht2 hc
      · intro n hn
        have := hG2 n hn
        rwa [List.foldl_append]
      · exact hH2
      · intro hne0 n hn
        have hboth : ne = [] ∧ ne2 = [] := List.append_eq_nil.mp hne0
        rcases hJ hboth.1 n hn with hl | hr
        · exact Or.inl (by simp [hl])
        · rcases hJ2 hboth.2 n hr with hl2 | hr2
          · exact Or.inl (by simp [hl2])
          · exact Or.inr hr2
    · refine ⟨[], st.toAdd, [], st.good, ?_, trivial, trivial, ?_, List.Sublist.refl _,
        ?_, ?_, ?_, ?_⟩
      · rw [addsLoopF, if_neg hcond]
        rcases st with ⟨tr, ta, g, e, o⟩
        simp
      · intro t ht
        simp at ht
      · intro t ht
        simp at ht
      · exact fun n hn => hfresh n hn
      · exact fun n hn => hgood n (hexit hcond n hn)
      · exact fun _ n hn => Or.inr hn

end Mygrations

namespace Mygrations

/-! ## Lookup characterisations used by the FK-safety assembly -/

/-- A column lookup fails exactly for names outside the column keys. -/
theorem findCol_eq_none_iff (t : Table) (n : String) :
    t.findCol n = none ↔ n ∉ t.colNames := by
  unfold Table.findCol Table.colNames
  rw [List.find?_eq_none]
  constructor
  · intro h hc
    obtain ⟨c, hc2, hname⟩ := List.mem_map.mp hc
    exact absurd (by simpa using hname) (h c hc2)
  · intro h c hc2
    simp only [decide_eq_true_eq]
    intro hname
    exact h (List.mem_map.mpr ⟨c, hc2, hname⟩)

/-- A found index is a member with the looked-up name. -/
theorem findIdx_mem (t : Table) (n : String) (i : Index)
    (h : t.findIdx n = some i) : i ∈ t.indexes ∧ i.name = n :=
  ⟨List.mem_of_find?_eq_some h, by simpa using List.find?_some h⟩

/-- With unique index names, each index is found by its own name. -/
theorem findIdx_self (t : Table) (hnd : t.idxNames.Nodup) (i : Index)
    (hi : i ∈ t.indexes) : t.findIdx i.name = some i := by
  rcases hf : t.findIdx i.name with _ | j
  · unfold Table.findIdx at hf
    rw [List.find?_eq_none] at hf
    exact absurd (by simp) (hf i hi)
  · obtain ⟨hj, hname⟩ := findIdx_mem t i.name j hf
    rw [List.inj_on_of_nodup_map hnd hj hi hname]

/-- `TableFkEquiv` is reflexive. -/
theorem tableFkEquiv_refl (t : Table) : TableFkEquiv t t :=
  ⟨fun _ => rfl, fun _ => rfl⟩

/-- `TableFkEquiv` is symmetric. -/
theorem tableFkEquiv_symm (a b : Table) (h : TableFkEquiv a b) : TableFkEquiv b a :=
  ⟨fun n => (h.1 n).symm, fun cols => (h.2 cols).symm⟩

/-- `DbFkEquivAll` is reflexive. -/
theorem dbFkEquivAll_refl (d : Database) : DbFkEquivAll d d := by
  intro m
  rcases d.findTable m with _ | t
  · trivial
  · exact tableFkEquiv_refl t

/-- `DbFkEquivAll` is transitive. -/
theorem dbFkEquivAll_trans (d1 d2 d3 : Database)
    (h12 : DbFkEquivAll d1 d2) (h23 : DbFkEquivAll d2 d3) : DbFkEquivAll d1 d3 := by
  intro m
  have a12 := h12 m
  have a23 := h23 m
  rcases h1 : d1.findTable m with _ | t1 <;> rcases h2 : d2.findTable m with _ | t2 <;>
    rcases h3 : d3.findTable m with _ | t3 <;> rw [h1, h2] at a12 <;> rw [h2, h3] at a23 <;>
      first
        | trivial
        | exact False.elim a12
        | exact False.elim a23
        | exact ⟨fun n => (a12.1 n).trans (a23.1 n), fun c => (a12.2 c).trans (a23.2 c)⟩

/-- A satisfiable FK names two tables that exist in the schema. -/
theorem fkSat_names (d : Database) (tn : String) (fk : Constraint)
    (h : fkSatisfiableB d tn fk = true) :
    tn ∈ d.names ∧ fk.foreignTable ∈ d.names := by
  unfold fkSatisfiableB at h
  rcases hf : d.findTable tn with _ | t
  · rw [hf] at h
    cases h
  · rw [hf] at h
    have hp : fkProblem d t fk = none := Option.isNone_iff_eq_none.mp h
    obtain ⟨f, hf2⟩ := Option.isSome_iff_exists.mp (fkProblem_none_foreign d t fk hp)
    exact ⟨mem_names_of_findTable d tn t hf, mem_names_of_findTable d fk.foreignTable f hf2⟩

/-- An unfulfilled-FK record holds one of the table's constraints, with its
problem. -/
theorem mem_unfulfilledFks (db : Database) (t : Table) (b : BadFk)
    (h : b ∈ db.unfulfilledFks t) :
    b.foreignKey ∈ t.constraints ∧ fkProblem db t b.foreignKey = some b.error := by
  unfold Database.unfulfilledFks at h
  obtain ⟨fk, hfk, hmap⟩ := List.mem_filterMap.mp h
  rcases hp : fkProblem db t fk with _ | e
  · rw [hp] at hmap
    cases hmap
  · rw [hp] at hmap
    have hb : b = ⟨e, fk⟩ := (Option.some_inj.mp hmap).symm
    subst hb
    exact ⟨hfk, hp⟩

/-- `fkProblem = none` is preserved when the database only gains tables. -/
theorem fkProblem_none_extends (d d2 : Database) (t : Table) (fk : Constraint)
    (hext : DbExtends d d2) (h : fkProblem d t fk = none) :
    fkProblem d2 t fk = none := by
  obtain ⟨f, hf⟩ := Option.isSome_iff_exists.mp (fkProblem_none_foreign d t fk h)
  rw [fkProblem_congr d2 d t t fk (by rw [hf, hext _ f hf]) (fun _ => rfl)]
  exact h

/-- Every table of a checked chain of creates also has no unfulfilled FKs
against any extension of the chain — in particular against the target
schema, once each created table is known to be the target's table of that
name. -/
theorem checkedCreates_all_good (dbTo tr : Database) (ts : List Table)
    (hchk : CheckedCreates tr ts)
    (hD : ∀ t ∈ ts, dbTo.findTable t.name = some t)
    (hbase : DbExtends tr dbTo) :
    ∀ u ∈ ts, dbTo.unfulfilledFks u = [] := by
  induction ts generalizing tr with
  | nil => intro u hu; cases hu
  | cons t rest ih =>
    intro u hu
    have hbase2 : DbExtends (tr.addTable t) dbTo := by
      intro n v hv
      by_cases hn : n = t.name
      · subst hn
        rw [find_addTable_self] at hv
        rw [← Option.some_inj.mp hv]
        exact hD t (by simp)
      · rw [find_addTable_other tr t n hn] at hv
        exact hbase n v hv
    rcases List.mem_cons.mp hu with hu | hu
    · subst hu
      refine (unfulfilledFks_eq_nil_iff dbTo u).mpr (fun fk hfk => ?_)
      exact fkProblem_none_extends tr dbTo u fk hbase
        ((unfulfilledFks_eq_nil_iff tr u).mp hchk.1 fk hfk)
    · exact ih (tr.addTable t) hchk.2 (fun v hv => hD v (by simp [hv])) hbase2 u hu

/-- Names fresh for the base and pairwise distinct form a fresh chain. -/
theorem freshCreates_of_nodup (d : Database) (ts : List Table)
    (hfresh : ∀ t ∈ ts, t.name ∉ d.names) (hnd : (ts.map Table.name).Nodup) :
    FreshCreates d ts := by
  induction ts generalizing d with
  | nil => trivial
  | cons t rest ih =>
    rw [List.map_cons, List.nodup_cons] at hnd
    refine ⟨hfresh t (by simp), ih (d.addTable t) ?_ hnd.2⟩
    intro u hu
    rw [names_addTable_fresh d t (hfresh t (by simp))]
    intro hc
    rcases List.mem_append.mp hc with hc1 | hc2
    · exact hfresh u (by simp [hu]) hc1
    · have h2 : u.name = t.name := List.mem_singleton.mp hc2
      have h3 : t.name ∈ List.map Table.name rest := h2 ▸ List.mem_map_of_mem Table.name hu
      exact hnd.1 h3

/-- A prefix of an appended list is a prefix of the first part or extends
it by a prefix of the second. -/
theorem prefix_append_cases {α : Type} (X Y p : List α) (h : p <+: X ++ Y) :
    p <+: X ∨ ∃ q, p = X ++ q ∧ q <+: Y := by
  induction X generalizing p with
  | nil => exact Or.inr ⟨p, by simp, by simpa using h⟩
  | cons x X' ih =>
    rcases p with _ | ⟨a, p'⟩
    · exact Or.inl (List.nil_prefix)
    · rw [List.cons_append, List.cons_prefix_cons] at h
      rcases ih p' h.2 with h1 | ⟨q, hq1, hq2⟩
      · exact Or.inl (List.cons_prefix_cons.mpr ⟨h.1, h1⟩)
      · exact Or.inr ⟨q, by simp [h.1, hq1], hq2⟩

/-- FKs added by a chain of creates: the constraints of the created
tables. -/
theorem fksAdded_creates_mem (ts : List Table) (tn : String) (fk : Constraint) :
    (tn, fk) ∈ fksAdded (ts.map Operation.createTable) ↔
      ∃ t ∈ ts, t.name = tn ∧ fk ∈ t.constraints := by
  unfold fksAdded
  rw [List.mem_flatMap]
  constructor
  · rintro ⟨op, hop, hmem⟩
    obtain ⟨t, ht, rfl⟩ := List.mem_map.mp hop
    simp only [Operation.opFksAdded, List.mem_map] at hmem
    obtain ⟨c, hc, hpair⟩ := hmem
    obtain ⟨h1, h2⟩ := Prod.mk.injEq _ _ _ _ ▸ hpair
    exact ⟨t, ht, by simp_all⟩
  · rintro ⟨t, ht, hname, hfk⟩
    refine ⟨Operation.createTable t, List.mem_map_of_mem _ ht, ?_⟩
    show (tn, fk) ∈ t.constraints.map (fun c => (t.name, c))
    exact List.mem_map.mpr ⟨fk, hfk, by rw [hname]⟩

/-- Drops add no FKs. -/
theorem fksAdded_removes (names : List String) :
    fksAdded (names.map Operation.removeTableOp) = [] := by
  induction names with
  | nil => rfl
  | cons n rest ih =>
    rw [List.map_cons, fksAdded_cons, ih]
    rfl

/-- The FKs added by a pure `ADD CONSTRAINT` alter. -/
theorem opFksAdded_alter_adds (n : String) (bad : List BadFk) :
    (Operation.alterTableOp ⟨n, bad.map (fun b => SubOp.addConstraintOp b.foreignKey)⟩).opFksAdded =
      bad.map (fun b => (n, b.foreignKey)) := by
  induction bad with
  | nil => rfl
  | cons b rest ih =>
    simp only [Operation.opFksAdded, List.map_cons, List.filterMap_cons] at ih ⊢
    rw [show (SubOp.fkAdd (SubOp.addConstraintOp b.foreignKey)).map
      (fun c => (n, c)) = some (n, b.foreignKey) from rfl]
    simpa using ih

/-- Lookup after a fold of drops. -/
theorem find_foldl_removeTable (d : Database) (names : List String) (m : String) :
    (names.foldl Database.removeTable d).findTable m =
      if names.contains m then none else d.findTable m := by
  induction names generalizing d with
  | nil => simp
  | cons n rest ih =>
    rw [List.foldl_cons, ih]
    by_cases hm : rest.contains m
    · rw [if_pos hm, if_pos (by simp_all)]
    · rw [if_neg hm, find_removeTable d n m]
      by_cases hmn : m = n
      · rw [if_pos hmn, if_pos (by simp [hmn])]
      · rw [if_neg hmn, if_neg (by simp [hmn]; simpa using hm)]

/-- Applying a list of drops is folding `removeTable`. -/
theorem applyOps_removes (d : Database) (names : List String) :
    applyOps d (names.map Operation.removeTableOp) =
      names.foldl Database.removeTable d := by
  induction names generalizing d with
  | nil => rfl
  | cons n rest ih =>
    rw [List.map_cons, applyOps_cons]
    exact ih (d.removeTable n)

/-- Dropping tables that neither endpoint of an FK names preserves its
satisfiability. -/
theorem fkSat_drops (d : Database) (names : List String) (tn : String)
    (fk : Constraint) (htn : tn ∉ names) (hft : fk.foreignTable ∉ names)
    (h : fkSatisfiableB d tn fk = true) :
    fkSatisfiableB (names.foldl Database.removeTable d) tn fk = true := by
  unfold fkSatisfiableB at h ⊢
  rcases hf : d.findTable tn with _ | t
  · rw [hf] at h
    cases h
  · rw [hf] at h
    have h2 : (fkProblem d t fk).isNone = true := h
    rw [find_foldl_removeTable, if_neg (by simpa using htn), hf]
    have hcongr : fkProblem (names.foldl Database.removeTable d) t fk = fkProblem d t fk :=
      fkProblem_congr _ d t t fk
        (by rw [find_foldl_removeTable, if_neg (by simpa using hft)]) (fun _ => rfl)
    show (fkProblem (names.foldl Database.removeTable d) t fk).isNone = true
    rw [hcongr]
    exact h2

end Mygrations

namespace Mygrations

/-- A constraint-only sub-operation leaves columns, indexes and name
untouched. -/
theorem applySubOp_conOnly (t : Table) (o : SubOp) (ho : o.conOnly) :
    (applySubOp t o).columns = t.columns ∧ (applySubOp t o).indexes = t.indexes ∧
    (applySubOp t o).name = t.name := by
  cases o with
  | addCol c p => exact False.elim ho
  | changeCol c => exact False.elim ho
  | removeCol c => exact False.elim ho
  | addKeyOp k => exact False.elim ho
  | removeKeyOp k => exact False.elim ho
  | changeKeyOp k => exact False.elim ho
  | addConstraintOp c =>
    by_cases hf : (t.findCon c.name).isSome
    · simp [applySubOp, hf]
    · simp [applySubOp, hf]
  | changeConstraintOp c => exact ⟨rfl, rfl, rfl⟩
  | removeConstraintOp c => exact ⟨rfl, rfl, rfl⟩

/-- A fold of constraint-only sub-operations leaves columns, indexes and
name untouched. -/
theorem foldl_applySubOp_conOnly (l : List SubOp) (t : Table)
    (h : ∀ o ∈ l, o.conOnly) :
    (l.foldl applySubOp t).columns = t.columns ∧
    (l.foldl applySubOp t).indexes = t.indexes ∧
    (l.foldl applySubOp t).name = t.name := by
  induction l generalizing t with
  | nil => exact ⟨rfl, rfl, rfl⟩
  | cons o rest ih =>
    obtain ⟨h1, h2, h3⟩ := applySubOp_conOnly t o (h o (by simp))
    obtain ⟨h4, h5, h6⟩ := ih (applySubOp t o) (fun o2 ho2 => h o2 (by simp [ho2]))
    exact ⟨h4.trans h1, h5.trans h2, h6.trans h3⟩

/-- Column lookups only read the column list. -/
theorem findCol_congr (a b : Table) (h : a.columns = b.columns) (n : String) :
    a.findCol n = b.findCol n := by
  unfold Table.findCol
  rw [h]

/-- Applying a constraint-only `ALTER TABLE` is invisible to `fkProblem`. -/
theorem applyOp_alter_equiv (d : Database) (a : AlterTable)
    (hc : ∀ o ∈ a.subOps, o.conOnly) :
    DbFkEquivAll d (applyOp d (Operation.alterTableOp a)) := by
  rcases hf : d.findTable a.tableName with _ | t
  · rw [show applyOp d (Operation.alterTableOp a) = d from by
      show (match d.findTable a.tableName with
        | none => d
        | some t => d.setTable a.tableName (a.subOps.foldl applySubOp t)) = d
      rw [hf]]
    exact dbFkEquivAll_refl d
  · obtain ⟨hcols, hidxs, hname⟩ := foldl_applySubOp_conOnly a.subOps t hc
    have hname2 : t.name = a.tableName := findTable_name d a.tableName t hf
    rw [show applyOp d (Operation.alterTableOp a) =
        d.setTable a.tableName (a.subOps.foldl applySubOp t) from by
      show (match d.findTable a.tableName with
        | none => d
        | some u => d.setTable a.tableName (a.subOps.foldl applySubOp u)) =
        d.setTable a.tableName (a.subOps.foldl applySubOp t)
      rw [hf]]
    intro m
    rw [find_setTable d a.tableName _ (hname.trans hname2) m]
    by_cases hm : m = a.tableName
    · rw [if_pos hm, hm, hf]
      show TableFkEquiv t (a.subOps.foldl applySubOp t)
      exact ⟨fun n => (findCol_congr t _ hcols.symm n), fun cols => by rw [hidxs]⟩
    · rw [if_neg hm]
      exact dbFkEquivAll_refl d m

/-- Applying a list of constraint-only alters is invisible to `fkProblem`. -/
theorem applyOps_alters_equiv (d : Database) (l : List Operation)
    (h : ∀ op ∈ l, ∃ a, op = Operation.alterTableOp a ∧ ∀ o ∈ a.subOps, o.conOnly) :
    DbFkEquivAll d (applyOps d l) := by
  induction l generalizing d with
  | nil => exact dbFkEquivAll_refl d
  | cons op rest ih =>
    obtain ⟨a, ha, hca⟩ := h op (by simp)
    subst ha
    rw [applyOps_cons]
    exact dbFkEquivAll_trans _ _ _ (applyOp_alter_equiv d a hca)
      (ih (applyOp d (Operation.alterTableOp a)) (fun op2 h2 => h op2 (by simp [h2])))

end Mygrations

namespace Mygrations

/-- Removing a list of present, pairwise-distinct constraint names
succeeds and filters exactly those names out. -/
theorem stripConstraints_general (l : List BadFk) (t : Table)
    (hnd : (l.map (fun b => b.foreignKey.name)).Nodup)
    (hmem : ∀ b ∈ l, b.foreignKey.name ∈ t.conNames) :
    stripConstraints t l = .ok { t with
      constraints := t.constraints.filter
        (fun c => !(l.any (fun b => b.foreignKey.name = c.name))) } := by
  induction l generalizing t with
  | nil =>
    show Except.ok t = _
    simp
  | cons b rest ih =>
    have hfind : (t.findCon b.foreignKey.name).isSome :=
      findCon_isSome_of_mem t _ (hmem b (by simp))
    rw [List.map_cons, List.nodup_cons] at hnd
    have hstep : t.removeConstraint b.foreignKey.name =
        .ok { t with constraints :=
          t.constraints.filter (fun c => c.name ≠ b.foreignKey.name) } := by
      unfold Table.removeConstraint
      rw [if_pos hfind]
    have hstep2 : stripConstraints t (b :: rest) =
        stripConstraints { t with constraints := t.constraints.filter (fun c => c.name ≠ b.foreignKey.name) } rest := by
      simp only [stripConstraints]
      rw [hstep]
    rw [hstep2]
    have hmem2 : ∀ b2 ∈ rest, b2.foreignKey.name ∈
        ({ t with constraints :=
          t.constraints.filter (fun c => c.name ≠ b.foreignKey.name) } : Table).conNames := by
      intro b2 hb2
      have h1 := hmem b2 (by simp [hb2])
      have hne : b2.foreignKey.name ≠ b.foreignKey.name :=
        fun hc => hnd.1 (hc ▸ List.mem_map_of_mem _ hb2)
      unfold Table.conNames at h1 ⊢
      obtain ⟨c, hc1, hc2⟩ := List.mem_map.mp h1
      exact List.mem_map.mpr ⟨c, List.mem_filter.mpr ⟨hc1, by simp [hc2]; exact hne⟩, hc2⟩
    rw [ih _ hnd.2 hmem2]
    congr 1
    congr 1
    show (t.constraints.filter (fun c => c.name ≠ b.foreignKey.name)).filter
        (fun c => !(rest.any (fun b2 => b2.foreignKey.name = c.name))) =
      t.constraints.filter (fun c => !((b :: rest).any (fun b2 => b2.foreignKey.name = c.name)))
    rw [List.filter_filter]
    refine List.filter_congr (fun c _ => ?_)
    by_cases h1 : b.foreignKey.name = c.name
    · simp [h1]
    · by_cases h2 : rest.any (fun b2 => b2.foreignKey.name = c.name)
      · simp [h1, h2]
      · simp [h1, h2]
        exact fun hc => absurd hc.symm h1

/-- The unfulfilled-FK records of a table, mapped to their constraint
names, are exactly the names of the failing constraints. -/
theorem unfulfilledFks_names (db : Database) (t : Table) :
    (db.unfulfilledFks t).map (fun b => b.foreignKey.name) =
      (t.constraints.filter (fun c => (fkProblem db t c).isSome)).map Constraint.name := by
  unfold Database.unfulfilledFks
  induction t.constraints with
  | nil => rfl
  | cons c rest ih =>
    rw [List.filterMap_cons, List.filter_cons]
    rcases hp : fkProblem db t c with _ | e
    · simpa using ih
    · simpa using ih

/-- Stripping the unfulfilled FKs of a table with unique constraint names
keeps exactly the satisfiable constraints (and nothing else changes). -/
theorem stripConstraints_unfulfilled (db : Database) (t : Table)
    (hnd : t.conNames.Nodup) :
    stripConstraints t (db.unfulfilledFks t) = .ok { t with
      constraints := t.constraints.filter (fun c => (fkProblem db t c).isNone) } := by
  have hsub : ((db.unfulfilledFks t).map (fun b => b.foreignKey.name)).Sublist t.conNames := by
    rw [unfulfilledFks_names]
    exact List.Sublist.map Constraint.name (List.filter_sublist t.constraints)
  have hnd2 : ((db.unfulfilledFks t).map (fun b => b.foreignKey.name)).Nodup :=
    List.Nodup.sublist hsub hnd
  have hmem : ∀ b ∈ db.unfulfilledFks t, b.foreignKey.name ∈ t.conNames := by
    intro b hb
    exact List.mem_map_of_mem Constraint.name (mem_unfulfilledFks db t b hb).1
  rw [stripConstraints_general (db.unfulfilledFks t) t hnd2 hmem]
  congr 1
  congr 1
  refine List.filter_congr (fun c hc => ?_)
  rcases hp : fkProblem db t c with _ | e
  · have hno : ¬ (db.unfulfilledFks t).any (fun b => b.foreignKey.name = c.name) := by
      intro hany
      obtain ⟨b, hb, hbn⟩ := List.any_eq_true.mp hany
      have hbn2 : b.foreignKey.name = c.name := by simpa using hbn
      obtain ⟨hbmem, hbprob⟩ := mem_unfulfilledFks db t b hb
      have hbc : b.foreignKey = c := List.inj_on_of_nodup_map hnd hbmem hc hbn2
      rw [hbc, hp] at hbprob
      cases hbprob
    simp [hno]
  · have hyes : (db.unfulfilledFks t).any (fun b => b.foreignKey.name = c.name) := by
      refine List.any_eq_true.mpr ⟨⟨e, c⟩, ?_, by simp⟩
      unfold Database.unfulfilledFks
      exact List.mem_filterMap.mpr ⟨c, hc, by rw [hp]; rfl⟩
    simp [hyes, hp]

end Mygrations

namespace Mygrations

/-- The cycle-break loop, characterised: with a live operation list it
never fails; it emits one stripped `CREATE TABLE` per pending name (in
order) and queues one `ADD CONSTRAINT` alter per pending name, and the
tracking database is left untouched. -/
theorem cycleLoop_spec (dbTo : Database) (names : List String)
    (hfind : ∀ n ∈ names, ∃ t, dbTo.findTable n = some t ∧ t.conNames.Nodup) :
    ∀ (l f0 : List Operation) (tr : Database),
    ∃ pairs : List (Table × Table),
      cycleLoop dbTo ⟨some l, f0, tr⟩ names =
        .ok ⟨some (l ++ pairs.map (fun p => Operation.createTable p.2)),
             f0 ++ pairs.map (fun p => Operation.alterTableOp
               ⟨p.1.name, (tr.unfulfilledFks p.1).map (fun b => SubOp.addConstraintOp b.foreignKey)⟩),
             tr⟩ ∧
      pairs.map (fun p => p.1.name) = names ∧
      ∀ p ∈ pairs, dbTo.findTable p.1.name = some p.1 ∧
        p.2 = { p.1 with constraints := p.1.constraints.filter (fun c => (fkProblem tr p.1 c).isNone) } := by
  induction names with
  | nil =>
    intro l f0 tr
    exact ⟨[], by simp [cycleLoop], rfl, by intro p hp; cases hp⟩
  | cons n rest ih =>
    intro l f0 tr
    obtain ⟨t, hft, hnd⟩ := hfind n (by simp)
    have hn : t.name = n := findTable_name dbTo n t hft
    have hstrip := stripConstraints_unfulfilled tr t hnd
    have hstep : cycleLoop dbTo ⟨some l, f0, tr⟩ (n :: rest) =
        cycleLoop dbTo ⟨some (l ++ [Operation.createTable
            { t with constraints := t.constraints.filter (fun c => (fkProblem tr t c).isNone) }]),
          f0 ++ [Operation.alterTableOp
            ⟨n, (tr.unfulfilledFks t).map (fun b => SubOp.addConstraintOp b.foreignKey)⟩],
          tr⟩ rest := by
      simp only [cycleLoop, hft, hstrip]
    obtain ⟨pairs, hA, hB, hC⟩ := ih (fun m hm => hfind m (by simp [hm]))
      (l ++ [Operation.createTable
        { t with constraints := t.constraints.filter (fun c => (fkProblem tr t c).isNone) }])
      (f0 ++ [Operation.alterTableOp
        ⟨n, (tr.unfulfilledFks t).map (fun b => SubOp.addConstraintOp b.foreignKey)⟩])
      tr
    refine ⟨(t, { t with constraints := t.constraints.filter (fun c => (fkProblem tr t c).isNone) }) :: pairs,
      ?_, ?_, ?_⟩
    · rw [hstep, hA]
      simp [hn, List.append_assoc]
    · simp [hB, hn]
    · intro p hp
      rcases List.mem_cons.mp hp with hp | hp
      · subst hp
        refine ⟨?_, rfl⟩
        show dbTo.findTable t.name = some t
        rw [hn]
        exact hft
      · exact hC p hp

/-- The cycle-break loop crashes on a dead operation list as soon as a
pending name remains (`operations` is `None` and the loop appends). -/
theorem cycleLoop_none_cons (dbTo : Database) (n : String) (rest : List String)
    (f0 : List Operation) (tr : Database) (t : Table)
    (hft : dbTo.findTable n = some t) (hnd : t.conNames.Nodup) :
    cycleLoop dbTo ⟨none, f0, tr⟩ (n :: rest) =
      .error (.attributeErr "NoneType object has no attribute append") := by
  simp only [cycleLoop, hft, stripConstraints_unfulfilled tr t hnd]

/-- The drop loop with a live operation list: appends one
`DROP TABLE` per name and drops each from the tracking schema. -/
theorem dropsLoop_spec (names : List String) :
    ∀ (l : List Operation) (f0 : List Operation) (tr : Database),
    dropsLoop ⟨some l, f0, tr⟩ names =
      .ok ⟨some (l ++ names.map Operation.removeTableOp), f0,
           names.foldl Database.removeTable tr⟩ := by
  induction names with
  | nil => intro l f0 tr; simp [dropsLoop]
  | cons n rest ih =>
    intro l f0 tr
    show dropsLoop ⟨some (l ++ [Operation.removeTableOp n]), f0, tr.removeTable n⟩ rest = _
    rw [ih]
    simp [List.append_assoc]

/-- The drop loop crashes on a dead operation list as soon as there is a
table to drop. -/
theorem dropsLoop_none_cons (n : String) (rest : List String)
    (f0 : List Operation) (tr : Database) :
    dropsLoop ⟨none, f0, tr⟩ (n :: rest) =
      .error (.attributeErr "NoneType object has no attribute append") := rfl

end Mygrations

namespace Mygrations

/-- An empty `ADD COLUMN` batch means no added columns. -/
theorem addColOps_nil (tgt : Table) (l : List String)
    (h : addColOps tgt l = .ok []) : l = [] := by
  cases l with
  | nil => rfl
  | cons c rest =>
    exfalso
    simp only [addColOps] at h
    rcases hf : tgt.findCol c with _ | col <;> rw [hf] at h
    · cases h
    · rcases hb : tgt.columnBefore c with e | pos <;> rw [hb] at h
      · cases h
      · rcases hr : addColOps tgt rest with e | ops <;> rw [hr] at h <;> simp [Except.map] at h

/-- An empty `DROP COLUMN` batch means no removed columns. -/
theorem removeColOps_nil (src : Table) (l : List String)
    (h : removeColOps src l = .ok []) : l = [] := by
  cases l with
  | nil => rfl
  | cons c rest =>
    exfalso
    simp only [removeColOps] at h
    rcases hf : src.findCol c with _ | col <;> rw [hf] at h
    · cases h
    · rcases hr : removeColOps src rest with e | ops <;> rw [hr] at h <;> simp [Except.map] at h

/-- An empty `ADD KEY` batch means no added keys. -/
theorem addKeyOps_nil (tgt : Table) (l : List String)
    (h : addKeyOps tgt l = .ok []) : l = [] := by
  cases l with
  | nil => rfl
  | cons k rest =>
    exfalso
    simp only [addKeyOps] at h
    rcases hf : tgt.findIdx k with _ | i <;> rw [hf] at h
    · cases h
    · rcases hr : addKeyOps tgt rest with e | ops <;> rw [hr] at h <;> simp [Except.map] at h

/-- An empty `DROP KEY` batch means no removed keys. -/
theorem removeKeyOps_nil (src : Table) (l : List String)
    (h : removeKeyOps src l = .ok []) : l = [] := by
  cases l with
  | nil => rfl
  | cons k rest =>
    exfalso
    simp only [removeKeyOps] at h
    rcases hf : src.findIdx k with _ | i <;> rw [hf] at h
    · cases h
    · rcases hr : removeKeyOps src rest with e | ops <;> rw [hr] at h <;> simp [Except.map] at h

/-- An empty `CHANGE COLUMN` batch: every listed column resolves to the
same column object in source and target. -/
theorem changeColOps_ptwise (src tgt : Table) (l : List String)
    (h : changeColOps src tgt l = .ok []) :
    ∀ c ∈ l, ∃ a, src.findCol c = some a ∧ tgt.findCol c = some a := by
  induction l with
  | nil => intro c hc; cases hc
  | cons c rest ih =>
    intro c2 hc2
    simp only [changeColOps] at h
    rcases hf1 : src.findCol c with _ | a <;> rw [hf1] at h
    · cases h
    · rcases hf2 : tgt.findCol c with _ | b <;> rw [hf2] at h
      · cases h
      · rcases hr : changeColOps src tgt rest with e | ops <;> rw [hr] at h
        · cases h
        · have hok : (if a = b then ops else SubOp.changeCol b :: ops) = [] :=
            Except.ok.inj h
          by_cases hab : a = b
          · rw [if_pos hab] at hok
            subst hok
            rcases List.mem_cons.mp hc2 with hc2 | hc2
            · subst hc2
              exact ⟨a, hf1, hab ▸ hf2⟩
            · exact ih hr c2 hc2
          · rw [if_neg hab] at hok
            cases hok

/-- An empty `CHANGE KEY` batch: every listed key resolves to the same
index object in source and target. -/
theorem changeKeyOps_ptwise (src tgt : Table) (l : List String)
    (h : changeKeyOps src tgt l = .ok []) :
    ∀ k ∈ l, ∃ a, src.findIdx k = some a ∧ tgt.findIdx k = some a := by
  induction l with
  | nil => intro k hk; cases hk
  | cons k rest ih =>
    intro k2 hk2
    simp only [changeKeyOps] at h
    rcases hf1 : src.findIdx k with _ | a <;> rw [hf1] at h
    · cases h
    · rcases hf2 : tgt.findIdx k with _ | b <;> rw [hf2] at h
      · cases h
      · rcases hr : changeKeyOps src tgt rest with e | ops <;> rw [hr] at h
        · cases h
        · have hok : (if a = b then ops else SubOp.changeKeyOp b :: ops) = [] :=
            Except.ok.inj h
          by_cases hab : a = b
          · rw [if_pos hab] at hok
            subst hok
            rcases List.mem_cons.mp hk2 with hk2 | hk2
            · subst hk2
              exact ⟨a, hf1, hab ▸ hf2⟩
            · exact ih hr k2 hk2
          · rw [if_neg hab] at hok
            cases hok

end Mygrations

namespace Mygrations

/-- A diff whose kitchen-sink group is empty relates two tables that are
indistinguishable as FK targets: same column map, same leftmost-prefix
index queries. -/
theorem tableFkEquiv_of_parts (src tgt : Table) (hs : src.WF) (ht : tgt.WF)
    (parts : AlterTable × AlterTable × AlterTable)
    (h : tableToParts src tgt = .ok parts) (hks : parts.1.subOps = []) :
    TableFkEquiv src tgt := by
  unfold tableToParts at h
  simp only [Bind.bind, Except.bind] at h
  rcases h1 : addColOps tgt (differences src.colNames tgt.colNames).1 with e | addC
  · simp [h1] at h
  simp only [h1] at h
  rcases h2 : changeColOps src tgt (differences src.colNames tgt.colNames).2.2 with e | chgC
  · simp [h2] at h
  simp only [h2] at h
  rcases h3 : removeColOps src (differences src.colNames tgt.colNames).2.1 with e | remC
  · simp [h3] at h
  simp only [h3] at h
  rcases h4 : addKeyOps tgt (differences src.idxNames tgt.idxNames).1 with e | addK
  · simp [h4] at h
  simp only [h4] at h
  rcases h5 : removeKeyOps src (differences src.idxNames tgt.idxNames).2.1 with e | remK
  · simp [h5] at h
  simp only [h5] at h
  rcases h6 : changeKeyOps src tgt (differences src.idxNames tgt.idxNames).2.2 with e | chgK
  · simp [h6] at h
  simp only [h6] at h
  rcases h7 : removeConOps src (differences src.conNames tgt.conNames).2.1 with e | remF
  · simp [h7] at h
  simp only [h7] at h
  rcases h8 : addConOps tgt (differences src.conNames tgt.conNames).1 with e | addF
  · simp [h8] at h
  simp only [h8] at h
  rcases h9 : changeConOps src tgt (differences src.conNames tgt.conNames).2.2 with e | chgF
  · simp [h9] at h
  simp only [h9] at h
  have h10 : Except.ok (ε := PyErr)
      ((⟨src.name, addC ++ chgC ++ remC ++ addK ++ remK ++ chgK⟩ : AlterTable),
       (⟨src.name, remF⟩ : AlterTable), (⟨src.name, addF ++ chgF⟩ : AlterTable)) =
      Except.ok parts := h
  have hparts : parts = (⟨src.name, addC ++ chgC ++ remC ++ addK ++ remK ++ chgK⟩,
      ⟨src.name, remF⟩, ⟨src.name, addF ++ chgF⟩) := (Except.ok.inj h10).symm
  rw [hparts] at hks
  simp only [List.append_eq_nil] at hks
  obtain ⟨⟨⟨⟨⟨hac, hcc⟩, hrc⟩, hak⟩, hrk⟩, hck⟩ := hks
  subst hac
  subst hcc
  subst hrc
  subst hak
  subst hrk
  subst hck
  have hColsTgtSub : ∀ c ∈ tgt.colNames, c ∈ src.colNames := by
    have := addColOps_nil tgt _ h1
    intro c hc
    by_contra hcs
    have : c ∈ (differences src.colNames tgt.colNames).1 := by
      simp [differences, List.mem_filter, hc]
      simpa using hcs
    simp_all
  have hColsSrcSub : ∀ c ∈ src.colNames, c ∈ tgt.colNames := by
    have := removeColOps_nil src _ h3
    intro c hc
    by_contra hcs
    have : c ∈ (differences src.colNames tgt.colNames).2.1 := by
      simp [differences, List.mem_filter, hc]
      simpa using hcs
    simp_all
  have hKeysTgtSub : ∀ k ∈ tgt.idxNames, k ∈ src.idxNames := by
    have := addKeyOps_nil tgt _ h4
    intro k hk
    by_contra hks2
    have : k ∈ (differences src.idxNames tgt.idxNames).1 := by
      simp [differences, List.mem_filter, hk]
      simpa using hks2
    simp_all
  have hKeysSrcSub : ∀ k ∈ src.idxNames, k ∈ tgt.idxNames := by
    have := removeKeyOps_nil src _ h5
    intro k hk
    by_contra hks2
    have : k ∈ (differences src.idxNames tgt.idxNames).2.1 := by
      simp [differences, List.mem_filter, hk]
      simpa using hks2
    simp_all
  constructor
  · intro n
    by_cases hn : n ∈ src.colNames
    · have hmem : n ∈ (differences src.colNames tgt.colNames).2.2 := by
        simp [differences, List.mem_filter, hn]
        simpa using hColsSrcSub n hn
      obtain ⟨a, ha1, ha2⟩ := changeColOps_ptwise src tgt _ h2 n hmem
      rw [ha1, ha2]
    · have hn2 : n ∉ tgt.colNames := fun hc => hn (hColsTgtSub n hc)
      rw [(findCol_eq_none_iff src n).mpr hn, (findCol_eq_none_iff tgt n).mpr hn2]
  · intro cols
    have hiff : (∃ i ∈ src.indexes, cols.isPrefixOf i.columns) ↔
        (∃ i ∈ tgt.indexes, cols.isPrefixOf i.columns) := by
      constructor
      · rintro ⟨i, hi, hp⟩
        have hmem : i.name ∈ (differences src.idxNames tgt.idxNames).2.2 := by
          have hn1 : i.name ∈ src.idxNames := List.mem_map_of_mem Index.name hi
          simp [differences, List.mem_filter, hn1]
          simpa using hKeysSrcSub i.name hn1
        obtain ⟨a, ha1, ha2⟩ := changeKeyOps_ptwise src tgt _ h6 i.name hmem
        have hai : a = i := by
          rw [findIdx_self src hs.2.1 i hi] at ha1
          exact (Option.some_inj.mp ha1).symm
        subst hai
        exact ⟨a, (findIdx_mem tgt a.name a ha2).1, hp⟩
      · rintro ⟨i, hi, hp⟩
        have hn1 : i.name ∈ tgt.idxNames := List.mem_map_of_mem Index.name hi
        have hmem : i.name ∈ (differences src.idxNames tgt.idxNames).2.2 := by
          have hn0 : i.name ∈ src.idxNames := hKeysTgtSub i.name hn1
          simp [differences, List.mem_filter, hn0]
          simpa using hn1
        obtain ⟨a, ha1, ha2⟩ := changeKeyOps_ptwise src tgt _ h6 i.name hmem
        have hai : a = i := by
          rw [findIdx_self tgt ht.2.1 i hi] at ha2
          exact (Option.some_inj.mp ha2).symm
        subst hai
        exact ⟨a, (findIdx_mem src a.name a ha1).1, hp⟩
    rcases hb1 : src.indexes.any (fun i => cols.isPrefixOf i.columns) <;>
      rcases hb2 : tgt.indexes.any (fun i => cols.isPrefixOf i.columns)
    · rfl
    · exact absurd (List.any_eq_true.mpr (hiff.mpr (List.any_eq_true.mp hb2))) (by simp [hb1])
    · exact absurd (List.any_eq_true.mpr (hiff.mp (List.any_eq_true.mp hb1))) (by simp [hb2])
    · rfl

end Mygrations

namespace Mygrations

/-- A split diff without a kitchen-sink group relates FK-equivalent
tables. -/
theorem tableToSplit_clean (src tgt : Table) (so : SplitOps)
    (h : tableToSplit src tgt = .ok so) (hk : so.kitchenSink = none)
    (hs : src.WF) (ht : tgt.WF) : TableFkEquiv src tgt := by
  unfold tableToSplit at h
  rcases hp : tableToParts src tgt with e | parts
  · rw [hp] at h
    cases h
  · rw [hp] at h
    have hso : so = ⟨if parts.2.1.subOps ≠ [] then some parts.2.1 else none,
        if parts.1.subOps ≠ [] then some parts.1 else none,
        if parts.2.2.subOps ≠ [] then some parts.2.2 else none⟩ :=
      (Except.ok.inj h).symm
    rw [hso] at hk
    by_cases hne : parts.1.subOps ≠ []
    · rw [show SplitOps.kitchenSink ⟨_, if parts.1.subOps ≠ [] then some parts.1 else none, _⟩ =
        (if parts.1.subOps ≠ [] then some parts.1 else none) from rfl, if_pos hne] at hk
      cases hk
    · exact tableFkEquiv_of_parts src tgt hs ht parts hp (not_not.mp hne)

/-- When `_process_updates` returns at all, it returns the empty
dictionary, and every overlap table is FK-equivalent between source and
target (its split diff had no `fks` and no `kitchen_sink` group). -/
theorem processUpdates_ok (dbTo : Database) (fromTabs : List Table)
    (l : List String) (upd : UpdRes)
    (hwfF : ∀ t ∈ fromTabs, t.WF) (hTo : Database.WF dbTo)
    (h : processUpdates dbTo fromTabs l = .ok upd) :
    upd = ⟨[], []⟩ ∧ ∀ n ∈ l, ∃ src tgt,
      (Database.mk fromTabs).findTable n = some src ∧
      dbTo.findTable n = some tgt ∧ TableFkEquiv src tgt := by
  induction l with
  | nil =>
    refine ⟨(Except.ok.inj h).symm, ?_⟩
    intro n hn
    cases hn
  | cons n rest ih =>
    simp only [processUpdates] at h
    rcases hf1 : dbTo.findTable n with _ | target
    · simp only [hf1] at h
      cases h
    · simp only [hf1] at h
      rcases hf2 : (Database.mk fromTabs).findTable n with _ | source
      · simp only [hf2] at h
        cases h
      · simp only [hf2] at h
        rcases hsp : tableToSplit source target with e | so
        · simp only [hsp] at h
          cases h
        · simp only [hsp] at h
          by_cases hfk : so.fks.isSome
          · rw [if_pos hfk] at h
            cases h
          · rw [if_neg hfk] at h
            by_cases hks : so.kitchenSink.isSome
            · rw [if_pos hks] at h
              cases h
            · rw [if_neg hks] at h
              have hwfS : source.WF :=
                hwfF source (List.mem_of_find?_eq_some hf2)
              have hwfT : target.WF :=
                hTo.2 target (List.mem_of_find?_eq_some hf1)
              have hequiv : TableFkEquiv source target :=
                tableToSplit_clean source target so hsp
                  (Option.not_isSome_iff_eq_none.mp hks) hwfS hwfT
              obtain ⟨hupd, hrest⟩ := ih h
              refine ⟨hupd, ?_⟩
              intro m hm
              rcases List.mem_cons.mp hm with hm | hm
              · subst hm
                exact ⟨source, target, hf2, hf1, hequiv⟩
              · exact hrest m hm

end Mygrations

namespace Mygrations

/-- `_process_adds` entry point: the loop lemma at the canonical fuel. -/
theorem processAdds_spec (dbTo tracking : Database) (toAdd : List String)
    (hfind : ∀ n ∈ toAdd, (dbTo.findTable n).isSome)
    (hnodup : toAdd.Nodup)
    (hfresh : ∀ n ∈ toAdd, n ∉ tracking.names) :
    ∃ created sub newErrs good2,
      processAdds dbTo tracking toAdd =
        .ok ⟨created.foldl Database.addTable tracking, sub, good2, newErrs,
             created.map Operation.createTable⟩ ∧
      CheckedCreates tracking created ∧
      FreshCreates tracking created ∧
      (∀ t ∈ created, dbTo.findTable t.name = some t ∧ t.name ∈ toAdd) ∧
      List.Sublist sub toAdd ∧
      (∀ t ∈ created, t.name ∉ sub) ∧
      (∀ n ∈ sub, n ∉ (created.foldl Database.addTable tracking).names) ∧
      (∀ n ∈ sub, ∃ t, dbTo.findTable n = some t ∧ dbTo.unfulfilledFks t = []) ∧
      (newErrs = [] → ∀ n ∈ toAdd, n ∈ created.map Table.name ∨ n ∈ sub) := by
  obtain ⟨created, sub, newErrs, good2, hA, hB, hC, hD, hE, hF, hG, hH, hJ⟩ :=
    addsLoopF_spec dbTo (toAdd.length + 2) ⟨tracking, toAdd, [], [], []⟩ 0
      hfind hnodup hfresh (fun n hn => absurd hn (List.not_mem_nil n))
      (Or.inl (by
        show toAdd.length < toAdd.length + 2
        omega))
      (by
        intro hex n hn
        exfalso
        rcases Classical.em (toAdd = []) with he | he
        · rw [he] at hn
          cases hn
        · exact hex ⟨he, by
            intro hc
            exact he (List.length_eq_zero.mp hc)⟩)
  exact ⟨created, sub, newErrs, good2, by simpa using hA, hB, hC, hD, hE, hF, hG, hH, hJ⟩

/-- Every table of a fresh chain is new to the base schema. -/
theorem freshCreates_names (d : Database) (ts : List Table)
    (h : FreshCreates d ts) : ∀ t ∈ ts, t.name ∉ d.names := by
  induction ts generalizing d with
  | nil => intro t ht; cases ht
  | cons u rest ih =>
    intro t ht
    rcases List.mem_cons.mp ht with ht | ht
    · exact ht ▸ h.1
    · intro hc
      have h2 := ih (d.addTable u) h.2 t ht
      rw [names_addTable_fresh d u h.1] at h2
      exact h2 (List.mem_append.mpr (Or.inl hc))

/-- The tracking schema at the end of `_process` (pass-1 creates, then
cycle creates, then drops) is FK-equivalent to the target schema, name by
name. -/
theorem trD_equiv (dbTo : Database) (fromTabs : List Table)
    (cr1 copies : List Table) (remNames : List String)
    (hfr1 : FreshCreates ⟨fromTabs⟩ cr1)
    (hfr2 : FreshCreates (cr1.foldl Database.addTable ⟨fromTabs⟩) copies)
    (hD1 : ∀ t ∈ cr1, dbTo.findTable t.name = some t)
    (hD2 : ∀ c ∈ copies, ∃ t, dbTo.findTable c.name = some t ∧ TableFkEquiv t c)
    (hcov : ∀ m ∈ dbTo.names, (∃ src, (Database.mk fromTabs).findTable m = some src ∧
        (∃ tgt, dbTo.findTable m = some tgt ∧ TableFkEquiv tgt src)) ∨
      m ∈ cr1.map Table.name ∨ m ∈ copies.map Table.name)
    (hrem : ∀ m ∈ remNames, m ∉ dbTo.names)
    (hremAll : ∀ m, m ∈ fromTabs.map Table.name → m ∉ dbTo.names → m ∈ remNames) :
    DbFkEquivAll dbTo
      (remNames.foldl Database.removeTable
        (copies.foldl Database.addTable (cr1.foldl Database.addTable ⟨fromTabs⟩))) := by
  intro m
  have hbaseNames : (Database.mk fromTabs).names = fromTabs.map Table.name := rfl
  by_cases hmN : m ∈ dbTo.names
  · have hnotRem : m ∉ remNames := fun hc => hrem m hc hmN
    rcases hcov m hmN with ⟨src, hsrc, tgt, htgt, hequiv⟩ | hm1 | hm2
    · have hfinal : (remNames.foldl Database.removeTable
          (copies.foldl Database.addTable (cr1.foldl Database.addTable ⟨fromTabs⟩))).findTable m =
          some src := by
        rw [find_foldl_removeTable, if_neg (by simpa using hnotRem),
          find_foldl_addTable _ copies hfr2, find_foldl_addTable _ cr1 hfr1, hsrc]
      rw [htgt, hfinal]
      exact hequiv
    · obtain ⟨u, hu, hun⟩ := List.mem_map.mp hm1
      have hbase : (Database.mk fromTabs).findTable m = none := by
        rw [findTable_eq_none_iff, hbaseNames]
        have h2 := freshCreates_names _ cr1 hfr1 u hu
        rw [hun] at h2
        exact h2
      rcases hfind : cr1.find? (fun t => t.name = m) with _ | u2
      · rw [List.find?_eq_none] at hfind
        exact absurd (by simpa using hun) (hfind u hu)
      · have hu2 : u2 ∈ cr1 := List.mem_of_find?_eq_some hfind
        have hu2n : u2.name = m := by simpa using List.find?_some hfind
        have hdbu2 := hD1 u2 hu2
        rw [hu2n] at hdbu2
        have hfinal : (remNames.foldl Database.removeTable
            (copies.foldl Database.addTable (cr1.foldl Database.addTable ⟨fromTabs⟩))).findTable m =
            some u2 := by
          rw [find_foldl_removeTable, if_neg (by simpa using hnotRem),
            find_foldl_addTable _ copies hfr2, find_foldl_addTable _ cr1 hfr1, hbase, hfind]
        rw [hdbu2, hfinal]
        exact tableFkEquiv_refl u2
    · obtain ⟨c, hc, hcn⟩ := List.mem_map.mp hm2
      have hfreshC := freshCreates_names _ copies hfr2 c hc
      rw [names_foldl_addTable _ cr1 hfr1, hcn] at hfreshC
      have hm1b : m ∉ (Database.mk fromTabs).names :=
        fun hcc => hfreshC (List.mem_append.mpr (Or.inl hcc))
      have hm2b : m ∉ cr1.map Table.name :=
        fun hcc => hfreshC (List.mem_append.mpr (Or.inr hcc))
      have hcr1none : cr1.find? (fun t => t.name = m) = none := by
        rw [List.find?_eq_none]
        intro x hx
        simp only [decide_eq_true_eq]
        exact fun hxn => hm2b (hxn ▸ List.mem_map_of_mem Table.name hx)
      rcases hfind : copies.find? (fun t => t.name = m) with _ | c2
      · rw [List.find?_eq_none] at hfind
        exact absurd (by simpa using hcn) (hfind c hc)
      · have hc2 : c2 ∈ copies := List.mem_of_find?_eq_some hfind
        have hc2n : c2.name = m := by simpa using List.find?_some hfind
        obtain ⟨t, ht, hteq⟩ := hD2 c2 hc2
        rw [hc2n] at ht
        have hfinal : (remNames.foldl Database.removeTable
            (copies.foldl Database.addTable (cr1.foldl Database.addTable ⟨fromTabs⟩))).findTable m =
            some c2 := by
          rw [find_foldl_removeTable, if_neg (by simpa using hnotRem),
            find_foldl_addTable _ copies hfr2, find_foldl_addTable _ cr1 hfr1,
            (findTable_eq_none_iff _ m).mpr hm1b, hcr1none, hfind]
        rw [ht, hfinal]
        exact hteq
  · by_cases hmR : m ∈ remNames
    · have hfinal : (remNames.foldl Database.removeTable
          (copies.foldl Database.addTable (cr1.foldl Database.addTable ⟨fromTabs⟩))).findTable m =
          none := by
        rw [find_foldl_removeTable, if_pos (by simpa using hmR)]
      rw [(findTable_eq_none_iff dbTo m).mpr hmN, hfinal]
      trivial
    · have hbase : (Database.mk fromTabs).findTable m = none := by
        rw [findTable_eq_none_iff, hbaseNames]
        intro hc
        exact hmR (hremAll m hc hmN)
      have hcr1none : cr1.find? (fun t => t.name = m) = none := by
        rw [List.find?_eq_none]
        intro x hx
        simp only [decide_eq_true_eq]
        intro hxn
        have h2 := hD1 x hx
        rw [hxn] at h2
        exact hmN (mem_names_of_findTable dbTo m x h2)
      have hcopnone : copies.find? (fun t => t.name = m) = none := by
        rw [List.find?_eq_none]
        intro x hx
        simp only [decide_eq_true_eq]
        intro hxn
        obtain ⟨t, ht, _⟩ := hD2 x hx
        rw [hxn] at ht
        exact hmN (mem_names_of_findTable dbTo m t ht)
      have hfinal : (remNames.foldl Database.removeTable
          (copies.foldl Database.addTable (cr1.foldl Database.addTable ⟨fromTabs⟩))).findTable m =
          none := by
        rw [find_foldl_removeTable, if_neg (by simpa using hmR),
          find_foldl_addTable _ copies hfr2, find_foldl_addTable _ cr1 hfr1, hbase,
          hcr1none, hcopnone]
      rw [(findTable_eq_none_iff dbTo m).mpr hmN, hfinal]
      trivial

end Mygrations

namespace Mygrations

/-- A chain of fresh creates, each of which is the target's table of its
name, stays inside the target schema whenever the base does. -/
theorem extends_to_target (dbTo base : Database) (cr : List Table)
    (hfr : FreshCreates base cr) (hD : ∀ t ∈ cr, dbTo.findTable t.name = some t)
    (hbase : DbExtends base dbTo) : DbExtends (cr.foldl Database.addTable base) dbTo := by
  intro n t h
  rw [find_foldl_addTable base cr hfr n] at h
  rcases hb : base.findTable n with _ | u
  · rw [hb] at h
    have h2 : cr.find? (fun x => x.name = n) = some t := h
    have ht : t ∈ cr := List.mem_of_find?_eq_some h2
    have htn : t.name = n := by simpa using List.find?_some h2
    have := hD t ht
    rwa [htn] at this
  · rw [hb] at h
    have h2 : some u = some t := h
    rw [← Option.some_inj.mp h2]
    exact hbase n u hb

/-- Target closure: when the pre-validation run (`mygration(db_to)`)
reports no 1215 errors, every table of the target schema has all its FKs
satisfiable against the full target schema. -/
theorem processBody_closure (dbTo : Database) (check : PlanRes)
    (hTo : dbTo.WF) (hchk : processBody dbTo [] = .ok check) (he : check.errors = []) :
    ∀ n t, dbTo.findTable n = some t → dbTo.unfulfilledFks t = [] := by
  have hd : differences (List.map Table.name ([] : List Table)) dbTo.names =
      (dbTo.names, [], []) := by
    simp [differences]
  obtain ⟨cr1, sub1, errs1, good1, hA, hB, hC, hD, hE, hF, hG, hH, hJ⟩ :=
    processAdds_spec dbTo ⟨[]⟩ dbTo.names
      (fun n hn => findTable_isSome_of_mem dbTo n hn)
      hTo.1
      (fun n _ hc => absurd hc (List.not_mem_nil n))
  have hempty_ext : DbExtends ⟨[]⟩ dbTo := fun n t h => Option.noConfusion h
  have hgood1 : ∀ u ∈ cr1, dbTo.unfulfilledFks u = [] :=
    checkedCreates_all_good dbTo ⟨[]⟩ cr1 hB (fun t ht => (hD t ht).1) hempty_ext
  simp only [processBody, hd, hA] at hchk
  by_cases herr : errs1 = []
  · subst herr
    rw [if_neg (by simp)] at hchk
    simp only [processUpdates] at hchk
    by_cases hsub : sub1 = []
    · intro n t hft
      have hn : n ∈ dbTo.names := mem_names_of_findTable dbTo n t hft
      rcases hJ rfl n hn with hcr | hsb
      · obtain ⟨u, hu, hun⟩ := List.mem_map.mp hcr
        have h2 := (hD u hu).1
        rw [hun, hft] at h2
        rw [Option.some_inj.mp h2]
        exact hgood1 u hu
      · rw [hsub] at hsb
        cases hsb
    · obtain ⟨cr2, sub2, errs2, good2, hA2, hB2, hC2, hD2, hE2, hF2, hG2, hH2, hJ2⟩ :=
        processAdds_spec dbTo (cr1.foldl Database.addTable ⟨[]⟩) sub1
          (fun n hn => findTable_isSome_of_mem dbTo n (List.Sublist.subset hE hn))
          (List.Nodup.sublist hE hTo.1)
          hG
      rw [if_pos hsub] at hchk
      simp only [hA2] at hchk
      have htrAext : DbExtends (cr1.foldl Database.addTable ⟨[]⟩) dbTo :=
        extends_to_target dbTo ⟨[]⟩ cr1 hC (fun t ht => (hD t ht).1) hempty_ext
      have hgood2 : ∀ u ∈ cr2, dbTo.unfulfilledFks u = [] :=
        checkedCreates_all_good dbTo (cr1.foldl Database.addTable ⟨[]⟩) cr2 hB2
          (fun t ht => (hD2 t ht).1) htrAext
      by_cases herr2 : errs2 = []
      · intro n t hft
        have hn : n ∈ dbTo.names := mem_names_of_findTable dbTo n t hft
        rcases hJ rfl n hn with hcr | hsb
        · obtain ⟨u, hu, hun⟩ := List.mem_map.mp hcr
          have h2 := (hD u hu).1
          rw [hun, hft] at h2
          rw [Option.some_inj.mp h2]
          exact hgood1 u hu
        · rcases hJ2 herr2 n hsb with hcr2 | hsb2
          · obtain ⟨u, hu, hun⟩ := List.mem_map.mp hcr2
            have h2 := (hD2 u hu).1
            rw [hun, hft] at h2
            rw [Option.some_inj.mp h2]
            exact hgood2 u hu
          · obtain ⟨t2, hft2, hgd⟩ := hH2 n hsb2
            rw [hft] at hft2
            rw [Option.some_inj.mp hft2.symm] at hgd
            exact hgd
      · exfalso
        rw [if_pos herr2] at hchk
        rw [if_neg (by simp)] at hchk
        cases hchk
  · exfalso
    rw [if_pos herr] at hchk
    have h2 := Except.ok.inj hchk
    rw [← h2] at he
    exact herr he

end Mygrations

namespace Mygrations

/-- FK safety of the full `_process` operation stream, assembled from its
four segments: checked creates, stripped cycle creates, drops of tables
outside the target, and constraint-only deferred alters whose FKs are
target-satisfiable. -/
theorem safeChain_four (tr0 dbTo : Database) (ts copies : List Table)
    (remNames : List String) (D : List Operation)
    (hSA : SafeChain tr0 (ts.map Operation.createTable))
    (hSB : SafeChain (applyOps tr0 (ts.map Operation.createTable))
      (copies.map Operation.createTable))
    (hfrB : FreshCreates (applyOps tr0 (ts.map Operation.createTable)) copies)
    (hrem : ∀ m ∈ remNames, m ∉ dbTo.names)
    (hDalters : ∀ op ∈ D, ∃ a, op = Operation.alterTableOp a ∧ ∀ o ∈ a.subOps, o.conOnly)
    (hABsat : AllSat dbTo (fksAdded (ts.map Operation.createTable ++
      copies.map Operation.createTable)))
    (hDsat : AllSat dbTo (fksAdded D))
    (hTrD : DbFkEquivAll dbTo (applyOps tr0 (ts.map Operation.createTable ++
        copies.map Operation.createTable ++ remNames.map Operation.removeTableOp))) :
    SafeChain tr0 (ts.map Operation.createTable ++ copies.map Operation.createTable ++
      remNames.map Operation.removeTableOp ++ D) := by
  have hAB : AllSat (applyOps tr0 (ts.map Operation.createTable ++
      copies.map Operation.createTable)) (fksAdded (ts.map Operation.createTable ++
      copies.map Operation.createTable)) := by
    rw [applyOps_append, fksAdded_append]
    intro z hz
    rcases List.mem_append.mp hz with hz1 | hz2
    · refine fkSat_extends _ _ z.1 z.2 ?_
        (hSA (ts.map Operation.createTable) (List.prefix_refl _) z hz1)
      rw [applyOps_creates (applyOps tr0 (ts.map Operation.createTable)) copies]
      exact extends_foldl_addTable _ copies hfrB
    · exact hSB (copies.map Operation.createTable) (List.prefix_refl _) z hz2
  intro p hp
  rcases prefix_append_cases _ D p hp with h1 | ⟨u, rfl, hu⟩
  · rcases prefix_append_cases _ (remNames.map Operation.removeTableOp) p h1 with h2 | ⟨r, rfl, hrr⟩
    · rcases prefix_append_cases _ (copies.map Operation.createTable) p h2 with h3 | ⟨q, rfl, hq⟩
      · exact hSA p h3
      · rw [applyOps_append, fksAdded_append]
        obtain ⟨ts0, hts0, rfl⟩ := prefix_of_map Operation.createTable copies q hq
        intro z hz
        rcases List.mem_append.mp hz with hz1 | hz2
        · refine fkSat_extends _ _ z.1 z.2 ?_
            (hSA (ts.map Operation.createTable) (List.prefix_refl _) z hz1)
          rw [applyOps_creates (applyOps tr0 (ts.map Operation.createTable)) ts0]
          exact extends_foldl_addTable _ ts0 (freshCreates_front _ copies ts0 hfrB hts0)
        · exact hSB (ts0.map Operation.createTable) (hts0.map Operation.createTable) z hz2
    · obtain ⟨names0, hn0, rfl⟩ := prefix_of_map Operation.removeTableOp remNames r hrr
      rw [applyOps_append, fksAdded_append, fksAdded_removes, List.append_nil,
        applyOps_removes]
      intro z hz
      have hsatTo := hABsat z hz
      obtain ⟨hz1N, hzfN⟩ := fkSat_names dbTo z.1 z.2 hsatTo
      refine fkSat_drops _ names0 z.1 z.2 ?_ ?_ (hAB z hz)
      · intro hc
        exact hrem z.1 (List.Sublist.subset (List.IsPrefix.sublist hn0) hc) hz1N
      · intro hc
        exact hrem z.2.foreignTable (List.Sublist.subset (List.IsPrefix.sublist hn0) hc) hzfN
  · rw [applyOps_append, fksAdded_append, fksAdded_append, fksAdded_removes,
      List.append_nil]
    have hDu : ∀ op ∈ u, ∃ a, op = Operation.alterTableOp a ∧ ∀ o ∈ a.subOps, o.conOnly :=
      fun op hop => hDalters op (List.IsPrefix.subset hu hop)
    have hequiv : DbFkEquivAll dbTo (applyOps (applyOps tr0 (ts.map Operation.createTable ++
        copies.map Operation.createTable ++ remNames.map Operation.removeTableOp)) u) :=
      dbFkEquivAll_trans _ _ _ hTrD (applyOps_alters_equiv _ u hDu)
    intro z hz
    rcases List.mem_append.mp hz with hz1 | hz2
    · rw [← fkSat_equivAll dbTo _ z.1 z.2 hequiv]
      exact hABsat z hz1
    · rw [← fkSat_equivAll dbTo _ z.1 z.2 hequiv]
      obtain ⟨v, hv⟩ := hu
      refine hDsat z ?_
      rw [← hv, fksAdded_append]
      exact List.mem_append.mpr (Or.inl hz2)

end Mygrations

namespace Mygrations

/-- Creates whose tables' constraints all come from the corresponding
target table are target-satisfiable (given target closure). -/
theorem allSat_target (dbTo : Database) (cr : List Table)
    (hD : ∀ t ∈ cr, ∃ t0, dbTo.findTable t.name = some t0 ∧
      ∀ fk ∈ t.constraints, fk ∈ t0.constraints)
    (hclos : ∀ n t, dbTo.findTable n = some t → dbTo.unfulfilledFks t = []) :
    AllSat dbTo (fksAdded (cr.map Operation.createTable)) := by
  intro z hz
  rcases z with ⟨tn, fk⟩
  obtain ⟨t, ht, hname, hfk⟩ := (fksAdded_creates_mem cr tn fk).mp hz
  obtain ⟨t0, hft0, hsub⟩ := hD t ht
  show fkSatisfiableB dbTo tn fk = true
  unfold fkSatisfiableB
  rw [← hname, hft0]
  have hgood := hclos t.name t0 hft0
  have hprob := (unfulfilledFks_eq_nil_iff dbTo t0).mp hgood fk (hsub fk hfk)
  show (fkProblem dbTo t0 fk).isNone = true
  rw [hprob]
  rfl

end Mygrations

namespace Mygrations

/-- FK safety of `mygration._process` for a target schema that passed
pre-validation (target closure): every plan it returns as a list is a safe
chain over the tracking schema. -/
theorem processBody_safe (dbTo : Database) (fromTabs : List Table) (r : PlanRes)
    (ops : List Operation)
    (hTo : dbTo.WF) (hwfF : ∀ t ∈ fromTabs, t.WF)
    (hclos : ∀ n t, dbTo.findTable n = some t → dbTo.unfulfilledFks t = [])
    (hr : processBody dbTo fromTabs = .ok r) (hops : r.ops = some ops) :
    SafeChain ⟨fromTabs⟩ ops := by
  have hTAmem : ∀ n, n ∈ (differences (fromTabs.map Table.name) dbTo.names).1 ↔
      n ∈ dbTo.names ∧ n ∉ fromTabs.map Table.name := by
    intro n
    simp [differences]
  have hRMmem : ∀ m, m ∈ (differences (fromTabs.map Table.name) dbTo.names).2.1 ↔
      m ∈ fromTabs.map Table.name ∧ m ∉ dbTo.names := by
    intro m
    simp [differences]
  have hOVmem : ∀ m, m ∈ (differences (fromTabs.map Table.name) dbTo.names).2.2 ↔
      m ∈ fromTabs.map Table.name ∧ m ∈ dbTo.names := by
    intro m
    simp [differences]
  have hnd1 : (differences (fromTabs.map Table.name) dbTo.names).1.Nodup :=
    List.Nodup.filter _ hTo.1
  obtain ⟨cr1, sub1, errs1, good1, hA1, hB1, hC1, hD1, hE1, hF1, hG1, hH1, hJ1⟩ :=
    processAdds_spec dbTo ⟨fromTabs⟩ (differences (fromTabs.map Table.name) dbTo.names).1
      (fun n hn => findTable_isSome_of_mem dbTo n ((hTAmem n).mp hn).1)
      hnd1
      (fun n hn => ((hTAmem n).mp hn).2)
  have hSA : SafeChain ⟨fromTabs⟩ (cr1.map Operation.createTable) :=
    safeChain_creates _ cr1 hB1 hC1
  simp only [processBody, hA1] at hr
  by_cases herr1 : errs1 = []
  case neg =>
    rw [if_pos herr1] at hr
    have hre := Except.ok.inj hr
    rw [← hre] at hops
    have hopseq : cr1.map Operation.createTable = ops := Option.some_inj.mp hops
    rw [← hopseq]
    exact hSA
  case pos =>
  subst herr1
  rw [if_neg (by simp)] at hr
  rcases hupd : processUpdates dbTo fromTabs
      (differences (fromTabs.map Table.name) dbTo.names).2.2 with e | upd
  · simp only [hupd] at hr
    cases hr
  obtain ⟨hupdEq, hoverlap⟩ := processUpdates_ok dbTo fromTabs _ upd hwfF hTo hupd
  subst hupdEq
  simp only [hupd, List.append_nil] at hr
  have hcov_overlap : ∀ m ∈ dbTo.names, m ∈ fromTabs.map Table.name →
      (∃ src, (Database.mk fromTabs).findTable m = some src ∧
        (∃ tgt, dbTo.findTable m = some tgt ∧ TableFkEquiv tgt src)) := by
    intro m hmN hmF
    obtain ⟨src, tgt, hfs, hft, heq⟩ := hoverlap m ((hOVmem m).mpr ⟨hmF, hmN⟩)
    exact ⟨src, hfs, tgt, hft, tableFkEquiv_symm _ _ heq⟩
  have hremN : ∀ m ∈ (differences (fromTabs.map Table.name) dbTo.names).2.1,
      m ∉ dbTo.names :=
    fun m hm => ((hRMmem m).mp hm).2
  have hremAll : ∀ m, m ∈ fromTabs.map Table.name → m ∉ dbTo.names →
      m ∈ (differences (fromTabs.map Table.name) dbTo.names).2.1 :=
    fun m h1 h2 => (hRMmem m).mpr ⟨h1, h2⟩
  have hAsat : AllSat dbTo (fksAdded (cr1.map Operation.createTable)) :=
    allSat_target dbTo cr1 (fun t ht => ⟨t, (hD1 t ht).1, fun fk hfk => hfk⟩) hclos
  by_cases hsub1 : sub1 = []
  · -- no pending tables after the first pass: no second pass, no cycle loop
    subst hsub1
    rw [if_neg (by simp)] at hr
    simp only [cycleLoop] at hr
    simp only [dropsLoop_spec] at hr
    rw [if_neg (by simp)] at hr
    have hre := Except.ok.inj hr
    rw [← hre] at hops
    have hopseq : cr1.map Operation.createTable ++
        (differences (fromTabs.map Table.name) dbTo.names).2.1.map Operation.removeTableOp =
        ops := Option.some_inj.mp hops
    rw [← hopseq]
    have hcov : ∀ m ∈ dbTo.names, (∃ src, (Database.mk fromTabs).findTable m = some src ∧
        (∃ tgt, dbTo.findTable m = some tgt ∧ TableFkEquiv tgt src)) ∨
        m ∈ cr1.map Table.name ∨ m ∈ ([] : List Table).map Table.name := by
      intro m hmN
      by_cases hmF : m ∈ fromTabs.map Table.name
      · exact Or.inl (hcov_overlap m hmN hmF)
      · rcases hJ1 rfl m ((hTAmem m).mpr ⟨hmN, hmF⟩) with h | h
        · exact Or.inr (Or.inl h)
        · cases h
    have hfold := trD_equiv dbTo fromTabs cr1 []
      (differences (fromTabs.map Table.name) dbTo.names).2.1
      hC1 trivial (fun t ht => (hD1 t ht).1)
      (fun c hc => absurd hc (List.not_mem_nil c))
      hcov hremN hremAll
    have hfour := safeChain_four ⟨fromTabs⟩ dbTo cr1 []
      (differences (fromTabs.map Table.name) dbTo.names).2.1 []
      hSA (safeChain_creates _ [] trivial trivial) trivial hremN
      (fun op hop => absurd hop (List.not_mem_nil op))
      (by
        rw [show (([] : List Table).map Operation.createTable) = [] from rfl,
          List.append_nil]
        exact hAsat)
      (fun z hz => absurd hz (by simp [fksAdded]))
      (by
        rw [show applyOps ⟨fromTabs⟩ (cr1.map Operation.createTable ++
            ([] : List Table).map Operation.createTable ++
            (differences (fromTabs.map Table.name) dbTo.names).2.1.map Operation.removeTableOp) =
            (differences (fromTabs.map Table.name) dbTo.names).2.1.foldl Database.removeTable
              (([] : List Table).foldl Database.addTable
                (cr1.foldl Database.addTable ⟨fromTabs⟩)) from by
          rw [applyOps_append, applyOps_append, applyOps_creates, applyOps_creates,
            applyOps_removes]]
        exact hfold)
    have hshape : cr1.map Operation.createTable ++
        (differences (fromTabs.map Table.name) dbTo.names).2.1.map Operation.removeTableOp =
        cr1.map Operation.createTable ++ ([] : List Table).map Operation.createTable ++
        (differences (fromTabs.map Table.name) dbTo.names).2.1.map Operation.removeTableOp ++
        ([] : List Operation) := by
      simp
    rw [hshape]
    exact hfour
  · -- second add pass runs
    rw [if_pos hsub1] at hr
    obtain ⟨cr2, sub2, errs2, good2, hA2, hB2, hC2, hD2, hE2, hF2, hG2, hH2, hJ2⟩ :=
      processAdds_spec dbTo (cr1.foldl Database.addTable ⟨fromTabs⟩) sub1
        (fun n hn => findTable_isSome_of_mem dbTo n
          ((hTAmem n).mp (List.Sublist.subset hE1 hn)).1)
        (List.Nodup.sublist hE1 hnd1)
        hG1
    simp only [hA2] at hr
    by_cases hcr2 : cr2 = []
    · -- the second pass created nothing: the stream survives
      subst hcr2
      simp only [List.foldl_nil, List.map_nil] at hr
      by_cases herr2 : errs2 = []
      case neg =>
        rw [if_pos herr2, if_neg (by simp)] at hr
        cases hr
      case pos =>
      subst herr2
      rw [if_neg (by simp)] at hr
      rw [if_neg (by simp)] at hr
      have hfindC : ∀ n ∈ sub2, ∃ t, dbTo.findTable n = some t ∧ t.conNames.Nodup := by
        intro n hn
        obtain ⟨t, hft, _⟩ := hH2 n hn
        exact ⟨t, hft, (hTo.2 t (List.mem_of_find?_eq_some hft)).2.2⟩
      obtain ⟨pairs, hCyc, hNames, hPairs⟩ := cycleLoop_spec dbTo sub2 hfindC
        (cr1.map Operation.createTable) []
        (cr1.foldl Database.addTable ⟨fromTabs⟩)
      simp only [hCyc] at hr
      simp only [dropsLoop_spec, List.nil_append] at hr
      -- names and freshness of the stripped copies
      have hcopnames : (pairs.map (fun p => p.2)).map Table.name = sub2 := by
        rw [List.map_map, ← hNames]
        refine List.map_congr_left (fun p hp => ?_)
        show p.2.name = p.1.name
        rw [(hPairs p hp).2]
      have hnd2 : sub2.Nodup := List.Nodup.sublist hE2 (List.Nodup.sublist hE1 hnd1)
      have hfrB : FreshCreates (cr1.foldl Database.addTable ⟨fromTabs⟩)
          (pairs.map (fun p => p.2)) := by
        refine freshCreates_of_nodup _ _ ?_ (by rw [hcopnames]; exact hnd2)
        intro t ht
        obtain ⟨p, hp, hpt⟩ := List.mem_map.mp ht
        have h2 : t.name ∈ sub2 := by
          rw [← hcopnames]
          exact List.mem_map_of_mem Table.name ht
        exact hG2 t.name h2
      have hSB : SafeChain (applyOps ⟨fromTabs⟩ (cr1.map Operation.createTable))
          ((pairs.map (fun p => p.2)).map Operation.createTable) := by
        rw [applyOps_creates]
        refine safeChain_creates_base _ _ ?_ hfrB
        intro c hc fk hfk
        obtain ⟨p, hp, hpt⟩ := List.mem_map.mp hc
        obtain ⟨hfind, hcopy⟩ := hPairs p hp
        have hcols : c.columns = p.1.columns := by
          rw [← hpt, hcopy]
        have hfk2 : fk ∈ p.1.constraints.filter
            (fun c2 => (fkProblem (cr1.foldl Database.addTable ⟨fromTabs⟩) p.1 c2).isNone) := by
          rw [← hpt, hcopy] at hfk
          exact hfk
        have hnone : fkProblem (cr1.foldl Database.addTable ⟨fromTabs⟩) p.1 fk = none :=
          Option.isNone_iff_eq_none.mp (by simpa using (List.mem_filter.mp hfk2).2)
        rw [fkProblem_congr (cr1.foldl Database.addTable ⟨fromTabs⟩)
          (cr1.foldl Database.addTable ⟨fromTabs⟩) c p.1 fk rfl (findCol_congr c p.1 hcols)]
        exact hnone
      have hABsat : AllSat dbTo (fksAdded (cr1.map Operation.createTable ++
          (pairs.map (fun p => p.2)).map Operation.createTable)) := by
        rw [fksAdded_append]
        intro z hz
        rcases List.mem_append.mp hz with hz1 | hz2
        · exact hAsat z hz1
        · refine allSat_target dbTo (pairs.map (fun p => p.2)) ?_ hclos z hz2
          intro c hc
          obtain ⟨p, hp, hpt⟩ := List.mem_map.mp hc
          obtain ⟨hfind, hcopy⟩ := hPairs p hp
          refine ⟨p.1, ?_, ?_⟩
          · rw [← hpt, hcopy]
            exact hfind
          · intro fk hfk
            rw [← hpt, hcopy] at hfk
            exact (List.mem_filter.mp hfk).1
      have hDsat : AllSat dbTo (fksAdded (pairs.map (fun p => Operation.alterTableOp
          ⟨p.1.name, (((cr1.foldl Database.addTable ⟨fromTabs⟩).unfulfilledFks p.1).map
            (fun b => SubOp.addConstraintOp b.foreignKey))⟩))) := by
        intro z hz
        unfold fksAdded at hz
        obtain ⟨op, hop, hmem⟩ := List.mem_flatMap.mp hz
        obtain ⟨p, hp, hpeq⟩ := List.mem_map.mp hop
        rw [← hpeq, opFksAdded_alter_adds] at hmem
        obtain ⟨b, hb, hbeq⟩ := List.mem_map.mp hmem
        obtain ⟨hbmem, _⟩ := mem_unfulfilledFks _ p.1 b hb
        obtain ⟨hfind, _⟩ := hPairs p hp
        rw [← hbeq]
        show fkSatisfiableB dbTo p.1.name b.foreignKey = true
        unfold fkSatisfiableB
        rw [hfind]
        have hprob := (unfulfilledFks_eq_nil_iff dbTo p.1).mp
          (hclos p.1.name p.1 hfind) b.foreignKey hbmem
        show (fkProblem dbTo p.1 b.foreignKey).isNone = true
        rw [hprob]
        rfl
      have hDalters : ∀ op ∈ pairs.map (fun p => Operation.alterTableOp
          ⟨p.1.name, (((cr1.foldl Database.addTable ⟨fromTabs⟩).unfulfilledFks p.1).map
            (fun b => SubOp.addConstraintOp b.foreignKey))⟩),
          ∃ a, op = Operation.alterTableOp a ∧ ∀ o ∈ a.subOps, o.conOnly := by
        intro op hop
        obtain ⟨p, hp, hpeq⟩ := List.mem_map.mp hop
        refine ⟨_, hpeq.symm, ?_⟩
        intro o ho
        obtain ⟨b, _, hbeq⟩ := List.mem_map.mp ho
        rw [← hbeq]
        trivial
      have hcov : ∀ m ∈ dbTo.names, (∃ src, (Database.mk fromTabs).findTable m = some src ∧
          (∃ tgt, dbTo.findTable m = some tgt ∧ TableFkEquiv tgt src)) ∨
          m ∈ cr1.map Table.name ∨ m ∈ (pairs.map (fun p => p.2)).map Table.name := by
        intro m hmN
        by_cases hmF : m ∈ fromTabs.map Table.name
        · exact Or.inl (hcov_overlap m hmN hmF)
        · rcases hJ1 rfl m ((hTAmem m).mpr ⟨hmN, hmF⟩) with h | h
          · exact Or.inr (Or.inl h)
          · rcases hJ2 rfl m h with h2 | h2
            · rw [List.map_nil] at h2
              cases h2
            · rw [hcopnames]
              exact Or.inr (Or.inr h2)
      have hD2c : ∀ c ∈ pairs.map (fun p => p.2), ∃ t, dbTo.findTable c.name = some t ∧
          TableFkEquiv t c := by
        intro c hc
        obtain ⟨p, hp, hpt⟩ := List.mem_map.mp hc
        obtain ⟨hfind, hcopy⟩ := hPairs p hp
        refine ⟨p.1, ?_, ?_⟩
        · rw [← hpt, hcopy]
          exact hfind
        · rw [← hpt, hcopy]
          exact ⟨fun n => rfl, fun cols => rfl⟩
      have hfold := trD_equiv dbTo fromTabs cr1 (pairs.map (fun p => p.2))
        (differences (fromTabs.map Table.name) dbTo.names).2.1
        hC1 hfrB (fun t ht => (hD1 t ht).1) hD2c hcov hremN hremAll
      have hTrD : DbFkEquivAll dbTo (applyOps ⟨fromTabs⟩ (cr1.map Operation.createTable ++
          (pairs.map (fun p => p.2)).map Operation.createTable ++
          (differences (fromTabs.map Table.name) dbTo.names).2.1.map Operation.removeTableOp)) := by
        rw [show applyOps ⟨fromTabs⟩ (cr1.map Operation.createTable ++
            (pairs.map (fun p => p.2)).map Operation.createTable ++
            (differences (fromTabs.map Table.name) dbTo.names).2.1.map Operation.removeTableOp) =
            (differences (fromTabs.map Table.name) dbTo.names).2.1.foldl Database.removeTable
              ((pairs.map (fun p => p.2)).foldl Database.addTable
                (cr1.foldl Database.addTable ⟨fromTabs⟩)) from by
          rw [applyOps_append, applyOps_append, applyOps_creates, applyOps_creates,
            applyOps_removes]]
        exact hfold
      have hfour := safeChain_four ⟨fromTabs⟩ dbTo cr1 (pairs.map (fun p => p.2))
        (differences (fromTabs.map Table.name) dbTo.names).2.1
        (pairs.map (fun p => Operation.alterTableOp
          ⟨p.1.name, (((cr1.foldl Database.addTable ⟨fromTabs⟩).unfulfilledFks p.1).map
            (fun b => SubOp.addConstraintOp b.foreignKey))⟩))
        hSA hSB (by rw [applyOps_creates]; exact hfrB) hremN hDalters hABsat hDsat hTrD
      have hBmap : pairs.map (fun p => Operation.createTable p.2) =
          (pairs.map (fun p => p.2)).map Operation.createTable := by
        rw [List.map_map]
        rfl
      by_cases hflush : (pairs.map (fun p => Operation.alterTableOp
          ⟨p.1.name, (((cr1.foldl Database.addTable ⟨fromTabs⟩).unfulfilledFks p.1).map
            (fun b => SubOp.addConstraintOp b.foreignKey))⟩)) = []
      · rw [if_neg (by simp [hflush])] at hr
        have hre := Except.ok.inj hr
        rw [← hre] at hops
        have hopseq := Option.some_inj.mp hops
        rw [← hopseq]
        rw [show cr1.map Operation.createTable ++
            pairs.map (fun p => Operation.createTable p.2) ++
            (differences (fromTabs.map Table.name) dbTo.names).2.1.map Operation.removeTableOp =
            cr1.map Operation.createTable ++
            (pairs.map (fun p => p.2)).map Operation.createTable ++
            (differences (fromTabs.map Table.name) dbTo.names).2.1.map Operation.removeTableOp ++
            (pairs.map (fun p => Operation.alterTableOp
              ⟨p.1.name, (((cr1.foldl Database.addTable ⟨fromTabs⟩).unfulfilledFks p.1).map
                (fun b => SubOp.addConstraintOp b.foreignKey))⟩)) from by
          rw [hBmap, hflush, List.append_nil]]
        exact hfour
      · rw [if_pos hflush] at hr
        have hre := Except.ok.inj hr
        rw [← hre] at hops
        have hopseq := Option.some_inj.mp hops
        rw [← hopseq]
        rw [show cr1.map Operation.createTable ++
            pairs.map (fun p => Operation.createTable p.2) ++
            (differences (fromTabs.map Table.name) dbTo.names).2.1.map Operation.removeTableOp ++
            (pairs.map (fun p => Operation.alterTableOp
              ⟨p.1.name, (((cr1.foldl Database.addTable ⟨fromTabs⟩).unfulfilledFks p.1).map
                (fun b => SubOp.addConstraintOp b.foreignKey))⟩)) =
            cr1.map Operation.createTable ++
            (pairs.map (fun p => p.2)).map Operation.createTable ++
            (differences (fromTabs.map Table.name) dbTo.names).2.1.map Operation.removeTableOp ++
            (pairs.map (fun p => Operation.alterTableOp
              ⟨p.1.name, (((cr1.foldl Database.addTable ⟨fromTabs⟩).unfulfilledFks p.1).map
                (fun b => SubOp.addConstraintOp b.foreignKey))⟩)) from by
          rw [hBmap]]
        exact hfour
    · -- the second pass emitted creates: the stream is rebound to None,
      -- so no list is ever returned
      exfalso
      by_cases herr2 : errs2 = []
      case neg =>
        rw [if_pos herr2, if_neg (by simp)] at hr
        cases hr
      case pos =>
      subst herr2
      rw [if_neg (by simp)] at hr
      rw [if_pos (by simpa using hcr2)] at hr
      rcases sub2 with _ | ⟨m2, rest2⟩
      · simp only [cycleLoop] at hr
        rcases hrm : (differences (fromTabs.map Table.name) dbTo.names).2.1 with _ | ⟨m3, rest3⟩
        · rw [hrm] at hr
          simp only [dropsLoop] at hr
          rw [if_neg (by simp)] at hr
          have hre := Except.ok.inj hr
          rw [← hre] at hops
          cases hops
        · rw [hrm, dropsLoop_none_cons] at hr
          cases hr
      · obtain ⟨t2, hft2, _⟩ := hH2 m2 (List.mem_cons_self m2 rest2)
        have hwt2 : t2.conNames.Nodup := (hTo.2 t2 (List.mem_of_find?_eq_some hft2)).2.2
        simp only [cycleLoop_none_cons dbTo m2 rest2 []
          (List.foldl Database.addTable (List.foldl Database.addTable ⟨fromTabs⟩ cr1) cr2)
          t2 hft2 hwt2] at hr
        cases hr

end Mygrations

namespace Mygrations

/-- C1 (confirmed): FK safety of the plan. For every accepted input pair
for which the planner reports no 1215 errors and returns an operation
list, and for every prefix of that list, applying the prefix in order to
the tracking schema (a deep clone of `db_from`, or the empty database when
`db_from` is null) yields a schema in which every foreign key added by the
prefix is satisfiable. Well-formedness of the inputs records that names of
tables, columns, indexes and constraints are Python dictionary keys. -/
theorem claim_C1_fk_safety (dbTo : Database) (dbFrom : Option Database) (r : PlanRes)
    (ops p : List Operation) (tn : String) (fk : Constraint)
    (hTo : dbTo.WF) (hFrom : OptWF dbFrom)
    (hr : process dbTo dbFrom = .ok r) (he : r.errors = [])
    (hops : r.ops = some ops) (hp : p <+: ops) (hmem : (tn, fk) ∈ fksAdded p) :
    fkSatisfiableB (applyOps (initialTracking dbFrom) p) tn fk = true := by
  unfold process at hr
  by_cases htr : dbOptTruthy dbFrom
  · rw [if_pos htr] at hr
    rcases hchk : processBody dbTo [] with e | check
    · simp only [hchk] at hr
      cases hr
    · simp only [hchk] at hr
      by_cases hce : check.errors = []
      · rw [if_neg (by simp [hce])] at hr
        rcases dbFrom with _ | d
        · simp [dbOptTruthy] at htr
        · have hclos := processBody_closure dbTo check hTo hchk hce
          have hwfF : ∀ t ∈ d.tables, t.WF := hFrom.2
          have hsafe := processBody_safe dbTo d.tables r ops hTo hwfF hclos hr hops
          exact hsafe p hp (tn, fk) hmem
      · rw [if_pos hce] at hr
        have hre := Except.ok.inj hr
        rw [← hre] at he
        exact absurd he hce
  · rw [if_neg htr] at hr
    have hclos := processBody_closure dbTo r hTo hr he
    have hsafe := processBody_safe dbTo [] r ops hTo
      (fun t ht => absurd ht (List.not_mem_nil t)) hclos hr hops
    have h2 := hsafe p hp (tn, fk) hmem
    rcases dbFrom with _ | d
    · exact h2
    · have hde : d.tables = [] := by
        simp [dbOptTruthy] at htr
        exact htr
      have hdd : initialTracking (some d) = (⟨[]⟩ : Database) := by
        show d = _
        rcases d with ⟨tabs⟩
        simp only at hde
        rw [hde]
      rw [hdd]
      exact h2

/-- Witness for C1: planning the two-table target `wDb` from scratch
returns the creates `wOps` with no errors; the full prefix adds the FK
`wFk` of table `b`, and it is satisfiable in the resulting tracking
schema. -/
theorem claim_C1_fk_safety_witness :
    wDb.WF ∧ OptWF none ∧ process wDb none = .ok ⟨[], some wOps⟩ ∧
    (⟨[], some wOps⟩ : PlanRes).errors = [] ∧
    (⟨[], some wOps⟩ : PlanRes).ops = some wOps ∧
    wOps <+: wOps ∧ ("b", wFk) ∈ fksAdded wOps ∧
    fkSatisfiableB (applyOps (initialTracking none) wOps) "b" wFk = true :=
  ⟨by decide, trivial, by rfl, rfl, rfl, List.prefix_refl _, by decide,
   claim_C1_fk_safety wDb none ⟨[], some wOps⟩ wOps wOps "b" wFk
     (by decide) trivial (by rfl) rfl rfl (List.prefix_refl _) (by decide)⟩

end Mygrations
